import Mathlib

/-! # TaskScheduler: a shallow embedding of the cooperative scheduler

The C++ sources (`TaskKey.h`, `TaskMeta.h`, `Task.h`, `BoolArray32.h`,
`FixedVector.h`, `FixedQueue.h`, `TaskQueue.h`, `TaskScheduler.h`) are
translated function by function.
Machine integers are natural numbers with explicit wrap-around; arrays are
lists read with `getD` and written with `set`; a function pointer is
`Option Nat` (`none` is `nullptr`, `some f` is the function named `f`).
-/

namespace TaskScheduler

/-! ## Machine arithmetic -/

/-- The modulus of `uint32_t`. -/
abbrev U32 : Nat := 4294967296

/-- The constant `UINT32_MAX`. -/
abbrev UINT32_MAX : Nat := 4294967295

/-- The constant `IScheduler::INVALID_TASK_ID` (`UINT8_MAX`). -/
abbrev INVALID_TASK_ID : Nat := 255

/-- The constant `MAX_NOTIFY_COUNT` (`UINT8_MAX`). -/
abbrev MAX_NOTIFY_COUNT : Nat := 255

/-- Addition on `uint32_t`. -/
def add32 (a b : Nat) : Nat := (a + b) % U32

/-- Subtraction on `uint32_t`. -/
def sub32 (a b : Nat) : Nat := (a + (U32 - b % U32)) % U32

/-- Multiplication on `uint32_t`. -/
def mul32 (a b : Nat) : Nat := (a * b) % U32

/-- Conversion to `int8_t` (two's complement wrap). -/
def toInt8 (x : Int) : Int := (x + 128) % 256 - 128

/-- The helper `earlier(a, b)`: `(int32_t)(a - b) < 0`, that is, the
unsigned difference has its top bit set. -/
def earlier (a b : Nat) : Bool := decide (2147483648 ≤ sub32 a b)

/-! ## BoolArray32 -/

/-- The struct `BoolArray32`: one `uint32_t` of flags. -/
structure BoolArray32 where
  v : Nat
deriving DecidableEq, Repr

namespace BoolArray32

/-- `clear()`: `v = 0`. -/
def clear (_b : BoolArray32) : BoolArray32 := ⟨0⟩

/-- `set(idx)`: `v |= (1u << idx)`. -/
def set (b : BoolArray32) (idx : Nat) : BoolArray32 :=
  ⟨(b.v ||| ((1 <<< idx) % U32)) % U32⟩

/-- `get(idx)`: `(v >> idx) & 1u`. -/
def get (b : BoolArray32) (idx : Nat) : Bool := ((b.v >>> idx) &&& 1) != 0

end BoolArray32

/-! ## TaskKey -/

/-- The struct `TaskKey`: one byte `[prio:3 | idx:5]`. -/
structure TaskKey where
  v : Nat
deriving DecidableEq, Repr

instance : Inhabited TaskKey := ⟨⟨0⟩⟩

namespace TaskKey

/-- `set(prio, idx)`: `v = (uint8_t)((prio << 5) | (idx & 0x1F))`, also the
two-argument constructor. -/
def set (prio idx : Nat) : TaskKey := ⟨((prio <<< 5) ||| (idx &&& 0x1F)) % 256⟩

/-- `prio()`: `(uint8_t)(v >> 5)`. -/
def prio (k : TaskKey) : Nat := (k.v >>> 5) % 256

/-- `idx()`: `(uint8_t)(v & 0x1F)`. -/
def idx (k : TaskKey) : Nat := (k.v &&& 0x1F) % 256

/-- `operator<`: compares the raw bytes. -/
def lt (a b : TaskKey) : Bool := decide (a.v < b.v)

end TaskKey

/-! ## TaskMeta -/

/-- The class `TaskMeta`: one byte, bit 0 in-use, bit 1 enabled, bits 2..4
priority. -/
structure TaskMeta where
  v : Nat
deriving DecidableEq, Repr

namespace TaskMeta

/-- The flag `INUSE`. -/
abbrev INUSE : Nat := 0x01
/-- The flag `EN`. -/
abbrev EN : Nat := 0x02
/-- The mask `PRIO_MASK`. -/
abbrev PRIO_MASK : Nat := 0x1C
/-- The shift `PRIO_SHIFT`. -/
abbrev PRIO_SHIFT : Nat := 2

/-- `clear()`: `v = 0`. -/
def clear (_m : TaskMeta) : TaskMeta := ⟨0⟩

/-- `setInUse(on)`. -/
def setInUse (m : TaskMeta) (onFlag : Bool) : TaskMeta :=
  if onFlag then ⟨(m.v ||| INUSE) % 256⟩ else ⟨m.v &&& (0xFF ^^^ INUSE)⟩

/-- `inUse()`: `v & INUSE`. -/
def inUse (m : TaskMeta) : Bool := (m.v &&& INUSE) != 0

/-- `enable()`: `v |= EN`. -/
def enable (m : TaskMeta) : TaskMeta := ⟨(m.v ||| EN) % 256⟩

/-- `disable()`: `v &= ~EN`. -/
def disable (m : TaskMeta) : TaskMeta := ⟨m.v &&& (0xFF ^^^ EN)⟩

/-- `enabled()`: `v & EN`. -/
def enabled (m : TaskMeta) : Bool := (m.v &&& EN) != 0

/-- `setEnabled(on)`. -/
def setEnabled (m : TaskMeta) (onFlag : Bool) : TaskMeta :=
  if onFlag then m.enable else m.disable

/-- `setPrio(p)`: `v = (v & ~PRIO_MASK) | ((p & 7) << PRIO_SHIFT)`. -/
def setPrio (m : TaskMeta) (p : Nat) : TaskMeta :=
  ⟨((m.v &&& (0xFF ^^^ PRIO_MASK)) ||| ((p &&& 7) <<< PRIO_SHIFT)) % 256⟩

/-- `prio()`: `(v & PRIO_MASK) >> PRIO_SHIFT`. -/
def prio (m : TaskMeta) : Nat := (m.v &&& PRIO_MASK) >>> PRIO_SHIFT

end TaskMeta

/-! ## Task -/

/-- The struct `Task`: next wake, callback pointer, metadata byte. -/
structure Task where
  next : Nat
  cb : Option Nat
  meta : TaskMeta
deriving DecidableEq, Repr

/-- The default constructor `Task()`: `next(0), cb(nullptr)`, `meta.v = 0`. -/
instance : Inhabited Task := ⟨⟨0, none, ⟨0⟩⟩⟩

namespace Task

/-- `ready()`: `meta.inUse() && meta.enabled() && cb`. -/
def ready (x : Task) : Bool := x.meta.inUse && x.meta.enabled && x.cb.isSome

/-- `markFree()`: clears the metadata and nulls the callback. -/
def markFree (x : Task) : Task := { x with meta := x.meta.clear, cb := none }

end Task

/-! ## FixedVector -/

/-- The struct `FixedVector<T, CAP>`: the array `data` and the element
count. The capacity is passed to the operations that read it. -/
structure FixedVector (T : Type) where
  data : List T
  count : Nat
deriving DecidableEq, Repr

namespace FixedVector

variable {T : Type} [Inhabited T]

/-- `size()`. -/
def size (vec : FixedVector T) : Nat := vec.count

/-- `operator[]`. -/
def get (vec : FixedVector T) (i : Nat) : T := vec.data.getD i default

/-- `clear()`: `count = 0`. -/
def clear (vec : FixedVector T) : FixedVector T := { vec with count := 0 }

/-- `push_back(v)`: `if (count < CAP) data[count++] = v`. -/
def push_back (CAP : Nat) (vec : FixedVector T) (x : T) : FixedVector T :=
  if vec.count < CAP then
    { data := vec.data.set vec.count x, count := vec.count + 1 }
  else vec

/-- The loop of `erase`: `for (i = pos + 1; i < count; ++i) data[i-1] = data[i]`,
with `n` the number of iterations left (`count - i`). -/
def eraseLoop : Nat → Nat → List T → List T
  | 0, _, d => d
  | n + 1, i, d => eraseLoop n (i + 1) (d.set (i - 1) (d.getD i default))

/-- `erase(pos)`. -/
def erase (vec : FixedVector T) (pos : Nat) : FixedVector T :=
  if pos ≥ vec.count then vec
  else
    { data := eraseLoop (vec.count - (pos + 1)) (pos + 1) vec.data,
      count := vec.count - 1 }

/-- The inner `while (j >= 0 && data[j] < key)` loop of `sort_descending`;
`n` bounds the iterations (`j` decreases by one each time and the loop
stops below zero, so `j + 1` iterations always suffice). Returns the final
`j` and the array. -/
def sortInner (lt : T → T → Bool) (key : T) : Nat → Int → List T → Int × List T
  | 0, j, d => (j, d)
  | n + 1, j, d =>
    if 0 ≤ j ∧ lt (d.getD j.toNat default) key = true then
      sortInner lt key n (toInt8 (j - 1)) (d.set (j + 1).toNat (d.getD j.toNat default))
    else (j, d)

/-- One iteration of the outer loop of `sort_descending` at index `i`:
`key = data[i]; int8_t j = (int8_t)i - 1; while ...; data[j + 1] = key`.
A store at a negative index is outside the array and is dropped. -/
def sortStep (lt : T → T → Bool) (i : Nat) (d : List T) : List T :=
  let key := d.getD i default
  let j := toInt8 (toInt8 (i : Int) - 1)
  let r := sortInner lt key (j.toNat + 1) j d
  if 0 ≤ r.1 + 1 then r.2.set (r.1 + 1).toNat key else r.2

/-- The outer loop `for (i = 1; i < count; ++i)` of `sort_descending`, with `n`
the number of iterations left (`count - i`). -/
def sortOuter (lt : T → T → Bool) : Nat → Nat → List T → List T
  | 0, _, d => d
  | n + 1, i, d => sortOuter lt n (i + 1) (sortStep lt i d)

/-- `sort_descending()`: in-place insertion sort. -/
def sort_descending (lt : T → T → Bool) (vec : FixedVector T) : FixedVector T :=
  { vec with data := sortOuter lt (vec.count - 1) 1 vec.data }

end FixedVector

/-! ## The scheduler state -/

/-- The data members of `TaskScheduler<N>`. The template parameter `N` is
passed to the member functions that read it. -/
structure Sched where
  t : List Task
  order : FixedVector TaskKey
  nextDue : Nat
  lastTick : Nat
  tickNow : Nat
  tickMs : Nat
  currentId : Nat
  currentAnchor : Nat
  overrideSet : Bool
  overrideNext : Nat
  cascadePending : Bool
  ranMask : BoolArray32
  notifyCnt : List Nat
deriving DecidableEq, Repr

/-- The constructor `TaskScheduler(quantumMs)`, run when `millis()` returns
`now`: member initialisers, then every slot marked free and every counter
zeroed, then `lastTick = tickNow = millis()`. -/
def Sched.init (N quantumMs now : Nat) : Sched :=
  { t := List.replicate N (default : Task).markFree
    order := { data := List.replicate N default, count := 0 }
    nextDue := UINT32_MAX
    lastTick := now
    tickNow := now
    tickMs := quantumMs
    currentId := INVALID_TASK_ID
    currentAnchor := 0
    overrideSet := false
    overrideNext := 0
    cascadePending := false
    ranMask := ⟨0⟩
    notifyCnt := List.replicate N 0 }

namespace Sched

/-- Read of `t[i]`. -/
def task (s : Sched) (i : Nat) : Task := s.t.getD i default

/-- Read of `notifyCnt[i]`. -/
def notify (s : Sched) (i : Nat) : Nat := s.notifyCnt.getD i 0

/-- The loop of `findPosByIdx`, with `n` the number of iterations left
(`order.size() - k`). -/
def findPosLoop (order : FixedVector TaskKey) (idx : Nat) : Nat → Nat → Nat
  | 0, _ => INVALID_TASK_ID
  | n + 1, k => if (order.get k).idx = idx then k else findPosLoop order idx n (k + 1)

/-- `findPosByIdx(idx)`. -/
def findPosByIdx (s : Sched) (idx : Nat) : Nat :=
  findPosLoop s.order idx s.order.size 0

/-- `isTaskIdValid(id)`: `(id < N) && t[id].meta.inUse()`. -/
def isTaskIdValid (N : Nat) (s : Sched) (id : Nat) : Bool :=
  decide (id < N) && (s.task id).meta.inUse

/-- `hasCurrentTask()`. -/
def hasCurrentTask (s : Sched) : Bool := s.currentId != INVALID_TASK_ID

/-- The slot search of `xTaskCreate`: the first `i < N` with
`!t[i].meta.inUse()`; `n` is the number of iterations left (`N - i`). -/
def firstFree (t : List Task) : Nat → Nat → Option Nat
  | 0, _ => none
  | n + 1, i => if !(t.getD i default).meta.inUse then some i else firstFree t n (i + 1)

/-- `xTaskCreate(cb, delayMs, prio)`: the new state and the returned handle. -/
def xTaskCreate (N : Nat) (s : Sched) (cb : Option Nat) (delayMs prio : Nat) : Sched × Nat :=
  match cb with
  | none => (s, INVALID_TASK_ID)
  | some f =>
    match firstFree s.t N 0 with
    | none => (s, INVALID_TASK_ID)
    | some i =>
      let x : Task :=
        { next := add32 s.tickNow delayMs
          cb := some f
          meta := ((((s.task i).meta.clear).setInUse true).setEnabled true).setPrio prio }
      let order1 := (s.order.push_back N (TaskKey.set x.meta.prio i)).sort_descending TaskKey.lt
      let s1 : Sched := { s with t := s.t.set i x, notifyCnt := s.notifyCnt.set i 0, order := order1 }
      if x.ready && earlier x.next s1.nextDue then ({ s1 with nextDue := x.next }, i) else (s1, i)

/-- `vTaskDelete(h)`. -/
def vTaskDelete (N : Nat) (s : Sched) (h : Nat) : Sched :=
  if !isTaskIdValid N s h then s
  else
    let s1 : Sched := { s with t := s.t.set h (s.task h).markFree, notifyCnt := s.notifyCnt.set h 0 }
    let pos := s1.findPosByIdx h
    if pos != INVALID_TASK_ID then { s1 with order := s1.order.erase pos } else s1

/-- `vTaskSuspend(h)`. -/
def vTaskSuspend (N : Nat) (s : Sched) (h : Nat) : Sched :=
  if !isTaskIdValid N s h then s
  else { s with t := s.t.set h { s.task h with meta := (s.task h).meta.disable } }

/-- `vTaskResume(h)`. -/
def vTaskResume (N : Nat) (s : Sched) (h : Nat) : Sched :=
  if !isTaskIdValid N s h then s
  else
    let x : Task := { s.task h with next := s.tickNow, meta := (s.task h).meta.enable }
    let s1 : Sched := { s with t := s.t.set h x, cascadePending := true }
    if earlier x.next s1.nextDue then { s1 with nextDue := x.next } else s1

/-- `vTaskResumeAfter(h, ms)`. -/
def vTaskResumeAfter (N : Nat) (s : Sched) (h ms : Nat) : Sched :=
  if !isTaskIdValid N s h then s
  else
    let x : Task := { s.task h with next := add32 s.tickNow ms, meta := (s.task h).meta.enable }
    let s1 : Sched := { s with t := s.t.set h x }
    if ms % U32 = 0 then
      let s2 : Sched := { s1 with cascadePending := true }
      if earlier x.next s2.nextDue then { s2 with nextDue := x.next } else s2
    else if x.ready && earlier x.next s1.nextDue then { s1 with nextDue := x.next }
    else s1

/-- `vTaskNotifyGive(h)`. -/
def vTaskNotifyGive (N : Nat) (s : Sched) (h : Nat) : Sched :=
  if !isTaskIdValid N s h then s
  else
    let c := s.notify h
    let cnt := if c != MAX_NOTIFY_COUNT then s.notifyCnt.set h ((c + 1) % 256) else s.notifyCnt
    let x : Task := { s.task h with meta := (s.task h).meta.enable, next := s.tickNow }
    let s1 : Sched := { s with notifyCnt := cnt, t := s.t.set h x, cascadePending := true }
    if earlier x.next s1.nextDue then { s1 with nextDue := x.next } else s1

/-- `ulTaskNotifyTake(clearOnExit)`: the new state and the number taken. -/
def ulTaskNotifyTake (s : Sched) (clearOnExit : Bool) : Sched × Nat :=
  if !s.hasCurrentTask then (s, 0)
  else
    let c := s.notify s.currentId
    if c = 0 then (s, 0)
    else if clearOnExit then ({ s with notifyCnt := s.notifyCnt.set s.currentId 0 }, c)
    else ({ s with notifyCnt := s.notifyCnt.set s.currentId ((c + 255) % 256) }, 1)

/-- `xTaskGetCurrentTaskHandle()`. -/
def xTaskGetCurrentTaskHandle (s : Sched) : Nat := s.currentId

/-- `xTaskGetTickCount()`. -/
def xTaskGetTickCount (s : Sched) : Nat := s.tickNow

/-- `vTaskDelay(ms)`. -/
def vTaskDelay (s : Sched) (ms : Nat) : Sched :=
  if !s.hasCurrentTask then s
  else { s with overrideSet := true, overrideNext := add32 s.tickNow ms }

/-- `vTaskYieldNextTick()`. -/
def vTaskYieldNextTick (s : Sched) : Sched :=
  if !s.hasCurrentTask then s
  else { s with overrideSet := true, overrideNext := s.tickNow }

/-- `vTaskDelayUntil(period)`. -/
def vTaskDelayUntil (s : Sched) (period : Nat) : Sched :=
  if !s.hasCurrentTask then s
  else if period % U32 = 0 then
    { s with overrideSet := true, overrideNext := s.tickNow }
  else
    let anchor := s.currentAnchor
    let late := sub32 s.tickNow anchor
    if late < period % U32 then
      { s with overrideSet := true, overrideNext := add32 anchor period }
    else
      let k := add32 (late / (period % U32)) 1
      { s with overrideSet := true, overrideNext := add32 anchor (mul32 k period) }

/-- The rebuild loop of `vTaskPrioritySet`: `for (i = 0; i < N; ++i)
if (t[i].meta.inUse()) order.push_back(TaskKey(t[i].meta.prio(), i))`, with
`n` the number of iterations left (`N - i`). -/
def rebuildLoop (N : Nat) (t : List Task) : Nat → Nat → FixedVector TaskKey → FixedVector TaskKey
  | 0, _, o => o
  | n + 1, i, o =>
    rebuildLoop N t n (i + 1)
      (if (t.getD i default).meta.inUse then
        o.push_back N (TaskKey.set (t.getD i default).meta.prio i)
      else o)

/-- `vTaskPrioritySet(h, prio)`. -/
def vTaskPrioritySet (N : Nat) (s : Sched) (h prio : Nat) : Sched :=
  if !isTaskIdValid N s h then s
  else
    let t1 := s.t.set h { s.task h with meta := (s.task h).meta.setPrio prio }
    { s with t := t1, order := (rebuildLoop N t1 N 0 s.order.clear).sort_descending TaskKey.lt }

/-- `uxTaskPriorityGet(h)`. -/
def uxTaskPriorityGet (N : Nat) (s : Sched) (h : Nat) : Nat :=
  if isTaskIdValid N s h then (s.task h).meta.prio else 0

/-- `uxTaskPriorityGet()`, for the current task. -/
def uxTaskPriorityGetCurrent (s : Sched) : Nat :=
  if s.hasCurrentTask then (s.task s.currentId).meta.prio else 0

end Sched

/-! ## Callbacks -/

/-- A call of the scheduler's public interface other than `run`, as a task
function can make it. -/
inductive Call where
  | create (cb : Option Nat) (delayMs prio : Nat)
  | delete (h : Nat)
  | suspend (h : Nat)
  | resume (h : Nat)
  | resumeAfter (h ms : Nat)
  | notifyGive (h : Nat)
  | notifyTake (clearOnExit : Bool)
  | getCurrentTaskHandle
  | getTickCount
  | delay (ms : Nat)
  | yieldNextTick
  | delayUntil (period : Nat)
  | prioritySet (h prio : Nat)
  | priorityGet (h : Nat)
  | priorityGetCurrent
deriving DecidableEq, Repr

/-- The effect of one interface call: the new state and the value returned
to the caller (`0` for the `void` functions). -/
def Call.exec (N : Nat) (s : Sched) : Call → Sched × Nat
  | .create cb delayMs prio => s.xTaskCreate N cb delayMs prio
  | .delete h => (s.vTaskDelete N h, 0)
  | .suspend h => (s.vTaskSuspend N h, 0)
  | .resume h => (s.vTaskResume N h, 0)
  | .resumeAfter h ms => (s.vTaskResumeAfter N h ms, 0)
  | .notifyGive h => (s.vTaskNotifyGive N h, 0)
  | .notifyTake clearOnExit => s.ulTaskNotifyTake clearOnExit
  | .getCurrentTaskHandle => (s, s.xTaskGetCurrentTaskHandle)
  | .getTickCount => (s, s.xTaskGetTickCount)
  | .delay ms => (s.vTaskDelay ms, 0)
  | .yieldNextTick => (s.vTaskYieldNextTick, 0)
  | .delayUntil period => (s.vTaskDelayUntil period, 0)
  | .prioritySet h prio => (s.vTaskPrioritySet N h prio, 0)
  | .priorityGet h => (s, s.uxTaskPriorityGet N h)
  | .priorityGetCurrent => (s, s.uxTaskPriorityGetCurrent)

/-- The body of a task function (`void (*)(void)`) built from interface
calls: it returns, or makes a call and continues in a way that may depend on
the value the call returned. -/
inductive Prog where
  | ret : Prog
  | call (c : Call) (k : Nat → Prog) : Prog

/-- The straight-line task function making the given calls in sequence. -/
def Prog.ofCalls : List Call → Prog
  | [] => .ret
  | c :: cs => .call c (fun _ => Prog.ofCalls cs)

/-- Execution of a task function body: the state it leaves and the calls it
made, in order. -/
def Prog.exec (N : Nat) : Prog → Sched → Sched × List Call
  | .ret, s => (s, [])
  | .call c k, s =>
    let r := c.exec N s
    let r2 := (k r.2).exec N r.1
    (r2.1, c :: r2.2)

/-- What happens during `run`: the task function of the slot `idx` is entered,
with `anchor` the wake time the slot had at that moment (the value stored in
`currentAnchor`), or the running task function makes an interface call. -/
inductive Event where
  | dispatch (idx anchor : Nat)
  | call (c : Call)
deriving DecidableEq, Repr

/-- The slots dispatched in a log of events, in order. -/
def dispatched : List Event → List Nat
  | [] => []
  | .dispatch idx _ :: es => idx :: dispatched es
  | .call _ :: es => dispatched es

/-- The calls at the front of a log, up to the next dispatch: the calls the
task function just entered makes. -/
def ownCalls : List Event → List Call
  | .call c :: es => c :: ownCalls es
  | _ => []

/-- The call is `resume`, `resume_after`, `notify_give` or `delete` on the
slot `i`. -/
def Call.wakes (i : Nat) : Call → Bool
  | .resume h => h == i
  | .resumeAfter h _ => h == i
  | .notifyGive h => h == i
  | .delete h => h == i
  | _ => false

/-- The call is `delay`, `yield_next_tick` or `delay_until`. -/
def Call.overrides : Call → Bool
  | .delay _ => true
  | .yieldNextTick => true
  | .delayUntil _ => true
  | _ => false

/-! ## The tick runner -/

/-- The local variables of `run` that live across loop iterations, together
with the scheduler. -/
structure RunSt where
  s : Sched
  newNextDue : Nat
  anyRanThisPass : Bool
deriving DecidableEq, Repr

/-- Lines 305-310 of `run`: the current-task context is set for the slot `idx`
and the task function is called through the pointer read before the call.
Returns the state when the function returns and the calls it made. `code`
maps a function pointer to the body of the function. -/
def runCall (N : Nat) (code : Nat → Prog) (s : Sched) (idx : Nat) : Sched × List Call :=
  let x := s.task idx
  let s1 : Sched := { s with currentId := idx, currentAnchor := x.next, overrideSet := false }
  match x.cb with
  | some f => (code f).exec N s1
  | none => (s1, [])

/-- Lines 312-323 of `run`: after the task function returned in state `s`, the
context is cleared, the slot is flagged in `ranMask`, and the requested wake is
committed to `t[idx]` or the slot is auto-suspended. -/
def runCommit (s : Sched) (newNextDue idx : Nat) : RunSt :=
  let s2 : Sched := { s with currentId := INVALID_TASK_ID, ranMask := s.ranMask.set idx }
  let y := s2.task idx
  if s2.overrideSet then
    let y1 : Task := { y with next := s2.overrideNext, meta := y.meta.enable }
    { s := { s2 with t := s2.t.set idx y1 }
      newNextDue := if earlier y1.next newNextDue then y1.next else newNextDue
      anyRanThisPass := true }
  else
    { s := { s2 with t := s2.t.set idx { y with meta := y.meta.disable } }
      newNextDue := newNextDue
      anyRanThisPass := true }

/-- The body of the `for` loop of `run` at position `k` (lines 291-323): the
state after the iteration and the events of the iteration. -/
def runBody (N : Nat) (code : Nat → Prog) (k : Nat) (st : RunSt) : RunSt × List Event :=
  let s := st.s
  let idx := (s.order.get k).idx
  let x := s.task idx
  if !x.ready then (st, [])
  else if s.ranMask.get idx then (st, [])
  else if earlier s.tickNow x.next then
    (if earlier x.next st.newNextDue then { st with newNextDue := x.next } else st, [])
  else
    let r := runCall N code s idx
    (runCommit r.1 st.newNextDue idx, Event.dispatch idx x.next :: r.2.map Event.call)

/-- The `for (k = 0; k < order.size(); ++k)` loop of `run`, from position `k`.
`order.size()` is read again at every iteration; it never exceeds the capacity
`N`, so with `n = N - k` iterations allowed the loop always ends by its own
test. -/
def runPass (N : Nat) (code : Nat → Prog) : Nat → Nat → RunSt → RunSt × List Event
  | 0, _, st => (st, [])
  | n + 1, k, st =>
    if k < st.s.order.size then
      let r := runBody N code k st
      let r2 := runPass N code n (k + 1) r.1
      (r2.1, r.2 ++ r2.2)
    else (st, [])

/-- Line 327 of `run`, at the end of a pass:
`cascadePending = cascadePending && anyRanThisPass`. -/
def endPass (st : RunSt) : RunSt :=
  { st with s := { st.s with cascadePending := st.s.cascadePending && st.anyRanThisPass } }

/-- The `do { ... } while (cascadePending && (++passes < N))` loop of `run`.
The argument `n` is `N - 1 - passes`, so `++passes < N` reads `0 < n`. -/
def runDrain (N : Nat) (code : Nat → Prog) : Nat → RunSt → RunSt × List Event
  | 0, st =>
    let r := runPass N code N 0 { st with anyRanThisPass := false }
    (endPass r.1, r.2)
  | m + 1, st =>
    let r := runPass N code N 0 { st with anyRanThisPass := false }
    if (endPass r.1).s.cascadePending then
      let r2 := runDrain N code m (endPass r.1)
      (r2.1, r.2 ++ r2.2)
    else (endPass r.1, r.2)

/-- `run(now)`: the state when it returns and the events that happened. -/
def run (N : Nat) (code : Nat → Prog) (s : Sched) (now : Nat) : Sched × List Event :=
  if sub32 now s.lastTick < s.tickMs then (s, [])
  else
    let s1 : Sched := { s with lastTick := add32 s.lastTick s.tickMs, tickNow := add32 s.lastTick s.tickMs }
    if earlier s1.tickNow s1.nextDue then (s1, [])
    else
      let s2 : Sched := { s1 with ranMask := s1.ranMask.clear, cascadePending := false }
      let r := runDrain N code (N - 1) { s := s2, newNextDue := UINT32_MAX, anyRanThisPass := false }
      ({ r.1.s with nextDue := r.1.newNextDue }, r.2)

/-! ## Driving the scheduler -/

/-- The state after calling `run` with each of the timestamps in turn. -/
def runs (N : Nat) (code : Nat → Prog) : Sched → List Nat → Sched
  | s, [] => s
  | s, now :: rest => runs N code (run N code s now).1 rest

/-- The timestamps, among those `run` is called with in turn, of the calls that
dispatch the slot `idx`, one entry per dispatch. -/
def dispatchTimes (N : Nat) (code : Nat → Prog) (idx : Nat) : Sched → List Nat → List Nat
  | _, [] => []
  | s, now :: rest =>
    List.replicate ((dispatched (run N code s now).2).count idx) now ++
      dispatchTimes N code idx (run N code s now).1 rest

/-- What the code around the scheduler does between and including ticks: it
makes an interface call from outside any task function, or it calls `run`. -/
inductive Step where
  | api (c : Call)
  | tick (now : Nat)
deriving DecidableEq, Repr

/-- The state after a sequence of steps and the log of all events, the calls
made from outside task functions included. -/
def steps (N : Nat) (code : Nat → Prog) : Sched → List Step → Sched × List Event
  | s, [] => (s, [])
  | s, .api c :: rest =>
    let r := steps N code (c.exec N s).1 rest
    (r.1, Event.call c :: r.2)
  | s, .tick now :: rest =>
    let r := steps N code (run N code s now).1 rest
    (r.1, (run N code s now).2 ++ r.2)

/-! ## Scenarios -/

/-- Scenario "simple periodic": the only task function calls `delay(10)`. -/
def periodicCode : Nat → Prog := fun _ => Prog.ofCalls [.delay 10]

/-- Scenario "simple periodic": a scheduler for `N` tasks with quantum 1 built
at time 0, then task A created with delay 0 and priority 3 (it gets slot 0). -/
def periodicStart (N : Nat) : Sched := ((Sched.init N 1 0).xTaskCreate N (some 0) 0 3).1

/-- Scenario "priority ordering and cascade": function 0 (task A) calls
`notify_give` on slot 1 (task B); function 1 (task B) makes no call. -/
def cascadeCode : Nat → Prog := fun f => if f = 0 then Prog.ofCalls [.notifyGive 1] else .ret

/-- Scenario "priority ordering and cascade": a scheduler for `N` tasks with
quantum 1 built at time 0, task A (priority 1, slot 0) and task B (priority 5,
slot 1) both created with delay 10, then `run` driven up to tick 9. -/
def cascadeStart (N : Nat) : Sched :=
  runs N cascadeCode
    ((((Sched.init N 1 0).xTaskCreate N (some 0) 10 1).1).xTaskCreate N (some 1) 10 5).1
    (List.range 10)

/-- Scenario for the cadence gate: a scheduler for one task with quantum 1
built at time 0 whose task yields to the next tick every time it runs. -/
def yieldCode : Nat → Prog := fun _ => Prog.ofCalls [.yieldNextTick]

/-- The start state of the cadence-gate scenario. -/
def yieldStart : Sched := ((Sched.init 1 1 0).xTaskCreate 1 (some 0) 0 3).1

/-- Scenario "postponed": function 2 (task C) calls `resume_after` on slot 0
(task A) with 1000 ms; the other functions make no call. -/
def postponeCode : Nat → Prog :=
  fun f => if f = 2 then Prog.ofCalls [.resumeAfter 0 1000] else .ret

/-- Scenario "postponed": a scheduler for 8 tasks with quantum 1 built at time
0, then A (priority 5, slot 0), B (priority 2, slot 1) and C (priority 7,
slot 2) created with delay 0. -/
def postponeStart : Sched :=
  ((((((Sched.init 8 1 0).xTaskCreate 8 (some 0) 0 5).1).xTaskCreate 8 (some 1) 0 2).1).xTaskCreate
    8 (some 2) 0 7).1

/-- Scenario "self resume": the only task function calls `resume_after` on its
own slot 0 with 50 ms and nothing else. -/
def selfResumeCode : Nat → Prog := fun _ => Prog.ofCalls [.resumeAfter 0 50]

/-- Scenario "auto-suspend default": the only task function returns without
any call. -/
def idleCode : Nat → Prog := fun _ => .ret

/-- The start state of the "self resume" and "auto-suspend default" scenarios:
a scheduler for 8 tasks with quantum 1 built at time 0 and one task created
with delay 0 and priority 3 (slot 0). -/
def oneTaskStart : Sched := ((Sched.init 8 1 0).xTaskCreate 8 (some 0) 0 3).1

/-- Scenario "lost wake": function 0 (task A) calls `delay(1000)`; function 1
(task B) calls `notify_give` on slot 0 (task A) and then `delay(1000)`. -/
def lostWakeCode : Nat → Prog :=
  fun f => if f = 0 then Prog.ofCalls [.delay 1000]
    else Prog.ofCalls [.notifyGive 0, .delay 1000]

/-- Scenario "lost wake": a scheduler for 8 tasks with quantum 1 built when
`millis()` returns 3000000000, then A (priority 5, slot 0) and B (priority 1,
slot 1) created with delay 0. -/
def lostWakeStart : Sched :=
  ((((Sched.init 8 1 3000000000).xTaskCreate 8 (some 0) 0 5).1).xTaskCreate 8 (some 1) 0 1).1

/-- Scenario "lost wake" with the scheduler built when `millis()` returns
`base`: A (priority 5, slot 0) and B (priority 1, slot 1) created with
delay 0. -/
def lostWakeAt (base : Nat) : Sched :=
  ((((Sched.init 8 1 base).xTaskCreate 8 (some 0) 0 5).1).xTaskCreate 8 (some 1) 0 1).1

/-- Scenario "late resume": function 0 (task A) makes no call; function 1
(task B) calls `resume_after` on slot 0 (task A) with 5 ms and then
`delay(1000)`. -/
def lateResumeCode : Nat → Prog :=
  fun f => if f = 0 then .ret else Prog.ofCalls [.resumeAfter 0 5, .delay 1000]

/-- Scenario "late resume": a scheduler for 8 tasks with quantum 1 built when
`millis()` returns 3000000000, then A (priority 5, slot 0) and B (priority 1,
slot 1) created with delay 0. -/
def lateResumeStart : Sched :=
  ((((Sched.init 8 1 3000000000).xTaskCreate 8 (some 0) 0 5).1).xTaskCreate 8 (some 1) 0 1).1

/-! ## Predicates used in the statements -/

/-- The members that no interface call writes keep their values from `s` to
`s2`. -/
def Sched.SameClock (s s2 : Sched) : Prop :=
  s2.ranMask = s.ranMask ∧ s2.lastTick = s.lastTick ∧ s2.tickMs = s.tickMs ∧
    s2.tickNow = s.tickNow ∧ s2.currentId = s.currentId ∧ s2.currentAnchor = s.currentAnchor

/-- Slot `i` is in use, disabled, and has the wake time `a`. -/
def Sched.Asleep (s : Sched) (i a : Nat) : Prop :=
  (s.task i).meta.inUse = true ∧ (s.task i).meta.enabled = false ∧ (s.task i).next = a

/-- Slot `x` is ready, due at the current tick and not yet flagged in
`ranMask`. -/
def Sched.Pending (s : Sched) (x : Nat) : Prop :=
  (s.task x).ready = true ∧ earlier s.tickNow (s.task x).next = false ∧
    s.ranMask.get x = false

/-- The order vector is well formed: an array of `N` entries of which at most
`N` are listed, in strictly descending byte order, each the key of an in-use
slot with its current priority, and every in-use slot below `N` has its key
listed. -/
def Sched.OrderOK (N : Nat) (s : Sched) : Prop :=
  s.order.data.length = N ∧ s.order.count ≤ N ∧
    (∀ p, p < s.order.count → ∀ q, q < p → (s.order.get p).v < (s.order.get q).v) ∧
    (∀ p, p < s.order.count →
      (s.task (s.order.get p).idx).meta.inUse = true ∧
        s.order.get p = TaskKey.set (s.task (s.order.get p).idx).meta.prio (s.order.get p).idx) ∧
    (∀ i, i < N → (s.task i).meta.inUse = true →
      ∃ p, p < s.order.count ∧ (s.order.get p).idx = i)

instance (N : Nat) (s : Sched) : Decidable (s.OrderOK N) := by
  unfold Sched.OrderOK
  infer_instance

/-- The call is not `delete` or `priority_set`, and not `suspend` or
`resume_after` on the slot `x`: it cannot take `x` out of the order vector,
move keys past each other, or make `x` unready or not due. -/
def Call.spares (x : Nat) : Call → Bool
  | .delete _ => false
  | .prioritySet _ _ => false
  | .suspend h => h != x
  | .resumeAfter h _ => h != x
  | _ => true

/-- The order vector as the run loop needs it: an array of `N` entries of
which at most `N` are listed, each listed key not less than the next. -/
def Sched.OrderSorted (N : Nat) (s : Sched) : Prop :=
  s.order.data.length = N ∧ s.order.count ≤ N ∧
    ∀ m, m + 1 < s.order.count → TaskKey.lt (s.order.get m) (s.order.get (m + 1)) = false

/-- Slot `x` is listed in the order vector at position `k` or later. -/
def Sched.ListedFrom (s : Sched) (k x : Nat) : Prop :=
  ∃ p, k ≤ p ∧ p < s.order.count ∧ (s.order.get p).idx = x

/-- Every position of the order vector listing slot `a` is before every
position listing slot `b`. -/
def Sched.Before (s : Sched) (a b : Nat) : Prop :=
  ∀ p q, p < s.order.count → q < s.order.count →
    (s.order.get p).idx = a → (s.order.get q).idx = b → p < q

/-! ## FixedQueue -/

/-- The class `FixedQueue<T, CAP>`: the ring buffer `buf`, the write index
`head`, the read index `tail` and the element count. The capacity is passed to
the operations that read it. -/
structure FixedQueue (T : Type) where
  buf : List T
  head : Nat
  tail : Nat
  count : Nat
deriving DecidableEq, Repr

namespace FixedQueue

variable {T : Type} [Inhabited T]

/-- The constructor `FixedQueue()`: `head(0), tail(0), count(0)`, the buffer
default-initialised. -/
def init (CAP : Nat) : FixedQueue T :=
  { buf := List.replicate CAP default, head := 0, tail := 0, count := 0 }

/-- `empty()`: `count == 0`. -/
def empty (q : FixedQueue T) : Bool := q.count == 0

/-- `full()`: `count == CAP`. -/
def full (CAP : Nat) (q : FixedQueue T) : Bool := q.count == CAP

/-- `size()`. -/
def size (q : FixedQueue T) : Nat := q.count

/-- `capacity()`. -/
def capacity (CAP : Nat) (_q : FixedQueue T) : Nat := CAP

/-- `clear()`. -/
def clear (q : FixedQueue T) : FixedQueue T := { q with head := 0, tail := 0, count := 0 }

/-- `inc(i)`: `(uint8_t)((i + 1) & (CAP - 1))` when `(CAP & (CAP - 1)) == 0`,
else `++i; if (i == CAP) i = 0`. The tests are made in `int`, where `CAP - 1`
is `-1` (all bits set) for `CAP = 0`. -/
def inc (CAP i : Nat) : Nat :=
  if CAP = 0 then (i + 1) % 256
  else if CAP &&& (CAP - 1) = 0 then ((i + 1) &&& (CAP - 1)) % 256
  else if (i + 1) % 256 = CAP then 0 else (i + 1) % 256

/-- `try_push(v)`: the new queue and the value returned. -/
def try_push (CAP : Nat) (q : FixedQueue T) (v : T) : FixedQueue T × Bool :=
  if q.full CAP then (q, false)
  else
    ({ q with buf := q.buf.set q.head v, head := inc CAP q.head, count := (q.count + 1) % 256 },
      true)

/-- `try_pop(out)`: the new queue, the value returned and the value stored to
`out` (`none` when `out` is not written). -/
def try_pop (CAP : Nat) (q : FixedQueue T) : FixedQueue T × Bool × Option T :=
  if q.empty then (q, false, none)
  else
    ({ q with tail := inc CAP q.tail, count := (q.count + 255) % 256 }, true,
      some (q.buf.getD q.tail default))

/-- `peek(out)`: the value returned and the value stored to `out`. -/
def peek (q : FixedQueue T) : Bool × Option T :=
  if q.empty then (false, none) else (true, some (q.buf.getD q.tail default))

/-- `push_overwrite(v)`: the new queue and the value returned. -/
def push_overwrite (CAP : Nat) (q : FixedQueue T) (v : T) : FixedQueue T × Bool :=
  if q.full CAP then
    ({ q with buf := q.buf.set q.head v, head := inc CAP q.head, tail := inc CAP q.tail }, true)
  else q.try_push CAP v

/-- The elements held by the queue, oldest first: `buf[tail]`,
`buf[tail + 1]`, ... taken around the ring, `count` of them. -/
def toList (CAP : Nat) (q : FixedQueue T) : List T :=
  (List.range q.count).map (fun k => q.buf.getD ((q.tail + k) % CAP) default)

/-- The representation invariant of the ring: the buffer has `CAP` entries,
both indices are below `CAP`, at most `CAP` elements are held, and the write
index is `count` places after the read index around the ring. -/
def Inv (CAP : Nat) (q : FixedQueue T) : Prop :=
  q.buf.length = CAP ∧ q.head < CAP ∧ q.tail < CAP ∧ q.count ≤ CAP ∧
    q.head = (q.tail + q.count) % CAP

instance (CAP : Nat) (q : FixedQueue T) : Decidable (q.Inv CAP) := by
  unfold Inv
  infer_instance

end FixedQueue

/-- A call of the queue interface: `try_push(v)`, `try_pop(out)` or
`peek(out)`. -/
inductive QueueOp (T : Type) where
  | push (v : T)
  | pop
  | peek
deriving DecidableEq, Repr

/-- One interface call on the ring buffer: the new queue, the value returned
and the value stored to `out`. -/
def FixedQueue.step {T : Type} [Inhabited T] (CAP : Nat) (q : FixedQueue T) :
    QueueOp T → FixedQueue T × Bool × Option T
  | .push v => ((q.try_push CAP v).1, (q.try_push CAP v).2, none)
  | .pop => q.try_pop CAP
  | .peek => (q, q.peek)

/-- The queue after a sequence of interface calls. -/
def FixedQueue.steps {T : Type} [Inhabited T] (CAP : Nat) :
    FixedQueue T → List (QueueOp T) → FixedQueue T
  | q, [] => q
  | q, op :: ops => FixedQueue.steps CAP (q.step CAP op).1 ops

/-- The bounded FIFO list the queue is specified by, one interface call:
`try_push(v)` fails and changes nothing when the list has `CAP` elements and
otherwise appends `v`; `try_pop` fails when the list is empty and otherwise
outputs and removes the oldest element; `peek` outputs the oldest element
without removing it. -/
def fifoStep {T : Type} (CAP : Nat) (l : List T) : QueueOp T → List T × Bool × Option T
  | .push v => if l.length = CAP then (l, false, none) else (l ++ [v], true, none)
  | .pop =>
    match l with
    | [] => (l, false, none)
    | x :: rest => (rest, true, some x)
  | .peek =>
    match l with
    | [] => (l, false, none)
    | x :: _ => (l, true, some x)

/-- The bounded FIFO list after a sequence of interface calls. -/
def fifoSteps {T : Type} (CAP : Nat) : List T → List (QueueOp T) → List T
  | l, [] => l
  | l, op :: ops => fifoSteps CAP (fifoStep CAP l op).1 ops

/-! ## TinyQueue -/

/-- The class `TinyQueue<T, CAP>`: a `FixedQueue` and the handle of the task
waiting for data. -/
structure TinyQueue (T : Type) where
  base : FixedQueue T
  waiter : Nat
deriving DecidableEq, Repr

namespace TinyQueue

variable {T : Type} [Inhabited T]

/-- The constructor `TinyQueue()`: `waiter(INVALID_TASK_ID)`. -/
def init (CAP : Nat) : TinyQueue T := { base := FixedQueue.init CAP, waiter := INVALID_TASK_ID }

/-- `xQueueSend(v)`. `sch` is the scheduler `IScheduler::Instance()` points to
(`none` for a null pointer), an instance of `TaskScheduler<N>`. Returns the new
queue, the scheduler after the call and the value returned. -/
def xQueueSend (CAP N : Nat) (sch : Option Sched) (tq : TinyQueue T) (v : T) :
    TinyQueue T × Option Sched × Bool :=
  if !(tq.base.try_push CAP v).2 then ({ tq with base := (tq.base.try_push CAP v).1 }, sch, false)
  else
    match sch with
    | some s =>
      if tq.waiter != INVALID_TASK_ID then
        ({ tq with base := (tq.base.try_push CAP v).1 }, some (s.vTaskNotifyGive N tq.waiter), true)
      else ({ tq with base := (tq.base.try_push CAP v).1 }, some s, true)
    | none => ({ tq with base := (tq.base.try_push CAP v).1 }, none, true)

/-- `xQueueReceive(out, block)`. Returns the new queue, the value returned and
the value stored to `out` (`none` when `out` is not written). -/
def xQueueReceive (CAP : Nat) (sch : Option Sched) (tq : TinyQueue T) (block : Bool) :
    TinyQueue T × Bool × Option T :=
  if (tq.base.try_pop CAP).2.1 then
    match sch with
    | some s =>
      ({ base := (tq.base.try_pop CAP).1, waiter := s.xTaskGetCurrentTaskHandle }, true,
        (tq.base.try_pop CAP).2.2)
    | none => ({ tq with base := (tq.base.try_pop CAP).1 }, true, (tq.base.try_pop CAP).2.2)
  else
    match sch with
    | some s =>
      if block then
        ({ base := (tq.base.try_pop CAP).1, waiter := s.xTaskGetCurrentTaskHandle }, false,
          (tq.base.try_pop CAP).2.2)
      else ({ tq with base := (tq.base.try_pop CAP).1 }, false, (tq.base.try_pop CAP).2.2)
    | none => ({ tq with base := (tq.base.try_pop CAP).1 }, false, (tq.base.try_pop CAP).2.2)

end TinyQueue

/-! ## A vector of 130 elements -/

/-- Scenario for `sort_descending`: a `FixedVector<uint8_t, 255>` holding the
130 elements 0, 1, ..., 129 in ascending order. -/
def ascending130 : FixedVector Nat :=
  { data := List.range 130 ++ List.replicate 125 0, count := 130 }

/-! ## The order vector as a list -/

/-- The state after a sequence of interface calls made in turn (from outside
any task function when `currentId` is `INVALID_TASK_ID`). -/
def Sched.calls (N : Nat) : Sched → List Call → Sched
  | s, [] => s
  | s, c :: cs => Sched.calls N (c.exec N s).1 cs

/-- The listed part of the order vector: `order[0]`, ..., `order[size() - 1]`. -/
def Sched.orderList (s : Sched) : List TaskKey := s.order.data.take s.order.count

/-- The indices below `N` of the slots in use, in ascending order. -/
def Sched.inUseSlots (N : Nat) (s : Sched) : List Nat :=
  (List.range N).filter (fun i => (s.task i).meta.inUse)

/-- The key of slot `i`: `TaskKey(t[i].meta.prio(), i)`. -/
def Sched.keyOf (s : Sched) (i : Nat) : TaskKey := TaskKey.set (s.task i).meta.prio i

/-- The invariant of the order vector: the task array and the order array have
`N` entries, at most `N` keys are listed, the listed keys are in strictly
descending byte order, and a key is listed exactly when it is the key of a
slot in use. -/
def Sched.OrderInv (N : Nat) (s : Sched) : Prop :=
  s.t.length = N ∧ s.order.data.length = N ∧ s.order.count ≤ N ∧
    s.orderList.Pairwise (fun a b => b.v < a.v) ∧
    ∀ K, K ∈ s.orderList ↔ K ∈ (s.inUseSlots N).map s.keyOf

/-! ## Translation of time -/

/-- The task with its wake time moved `d` ms later (mod 2^32). -/
def Task.shift (d : Nat) (x : Task) : Task := { x with next := add32 x.next d }

/-- The scheduler state with every stored time value moved `d` ms later
(mod 2^32): `lastTick`, `tickNow`, the wake time of every task, `nextDue`, and
the two times of the current-task context, `currentAnchor` and
`overrideNext`. -/
def Sched.shift (d : Nat) (s : Sched) : Sched :=
  { s with t := s.t.map (Task.shift d)
           nextDue := add32 s.nextDue d
           lastTick := add32 s.lastTick d
           tickNow := add32 s.tickNow d
           currentAnchor := add32 s.currentAnchor d
           overrideNext := add32 s.overrideNext d }

/-- The event with its time value (the anchor of a dispatch) moved `d` ms
later. -/
def Event.shift (d : Nat) : Event → Event
  | .dispatch idx anchor => .dispatch idx (add32 anchor d)
  | .call c => .call c

/-- The state `s2` is `s` moved `d` ms later in every member except
`nextDue`, which is left out of the comparison. -/
def Sched.ShiftedBy (d : Nat) (s s2 : Sched) : Prop :=
  { s2 with nextDue := 0 } = { s.shift d with nextDue := 0 }

/-- The call is `create`. -/
def Call.creates : Call → Bool
  | .create _ _ _ => true
  | _ => false

/-! # Theorems -/

/-! ## Bit-level facts -/

theorem BoolArray32.get_eq_testBit (b : BoolArray32) (i : Nat) : b.get i = b.v.testBit i := by
  simp [BoolArray32.get, Nat.testBit, Nat.land_comm]

theorem BoolArray32.get_set_self (b : BoolArray32) (i : Nat) (hi : i < 32) :
    (b.set i).get i = true := by
  rw [BoolArray32.get_eq_testBit]
  simp only [BoolArray32.set, U32]
  have h32 : (4294967296 : Nat) = 2 ^ 32 := by norm_num
  rw [h32, Nat.testBit_mod_two_pow, Nat.testBit_or, Nat.testBit_mod_two_pow,
    Nat.one_shiftLeft, Nat.testBit_two_pow_self]
  simp [hi]

theorem BoolArray32.get_set_of_get (b : BoolArray32) (i j : Nat) (hj : j < 32)
    (h : b.get j = true) : (b.set i).get j = true := by
  rw [BoolArray32.get_eq_testBit] at *
  simp only [BoolArray32.set, U32]
  have h32 : (4294967296 : Nat) = 2 ^ 32 := by norm_num
  rw [h32, Nat.testBit_mod_two_pow, Nat.testBit_or]
  simp [hj, h]

theorem TaskKey.idx_eq_mod (k : TaskKey) : k.idx = k.v % 32 := by
  unfold TaskKey.idx
  have h : k.v &&& 0x1F = k.v % 32 := by
    simpa using Nat.and_pow_two_sub_one_eq_mod k.v 5
  rw [h]
  omega

theorem TaskKey.idx_lt (k : TaskKey) : k.idx < 32 := by
  rw [TaskKey.idx_eq_mod]
  omega

theorem land_two_pow_ne_zero (v i : Nat) : (v &&& 2 ^ i != 0) = v.testBit i := by
  by_cases h : v.testBit i = true
  · rw [h]
    have : (v &&& 2 ^ i).testBit i = true := by
      rw [Nat.testBit_and, h, Nat.testBit_two_pow_self]; rfl
    have hne : v &&& 2 ^ i ≠ 0 := by
      intro h0
      rw [h0] at this
      simp at this
    simpa using hne
  · have hf : v.testBit i = false := by simpa using h
    rw [hf]
    have : v &&& 2 ^ i = 0 := by
      apply Nat.eq_of_testBit_eq
      intro j
      rw [Nat.testBit_and, Nat.testBit_two_pow]
      by_cases hij : i = j
      · subst hij; simp [hf]
      · simp [hij]
    simp [this]

theorem TaskMeta.inUse_eq (m : TaskMeta) : m.inUse = m.v.testBit 0 := by
  have := land_two_pow_ne_zero m.v 0
  simpa [TaskMeta.inUse] using this

theorem TaskMeta.enabled_eq (m : TaskMeta) : m.enabled = m.v.testBit 1 := by
  have := land_two_pow_ne_zero m.v 1
  simpa [TaskMeta.enabled] using this

theorem TaskMeta.inUse_enable (m : TaskMeta) : m.enable.inUse = m.inUse := by
  simp only [TaskMeta.inUse_eq, TaskMeta.enable]
  have h : (256 : Nat) = 2 ^ 8 := by norm_num
  rw [TaskMeta.EN, h, Nat.testBit_mod_two_pow, Nat.testBit_or]
  have : Nat.testBit 2 0 = false := by decide
  simp [this]

theorem TaskMeta.enabled_enable (m : TaskMeta) : m.enable.enabled = true := by
  simp only [TaskMeta.enabled_eq, TaskMeta.enable]
  have h : (256 : Nat) = 2 ^ 8 := by norm_num
  rw [TaskMeta.EN, h, Nat.testBit_mod_two_pow, Nat.testBit_or]
  have : Nat.testBit 2 1 = true := by decide
  simp [this]

theorem TaskMeta.inUse_disable (m : TaskMeta) : m.disable.inUse = m.inUse := by
  simp only [TaskMeta.inUse_eq, TaskMeta.disable]
  rw [Nat.testBit_and]
  have : Nat.testBit (0xFF ^^^ TaskMeta.EN) 0 = true := by decide
  simp [this]

theorem TaskMeta.enabled_disable (m : TaskMeta) : m.disable.enabled = false := by
  simp only [TaskMeta.enabled_eq, TaskMeta.disable]
  rw [Nat.testBit_and]
  have : Nat.testBit (0xFF ^^^ TaskMeta.EN) 1 = false := by decide
  simp [this]

/-! ## Arrays -/

theorem getD_set_self {α : Type} (l : List α) (i : Nat) (x d : α) (h : i < l.length) :
    (l.set i x).getD i d = x := by
  simp [List.getD_eq_getElem?_getD, List.getElem?_set, h]

theorem getD_set_ne {α : Type} (l : List α) (i j : Nat) (x d : α) (h : i ≠ j) :
    (l.set i x).getD j d = l.getD j d := by
  simp [List.getD_eq_getElem?_getD, List.getElem?_set, h]

theorem getD_ne_default_lt {α : Type} (l : List α) (i : Nat) (d : α) (h : l.getD i d ≠ d) :
    i < l.length := by
  by_contra hlt
  apply h
  simp [List.getD_eq_getElem?_getD, List.getElem?_eq_none (Nat.le_of_not_lt hlt)]

/-! ## What interface calls leave alone -/

theorem Sched.SameClock.refl (s : Sched) : s.SameClock s :=
  ⟨rfl, rfl, rfl, rfl, rfl, rfl⟩

theorem Sched.SameClock.trans {a b c : Sched} (h1 : a.SameClock b) (h2 : b.SameClock c) :
    a.SameClock c := by
  unfold Sched.SameClock at h1 h2 ⊢
  refine ⟨?_, ?_, ?_, ?_, ?_, ?_⟩
  · rw [h2.1, h1.1]
  · rw [h2.2.1, h1.2.1]
  · rw [h2.2.2.1, h1.2.2.1]
  · rw [h2.2.2.2.1, h1.2.2.2.1]
  · rw [h2.2.2.2.2.1, h1.2.2.2.2.1]
  · rw [h2.2.2.2.2.2, h1.2.2.2.2.2]

theorem call_exec_sameClock (N : Nat) (c : Call) (s : Sched) : s.SameClock (c.exec N s).1 := by
  cases c <;> simp only [Call.exec, Sched.SameClock]
  case create cb d p =>
    unfold Sched.xTaskCreate
    split
    · simp
    · split
      · simp
      · dsimp only
        split <;> simp
  case delete h =>
    unfold Sched.vTaskDelete
    split
    · simp
    · dsimp only
      split <;> simp
  case suspend h =>
    unfold Sched.vTaskSuspend
    split <;> simp
  case resume h =>
    unfold Sched.vTaskResume
    split
    · simp
    · dsimp only
      split <;> simp
  case resumeAfter h ms =>
    unfold Sched.vTaskResumeAfter
    split
    · simp
    · dsimp only
      split
      · split <;> simp
      · split <;> simp
  case notifyGive h =>
    unfold Sched.vTaskNotifyGive
    split
    · simp
    · dsimp only
      split <;> simp
  case notifyTake b =>
    unfold Sched.ulTaskNotifyTake
    split
    · simp
    · dsimp only
      split
      · simp
      · split <;> simp
  case getCurrentTaskHandle => simp
  case getTickCount => simp
  case delay ms =>
    unfold Sched.vTaskDelay
    split <;> simp
  case yieldNextTick =>
    unfold Sched.vTaskYieldNextTick
    split <;> simp
  case delayUntil p =>
    unfold Sched.vTaskDelayUntil
    split
    · simp
    · split
      · simp
      · dsimp only
        split <;> simp
  case prioritySet h p =>
    unfold Sched.vTaskPrioritySet
    split <;> simp
  case priorityGet h => simp
  case priorityGetCurrent => simp

theorem prog_exec_sameClock (N : Nat) (p : Prog) (s : Sched) : s.SameClock (p.exec N s).1 := by
  induction p generalizing s with
  | ret => exact Sched.SameClock.refl s
  | call c k ih =>
    simp only [Prog.exec]
    exact (call_exec_sameClock N c s).trans (ih _ _)

theorem runCall_ranMask (N : Nat) (code : Nat → Prog) (s : Sched) (idx : Nat) :
    (runCall N code s idx).1.ranMask = s.ranMask := by
  unfold runCall
  dsimp only
  split
  · exact (prog_exec_sameClock N _ _).1
  · rfl

theorem runCall_clock (N : Nat) (code : Nat → Prog) (s : Sched) (idx : Nat) :
    (runCall N code s idx).1.lastTick = s.lastTick ∧
      (runCall N code s idx).1.tickMs = s.tickMs ∧
      (runCall N code s idx).1.tickNow = s.tickNow := by
  unfold runCall
  dsimp only
  split
  · rename_i f _
    have h := prog_exec_sameClock N (code f)
      { s with currentId := idx, currentAnchor := (s.task idx).next, overrideSet := false }
    exact ⟨h.2.1, h.2.2.1, h.2.2.2.1⟩
  · exact ⟨rfl, rfl, rfl⟩

theorem runCommit_ranMask (s : Sched) (nnd idx : Nat) :
    (runCommit s nnd idx).s.ranMask = s.ranMask.set idx := by
  unfold runCommit
  dsimp only
  split <;> rfl

theorem runCommit_clock (s : Sched) (nnd idx : Nat) :
    (runCommit s nnd idx).s.lastTick = s.lastTick ∧
      (runCommit s nnd idx).s.tickMs = s.tickMs ∧
      (runCommit s nnd idx).s.tickNow = s.tickNow := by
  unfold runCommit
  dsimp only
  split <;> exact ⟨rfl, rfl, rfl⟩

/-! ## The log of a run -/

theorem dispatched_append (a b : List Event) :
    dispatched (a ++ b) = dispatched a ++ dispatched b := by
  induction a with
  | nil => rfl
  | cons e es ih => cases e <;> simp [dispatched, ih]

theorem dispatched_map_call (l : List Call) : dispatched (l.map Event.call) = [] := by
  induction l with
  | nil => rfl
  | cons c cs ih => simpa [dispatched] using ih

/-- One loop iteration either dispatches nothing and leaves the mask alone, or
dispatches one slot whose flag was clear and sets that flag. -/
theorem runBody_mask (N : Nat) (code : Nat → Prog) (k : Nat) (st : RunSt) :
    (dispatched (runBody N code k st).2 = [] ∧
        (runBody N code k st).1.s.ranMask = st.s.ranMask) ∨
      ∃ idx, idx < 32 ∧ st.s.ranMask.get idx = false ∧
        dispatched (runBody N code k st).2 = [idx] ∧
        (runBody N code k st).1.s.ranMask = st.s.ranMask.set idx := by
  unfold runBody
  dsimp only
  split
  · left; exact ⟨rfl, rfl⟩
  · split
    · left; exact ⟨rfl, rfl⟩
    · rename_i hmask
      split
      · left
        refine ⟨rfl, ?_⟩
        split <;> rfl
      · right
        refine ⟨(st.s.order.get k).idx, TaskKey.idx_lt _, by simpa using hmask, ?_, ?_⟩
        · simp [dispatched, dispatched_map_call]
        · rw [runCommit_ranMask, runCall_ranMask]

/-- The invariant behind the once-per-tick rule: the slots dispatched so far
are distinct and all flagged in `ranMask`. -/
theorem runBody_nodup (N : Nat) (code : Nat → Prog) (k : Nat) (st : RunSt) (D : List Nat)
    (hD : D.Nodup) (hm : ∀ i ∈ D, i < 32 ∧ st.s.ranMask.get i = true) :
    (D ++ dispatched (runBody N code k st).2).Nodup ∧
      ∀ i ∈ D ++ dispatched (runBody N code k st).2,
        i < 32 ∧ (runBody N code k st).1.s.ranMask.get i = true := by
  rcases runBody_mask N code k st with ⟨h1, h2⟩ | ⟨idx, hlt, hclear, h1, h2⟩
  · rw [h1, h2, List.append_nil]
    exact ⟨hD, hm⟩
  · rw [h1, h2]
    constructor
    · rw [List.nodup_append]
      refine ⟨hD, List.nodup_singleton idx, ?_⟩
      intro a ha hb
      rw [List.mem_singleton] at hb
      subst hb
      have := (hm a ha).2
      rw [hclear] at this
      cases this
    · intro i hi
      rw [List.mem_append, List.mem_singleton] at hi
      rcases hi with hi | hi
      · exact ⟨(hm i hi).1, BoolArray32.get_set_of_get _ _ _ (hm i hi).1 (hm i hi).2⟩
      · subst hi
        exact ⟨hlt, BoolArray32.get_set_self _ _ hlt⟩

theorem runPass_nodup (N : Nat) (code : Nat → Prog) (n k : Nat) (st : RunSt) (D : List Nat)
    (hD : D.Nodup) (hm : ∀ i ∈ D, i < 32 ∧ st.s.ranMask.get i = true) :
    (D ++ dispatched (runPass N code n k st).2).Nodup ∧
      ∀ i ∈ D ++ dispatched (runPass N code n k st).2,
        i < 32 ∧ (runPass N code n k st).1.s.ranMask.get i = true := by
  induction n generalizing k st D with
  | zero => simpa [runPass, dispatched] using And.intro hD hm
  | succ n ih =>
    unfold runPass
    split
    · dsimp only
      have hb := runBody_nodup N code k st D hD hm
      have := ih (k + 1) (runBody N code k st).1 _ hb.1 hb.2
      rw [dispatched_append, ← List.append_assoc]
      exact this
    · simpa [dispatched] using And.intro hD hm

theorem runDrain_nodup (N : Nat) (code : Nat → Prog) (n : Nat) (st : RunSt) (D : List Nat)
    (hD : D.Nodup) (hm : ∀ i ∈ D, i < 32 ∧ st.s.ranMask.get i = true) :
    (D ++ dispatched (runDrain N code n st).2).Nodup ∧
      ∀ i ∈ D ++ dispatched (runDrain N code n st).2,
        i < 32 ∧ (runDrain N code n st).1.s.ranMask.get i = true := by
  induction n generalizing st D with
  | zero =>
    unfold runDrain
    exact runPass_nodup N code N 0 { st with anyRanThisPass := false } D hD hm
  | succ n ih =>
    unfold runDrain
    dsimp only
    have hp := runPass_nodup N code N 0 { st with anyRanThisPass := false } D hD hm
    split
    · rw [dispatched_append, ← List.append_assoc]
      exact ih (endPass _) _ hp.1 hp.2
    · exact hp

/-! ## The clock during a run -/

theorem runBody_clock (N : Nat) (code : Nat → Prog) (k : Nat) (st : RunSt) :
    (runBody N code k st).1.s.lastTick = st.s.lastTick ∧
      (runBody N code k st).1.s.tickMs = st.s.tickMs ∧
      (runBody N code k st).1.s.tickNow = st.s.tickNow := by
  unfold runBody
  dsimp only
  split
  · exact ⟨rfl, rfl, rfl⟩
  · split
    · exact ⟨rfl, rfl, rfl⟩
    · split
      · split <;> exact ⟨rfl, rfl, rfl⟩
      · have h1 := runCommit_clock (runCall N code st.s (st.s.order.get k).idx).1 st.newNextDue
          (st.s.order.get k).idx
        have h2 := runCall_clock N code st.s (st.s.order.get k).idx
        exact ⟨h1.1.trans h2.1, h1.2.1.trans h2.2.1, h1.2.2.trans h2.2.2⟩

theorem runPass_clock (N : Nat) (code : Nat → Prog) (n k : Nat) (st : RunSt) :
    (runPass N code n k st).1.s.lastTick = st.s.lastTick ∧
      (runPass N code n k st).1.s.tickMs = st.s.tickMs ∧
      (runPass N code n k st).1.s.tickNow = st.s.tickNow := by
  induction n generalizing k st with
  | zero => exact ⟨rfl, rfl, rfl⟩
  | succ n ih =>
    unfold runPass
    split
    · dsimp only
      have h1 := ih (k + 1) (runBody N code k st).1
      have h2 := runBody_clock N code k st
      exact ⟨h1.1.trans h2.1, h1.2.1.trans h2.2.1, h1.2.2.trans h2.2.2⟩
    · exact ⟨rfl, rfl, rfl⟩

theorem runDrain_clock (N : Nat) (code : Nat → Prog) (n : Nat) (st : RunSt) :
    (runDrain N code n st).1.s.lastTick = st.s.lastTick ∧
      (runDrain N code n st).1.s.tickMs = st.s.tickMs ∧
      (runDrain N code n st).1.s.tickNow = st.s.tickNow := by
  induction n generalizing st with
  | zero =>
    unfold runDrain
    exact runPass_clock N code N 0 { st with anyRanThisPass := false }
  | succ n ih =>
    unfold runDrain
    dsimp only
    have h2 := runPass_clock N code N 0 { st with anyRanThisPass := false }
    split
    · have h1 := ih (endPass (runPass N code N 0 { st with anyRanThisPass := false }).1)
      exact ⟨h1.1.trans h2.1, h1.2.1.trans h2.2.1, h1.2.2.trans h2.2.2⟩
    · exact h2

/-- A call of `run` that the cadence gate rejects changes nothing. -/
theorem run_gated (N : Nat) (code : Nat → Prog) (s : Sched) (now : Nat)
    (h : sub32 now s.lastTick < s.tickMs) : run N code s now = (s, []) := by
  simp [run, h]

/-- A call of `run` that passes the cadence gate advances `lastTick` and
`tickNow` by one quantum and leaves the quantum alone. -/
theorem run_clock (N : Nat) (code : Nat → Prog) (s : Sched) (now : Nat)
    (h : ¬ sub32 now s.lastTick < s.tickMs) :
    (run N code s now).1.lastTick = add32 s.lastTick s.tickMs ∧
      (run N code s now).1.tickMs = s.tickMs ∧
      (run N code s now).1.tickNow = add32 s.lastTick s.tickMs := by
  unfold run
  simp only [h, if_false]
  split
  · exact ⟨rfl, rfl, rfl⟩
  · exact runDrain_clock N code (N - 1) _

/-! ## C1: at most one dispatch per tick -/

/-- C1: in every scheduler state, for every timestamp and every assignment of
task function bodies built from interface calls, no slot index occurs twice
among the slots dispatched by one call of `run`. -/
theorem run_dispatches_each_slot_once (N : Nat) (code : Nat → Prog) (s : Sched) (now : Nat) :
    (dispatched (run N code s now).2).Nodup := by
  unfold run
  split
  · exact List.nodup_nil
  · dsimp only
    split
    · exact List.nodup_nil
    · have h := runDrain_nodup N code (N - 1)
        { s := { s with lastTick := add32 s.lastTick s.tickMs, tickNow := add32 s.lastTick s.tickMs,
                        ranMask := s.ranMask.clear, cascadePending := false },
          newNextDue := UINT32_MAX, anyRanThisPass := false } [] List.nodup_nil
        (by intro i hi; cases hi)
      simpa using h.1

/-! ## What calls do to one slot -/

theorem TaskMeta.inUse_setPrio (m : TaskMeta) (p : Nat) : (m.setPrio p).inUse = m.inUse := by
  simp only [TaskMeta.inUse_eq, TaskMeta.setPrio]
  have h : (256 : Nat) = 2 ^ 8 := by norm_num
  rw [h, Nat.testBit_mod_two_pow, Nat.testBit_or, Nat.testBit_and, Nat.testBit_shiftLeft]
  have : Nat.testBit (0xFF ^^^ TaskMeta.PRIO_MASK) 0 = true := by decide
  simp [this]

theorem TaskMeta.enabled_setPrio (m : TaskMeta) (p : Nat) : (m.setPrio p).enabled = m.enabled := by
  simp only [TaskMeta.enabled_eq, TaskMeta.setPrio]
  have h : (256 : Nat) = 2 ^ 8 := by norm_num
  rw [h, Nat.testBit_mod_two_pow, Nat.testBit_or, Nat.testBit_and, Nat.testBit_shiftLeft]
  have : Nat.testBit (0xFF ^^^ TaskMeta.PRIO_MASK) 1 = true := by decide
  simp [this]

theorem Sched.firstFree_free (t : List Task) (n i f : Nat) (h : Sched.firstFree t n i = some f) :
    (t.getD f default).meta.inUse = false := by
  induction n generalizing i with
  | zero => simp [Sched.firstFree] at h
  | succ n ih =>
    unfold Sched.firstFree at h
    split at h
    · rename_i hfree
      simp only [Option.some.injEq] at h
      subst h
      simpa using hfree
    · exact ih _ h

theorem getD_set {α : Type} (l : List α) (i j : Nat) (x d : α) :
    (l.set i x).getD j d = if i = j ∧ j < l.length then x else l.getD j d := by
  by_cases h : i = j
  · subst h
    by_cases hl : i < l.length
    · simp only [hl, and_self, if_true]
      exact getD_set_self l i x d hl
    · simp only [hl, and_false, if_false]
      rw [List.set_eq_of_length_le (Nat.le_of_not_lt hl)]
  · simp only [h, false_and, if_false]
    exact getD_set_ne l i j x d h

/-- A slot in use lies inside the task array. -/
theorem Sched.inUse_lt (s : Sched) (i : Nat) (h : (s.task i).meta.inUse = true) :
    i < s.t.length := by
  apply getD_ne_default_lt s.t i default
  intro hd
  unfold Sched.task at h
  rw [hd] at h
  exact absurd h (by decide)

/-- What a call that is not a wake-up or a delete of slot `i` can do to that
slot while it is in use: nothing, disable it, or change its priority. -/
theorem call_exec_task (N : Nat) (c : Call) (s : Sched) (i : Nat)
    (hw : c.wakes i = false) (hin : (s.task i).meta.inUse = true) :
    (c.exec N s).1.task i = s.task i ∨
      (c.exec N s).1.task i = { s.task i with meta := (s.task i).meta.disable } ∨
      ∃ p, (c.exec N s).1.task i = { s.task i with meta := (s.task i).meta.setPrio p } := by
  have hlt := Sched.inUse_lt s i hin
  cases c <;> simp only [Call.exec, Call.wakes, beq_eq_false_iff_ne, ne_eq] at hw ⊢
  case create cb d p =>
    left
    unfold Sched.xTaskCreate
    split
    · rfl
    · split
      · rfl
      · rename_i f hf
        have hfree := Sched.firstFree_free _ _ _ _ hf
        have hne : f ≠ i := by
          intro e; subst e
          unfold Sched.task at hin
          rw [hin] at hfree
          cases hfree
        dsimp only
        split <;> simp only [Sched.task, getD_set_ne _ _ _ _ _ hne]
  case delete h =>
    left
    unfold Sched.vTaskDelete
    split
    · rfl
    · dsimp only
      split <;> simp only [Sched.task, getD_set_ne _ _ _ _ _ hw]
  case suspend h =>
    unfold Sched.vTaskSuspend
    split
    · left; rfl
    · simp only [Sched.task, getD_set]
      split
      · rename_i hh
        obtain ⟨rfl, _⟩ := hh
        right; left; rfl
      · left; rfl
  case resume h =>
    left
    unfold Sched.vTaskResume
    split
    · rfl
    · dsimp only
      split <;> simp only [Sched.task, getD_set_ne _ _ _ _ _ hw]
  case resumeAfter h ms =>
    left
    unfold Sched.vTaskResumeAfter
    split
    · rfl
    · dsimp only
      split
      · split <;> simp only [Sched.task, getD_set_ne _ _ _ _ _ hw]
      · split <;> simp only [Sched.task, getD_set_ne _ _ _ _ _ hw]
  case notifyGive h =>
    left
    unfold Sched.vTaskNotifyGive
    split
    · rfl
    · dsimp only
      split <;> simp only [Sched.task, getD_set_ne _ _ _ _ _ hw]
  case notifyTake b =>
    left
    unfold Sched.ulTaskNotifyTake
    split
    · rfl
    · dsimp only
      split
      · rfl
      · split <;> rfl
  case getCurrentTaskHandle => left; trivial
  case getTickCount => left; trivial
  case delay ms =>
    left
    unfold Sched.vTaskDelay
    split <;> rfl
  case yieldNextTick =>
    left
    unfold Sched.vTaskYieldNextTick
    split <;> rfl
  case delayUntil p =>
    left
    unfold Sched.vTaskDelayUntil
    split
    · rfl
    · split
      · rfl
      · dsimp only
        split <;> rfl
  case prioritySet h p =>
    unfold Sched.vTaskPrioritySet
    split
    · left; rfl
    · simp only [Sched.task, getD_set]
      split
      · rename_i hh
        obtain ⟨rfl, _⟩ := hh
        right; right; exact ⟨p, rfl⟩
      · left; rfl
  case priorityGet h => left; trivial
  case priorityGetCurrent => left; trivial

/-- A call that is not a wake-up or a delete of slot `i` keeps the slot in
use with the same wake time and callback, and keeps a disabled slot disabled. -/
theorem call_exec_keeps (N : Nat) (c : Call) (s : Sched) (i : Nat)
    (hw : c.wakes i = false) (hin : (s.task i).meta.inUse = true) :
    ((c.exec N s).1.task i).meta.inUse = true ∧
      ((c.exec N s).1.task i).next = (s.task i).next ∧
      ((c.exec N s).1.task i).cb = (s.task i).cb ∧
      ((s.task i).meta.enabled = false → ((c.exec N s).1.task i).meta.enabled = false) := by
  rcases call_exec_task N c s i hw hin with h | h | ⟨p, h⟩ <;> rw [h]
  · exact ⟨hin, rfl, rfl, id⟩
  · exact ⟨by rw [TaskMeta.inUse_disable]; exact hin, rfl, rfl,
      fun _ => TaskMeta.enabled_disable _⟩
  · exact ⟨by rw [TaskMeta.inUse_setPrio]; exact hin, rfl, rfl,
      fun he => by rw [TaskMeta.enabled_setPrio]; exact he⟩

/-- A call other than `delay`, `yield_next_tick` and `delay_until` leaves the
override flag alone. -/
theorem call_exec_overrideSet (N : Nat) (c : Call) (s : Sched) (ho : c.overrides = false) :
    (c.exec N s).1.overrideSet = s.overrideSet := by
  cases c <;> simp only [Call.exec, Call.overrides] at ho ⊢
  case create cb d p =>
    unfold Sched.xTaskCreate
    split
    · rfl
    · split
      · rfl
      · dsimp only
        split <;> rfl
  case delete h =>
    unfold Sched.vTaskDelete
    split
    · rfl
    · dsimp only
      split <;> rfl
  case suspend h =>
    unfold Sched.vTaskSuspend
    split <;> rfl
  case resume h =>
    unfold Sched.vTaskResume
    split
    · rfl
    · dsimp only
      split <;> rfl
  case resumeAfter h ms =>
    unfold Sched.vTaskResumeAfter
    split
    · rfl
    · dsimp only
      split
      · split <;> rfl
      · split <;> rfl
  case notifyGive h =>
    unfold Sched.vTaskNotifyGive
    split
    · rfl
    · dsimp only
      split <;> rfl
  case notifyTake b =>
    unfold Sched.ulTaskNotifyTake
    split
    · rfl
    · dsimp only
      split
      · rfl
      · split <;> rfl
  case prioritySet h p =>
    unfold Sched.vTaskPrioritySet
    split <;> rfl
  all_goals first | rfl | cases ho

/-- A task function none of whose calls is a wake-up or a delete of the in-use
slot `i`, nor an override, keeps the slot in use with its wake time and
callback, keeps it disabled if it was, and leaves the override flag alone. -/
theorem prog_exec_keeps (N : Nat) (p : Prog) (s : Sched) (i : Nat)
    (hw : ∀ c ∈ (p.exec N s).2, c.wakes i = false) (hin : (s.task i).meta.inUse = true) :
    ((p.exec N s).1.task i).meta.inUse = true ∧
      ((p.exec N s).1.task i).next = (s.task i).next ∧
      ((p.exec N s).1.task i).cb = (s.task i).cb ∧
      ((s.task i).meta.enabled = false → ((p.exec N s).1.task i).meta.enabled = false) := by
  induction p generalizing s with
  | ret => exact ⟨hin, rfl, rfl, id⟩
  | call c k ih =>
    simp only [Prog.exec] at hw ⊢
    have h1 := call_exec_keeps N c s i (hw c (List.mem_cons_self _ _)) hin
    have h2 := ih (c.exec N s).2 (c.exec N s).1
      (fun c2 hc2 => hw c2 (List.mem_cons_of_mem _ hc2)) h1.1
    exact ⟨h2.1, h2.2.1.trans h1.2.1, h2.2.2.1.trans h1.2.2.1, fun he => h2.2.2.2 (h1.2.2.2 he)⟩

theorem prog_exec_overrideSet (N : Nat) (p : Prog) (s : Sched)
    (ho : ∀ c ∈ (p.exec N s).2, c.overrides = false) :
    (p.exec N s).1.overrideSet = s.overrideSet := by
  induction p generalizing s with
  | ret => rfl
  | call c k ih =>
    simp only [Prog.exec] at ho ⊢
    rw [ih (c.exec N s).2 (c.exec N s).1 (fun c2 hc2 => ho c2 (List.mem_cons_of_mem _ hc2))]
    exact call_exec_overrideSet N c s (ho c (List.mem_cons_self _ _))

/-! ## The run loops, step by step, and slots that sleep -/

theorem runCommit_task_ne (s : Sched) (nnd idx i : Nat) (h : idx ≠ i) :
    (runCommit s nnd idx).s.task i = s.task i := by
  unfold runCommit
  dsimp only
  split <;> simp only [Sched.task, getD_set_ne _ _ _ _ _ h]

theorem runCommit_task_self (s : Sched) (nnd i : Nat) (ho : s.overrideSet = false)
    (hlt : i < s.t.length) :
    (runCommit s nnd i).s.task i = { s.task i with meta := (s.task i).meta.disable } := by
  unfold runCommit
  simp only [ho, Bool.false_eq_true, if_false, Sched.task, getD_set_self _ _ _ _ hlt]

theorem runCommit_autosuspend (s : Sched) (nnd i : Nat) (ho : s.overrideSet = false)
    (hin : (s.task i).meta.inUse = true) :
    (runCommit s nnd i).s.Asleep i (s.task i).next := by
  unfold Sched.Asleep
  rw [runCommit_task_self s nnd i ho (Sched.inUse_lt s i hin)]
  exact ⟨by rw [TaskMeta.inUse_disable]; exact hin, TaskMeta.enabled_disable _, rfl⟩

theorem runCall_keeps (N : Nat) (code : Nat → Prog) (s : Sched) (idx i : Nat)
    (hw : ∀ c ∈ (runCall N code s idx).2, c.wakes i = false)
    (hin : (s.task i).meta.inUse = true) :
    ((runCall N code s idx).1.task i).meta.inUse = true ∧
      ((runCall N code s idx).1.task i).next = (s.task i).next ∧
      ((runCall N code s idx).1.task i).cb = (s.task i).cb ∧
      ((s.task i).meta.enabled = false →
        ((runCall N code s idx).1.task i).meta.enabled = false) := by
  unfold runCall at hw ⊢
  dsimp only at hw ⊢
  split
  · rename_i f hf
    rw [hf] at hw
    exact prog_exec_keeps N (code f)
      { s with currentId := idx, currentAnchor := (s.task idx).next, overrideSet := false } i hw hin
  · exact ⟨hin, rfl, rfl, id⟩

theorem runCall_overrideSet (N : Nat) (code : Nat → Prog) (s : Sched) (idx : Nat)
    (ho : ∀ c ∈ (runCall N code s idx).2, c.overrides = false) :
    (runCall N code s idx).1.overrideSet = false := by
  unfold runCall at ho ⊢
  dsimp only at ho ⊢
  split
  · rename_i f hf
    rw [hf] at ho
    exact prog_exec_overrideSet N (code f)
      { s with currentId := idx, currentAnchor := (s.task idx).next, overrideSet := false } ho
  · rfl

/-- The shape of the log of one loop iteration: nothing, or the dispatch of
the slot at position `k` followed by the calls of its task function. -/
theorem runBody_log (N : Nat) (code : Nat → Prog) (k : Nat) (st : RunSt) :
    ((runBody N code k st).2 = [] ∧ (runBody N code k st).1.s = st.s) ∨
      ((st.s.task (st.s.order.get k).idx).ready = true ∧
        st.s.ranMask.get (st.s.order.get k).idx = false ∧
        earlier st.s.tickNow (st.s.task (st.s.order.get k).idx).next = false ∧
        (runBody N code k st).2 =
          Event.dispatch (st.s.order.get k).idx (st.s.task (st.s.order.get k).idx).next ::
            (runCall N code st.s (st.s.order.get k).idx).2.map Event.call ∧
        (runBody N code k st).1 =
          runCommit (runCall N code st.s (st.s.order.get k).idx).1 st.newNextDue
            (st.s.order.get k).idx) := by
  unfold runBody
  dsimp only
  split
  · left; exact ⟨rfl, rfl⟩
  · rename_i hr
    split
    · left; exact ⟨rfl, rfl⟩
    · rename_i hm
      split
      · left
        refine ⟨rfl, ?_⟩
        split <;> rfl
      · rename_i he
        right
        exact ⟨by simpa using hr, by simpa using hm, by simpa using he, rfl, rfl⟩

theorem mem_map_call (c : Call) (l : List Call) : Event.call c ∈ l.map Event.call ↔ c ∈ l := by
  simp

/-- One loop iteration leaves a sleeping slot asleep and does not dispatch it,
when none of the calls made wakes or deletes it. -/
theorem runBody_asleep (N : Nat) (code : Nat → Prog) (k : Nat) (st : RunSt) (i a : Nat)
    (hs : st.s.Asleep i a)
    (hw : ∀ c, Event.call c ∈ (runBody N code k st).2 → c.wakes i = false) :
    (runBody N code k st).1.s.Asleep i a ∧ i ∉ dispatched (runBody N code k st).2 := by
  rcases runBody_log N code k st with ⟨h1, h2⟩ | ⟨hr, _, _, h1, h2⟩
  · rw [h1, h2]
    exact ⟨hs, by simp [dispatched]⟩
  · have hne : (st.s.order.get k).idx ≠ i := by
      intro e
      rw [e] at hr
      simp only [Task.ready, Bool.and_eq_true] at hr
      rw [hs.2.1] at hr
      exact absurd hr.1.2 (by decide)
    rw [h1] at hw
    have hk := runCall_keeps N code st.s (st.s.order.get k).idx i
      (fun c hc => hw c (List.mem_cons_of_mem _ ((mem_map_call c _).2 hc))) hs.1
    rw [h1, h2]
    refine ⟨?_, ?_⟩
    · unfold Sched.Asleep
      rw [runCommit_task_ne _ _ _ _ hne]
      exact ⟨hk.1, hk.2.2.2 hs.2.1, hk.2.1.trans hs.2.2⟩
    · simp only [dispatched, dispatched_map_call, List.mem_singleton]
      exact fun e => hne e.symm

theorem runPass_zero (N : Nat) (code : Nat → Prog) (k : Nat) (st : RunSt) :
    runPass N code 0 k st = (st, []) := rfl

theorem runPass_succ_lt (N : Nat) (code : Nat → Prog) (n k : Nat) (st : RunSt)
    (h : k < st.s.order.size) :
    runPass N code (n + 1) k st =
      ((runPass N code n (k + 1) (runBody N code k st).1).1,
        (runBody N code k st).2 ++ (runPass N code n (k + 1) (runBody N code k st).1).2) := by
  rw [runPass, if_pos h]

theorem runPass_succ_ge (N : Nat) (code : Nat → Prog) (n k : Nat) (st : RunSt)
    (h : ¬ k < st.s.order.size) : runPass N code (n + 1) k st = (st, []) := by
  rw [runPass, if_neg h]

theorem runDrain_zero (N : Nat) (code : Nat → Prog) (st : RunSt) :
    runDrain N code 0 st =
      (endPass (runPass N code N 0 { st with anyRanThisPass := false }).1,
        (runPass N code N 0 { st with anyRanThisPass := false }).2) := rfl

theorem runDrain_succ_pos (N : Nat) (code : Nat → Prog) (m : Nat) (st : RunSt)
    (h : (endPass (runPass N code N 0 { st with anyRanThisPass := false }).1).s.cascadePending
      = true) :
    runDrain N code (m + 1) st =
      ((runDrain N code m
          (endPass (runPass N code N 0 { st with anyRanThisPass := false }).1)).1,
        (runPass N code N 0 { st with anyRanThisPass := false }).2 ++
          (runDrain N code m
            (endPass (runPass N code N 0 { st with anyRanThisPass := false }).1)).2) := by
  rw [runDrain]
  dsimp only
  rw [if_pos h]

theorem runDrain_succ_neg (N : Nat) (code : Nat → Prog) (m : Nat) (st : RunSt)
    (h : ¬ (endPass (runPass N code N 0 { st with anyRanThisPass := false }).1).s.cascadePending
      = true) :
    runDrain N code (m + 1) st =
      (endPass (runPass N code N 0 { st with anyRanThisPass := false }).1,
        (runPass N code N 0 { st with anyRanThisPass := false }).2) := by
  rw [runDrain]
  dsimp only
  rw [if_neg h]

theorem run_drained (N : Nat) (code : Nat → Prog) (s : Sched) (now : Nat)
    (hg : ¬ sub32 now s.lastTick < s.tickMs)
    (hf : earlier (add32 s.lastTick s.tickMs) s.nextDue = false) :
    run N code s now =
      ({ (runDrain N code (N - 1)
            { s := { s with lastTick := add32 s.lastTick s.tickMs
                            tickNow := add32 s.lastTick s.tickMs
                            ranMask := s.ranMask.clear
                            cascadePending := false }
              newNextDue := UINT32_MAX
              anyRanThisPass := false }).1.s with
          nextDue := (runDrain N code (N - 1)
            { s := { s with lastTick := add32 s.lastTick s.tickMs
                            tickNow := add32 s.lastTick s.tickMs
                            ranMask := s.ranMask.clear
                            cascadePending := false }
              newNextDue := UINT32_MAX
              anyRanThisPass := false }).1.newNextDue },
        (runDrain N code (N - 1)
            { s := { s with lastTick := add32 s.lastTick s.tickMs
                            tickNow := add32 s.lastTick s.tickMs
                            ranMask := s.ranMask.clear
                            cascadePending := false }
              newNextDue := UINT32_MAX
              anyRanThisPass := false }).2) := by
  unfold run
  rw [if_neg hg]
  dsimp only
  rw [if_neg (by simp [hf])]

theorem run_fast (N : Nat) (code : Nat → Prog) (s : Sched) (now : Nat)
    (hg : ¬ sub32 now s.lastTick < s.tickMs)
    (hf : earlier (add32 s.lastTick s.tickMs) s.nextDue = true) :
    run N code s now =
      ({ s with lastTick := add32 s.lastTick s.tickMs, tickNow := add32 s.lastTick s.tickMs },
        []) := by
  unfold run
  rw [if_neg hg]
  dsimp only
  rw [if_pos hf]

theorem runPass_asleep (N : Nat) (code : Nat → Prog) (n k : Nat) (st : RunSt) (i a : Nat)
    (hs : st.s.Asleep i a)
    (hw : ∀ c, Event.call c ∈ (runPass N code n k st).2 → c.wakes i = false) :
    (runPass N code n k st).1.s.Asleep i a ∧ i ∉ dispatched (runPass N code n k st).2 := by
  induction n generalizing k st with
  | zero => exact ⟨hs, by simp [runPass, dispatched]⟩
  | succ n ih =>
    by_cases hlt : k < st.s.order.size
    · rw [runPass_succ_lt N code n k st hlt] at hw ⊢
      have hb := runBody_asleep N code k st i a hs
        (fun c hc => hw c (List.mem_append_left _ hc))
      have hr := ih (k + 1) (runBody N code k st).1 hb.1
        (fun c hc => hw c (List.mem_append_right _ hc))
      refine ⟨hr.1, ?_⟩
      rw [dispatched_append, List.mem_append]
      exact fun h => h.elim hb.2 hr.2
    · rw [runPass_succ_ge N code n k st hlt]
      exact ⟨hs, by simp [dispatched]⟩

theorem runDrain_asleep (N : Nat) (code : Nat → Prog) (n : Nat) (st : RunSt) (i a : Nat)
    (hs : st.s.Asleep i a)
    (hw : ∀ c, Event.call c ∈ (runDrain N code n st).2 → c.wakes i = false) :
    (runDrain N code n st).1.s.Asleep i a ∧ i ∉ dispatched (runDrain N code n st).2 := by
  induction n generalizing st with
  | zero =>
    rw [runDrain_zero] at hw ⊢
    exact runPass_asleep N code N 0 { st with anyRanThisPass := false } i a hs hw
  | succ n ih =>
    by_cases hcp : (endPass (runPass N code N 0 { st with anyRanThisPass := false }).1).s.cascadePending = true
    · rw [runDrain_succ_pos N code n st hcp] at hw ⊢
      have hp := runPass_asleep N code N 0 { st with anyRanThisPass := false } i a hs
        (fun c hc => hw c (List.mem_append_left _ hc))
      have hr := ih (endPass (runPass N code N 0 { st with anyRanThisPass := false }).1)
        (show Sched.Asleep _ i a from hp.1)
        (fun c hc => hw c (List.mem_append_right _ hc))
      refine ⟨hr.1, ?_⟩
      rw [dispatched_append, List.mem_append]
      exact fun h => h.elim hp.2 hr.2
    · rw [runDrain_succ_neg N code n st hcp] at hw ⊢
      exact runPass_asleep N code N 0 { st with anyRanThisPass := false } i a hs hw

/-- A call of `run` leaves a sleeping slot asleep and does not dispatch it,
when none of the calls made during it wakes or deletes the slot. -/
theorem run_asleep (N : Nat) (code : Nat → Prog) (s : Sched) (now i a : Nat)
    (hs : s.Asleep i a)
    (hw : ∀ c, Event.call c ∈ (run N code s now).2 → c.wakes i = false) :
    (run N code s now).1.Asleep i a ∧ i ∉ dispatched (run N code s now).2 := by
  by_cases hg : sub32 now s.lastTick < s.tickMs
  · rw [run_gated N code s now hg]
    exact ⟨hs, by simp [dispatched]⟩
  · by_cases hf : earlier (add32 s.lastTick s.tickMs) s.nextDue = true
    · rw [run_fast N code s now hg hf]
      exact ⟨hs, by simp [dispatched]⟩
    · have hf2 : earlier (add32 s.lastTick s.tickMs) s.nextDue = false := by simpa using hf
      rw [run_drained N code s now hg hf2] at hw ⊢
      have := runDrain_asleep N code (N - 1) _ i a (show Sched.Asleep _ i a from hs) hw
      exact ⟨this.1, this.2⟩

theorem ownCalls_append_subset (l1 l2 : List Event) (c : Call) (h : c ∈ ownCalls l1) :
    c ∈ ownCalls (l1 ++ l2) := by
  induction l1 with
  | nil => simp [ownCalls] at h
  | cons e es ih =>
    cases e with
    | dispatch idx a => simp [ownCalls] at h
    | call c2 =>
      simp only [ownCalls, List.cons_append, List.mem_cons] at h ⊢
      exact h.elim Or.inl (fun h2 => Or.inr (ih h2))

theorem ownCalls_map_call (l : List Call) : ownCalls (l.map Event.call) = l := by
  induction l with
  | nil => rfl
  | cons c cs ih => simp [ownCalls, ih]

theorem dispatch_not_mem_map_call (i a : Nat) (l : List Call) :
    Event.dispatch i a ∉ l.map Event.call := by
  simp

/-- The iteration that dispatches slot `i` leaves it asleep with the wake time
it was dispatched with, when its task function makes no override call and no
wake-up or delete of `i`. -/
theorem runBody_autosuspend (N : Nat) (code : Nat → Prog) (k : Nat) (st : RunSt) (i a : Nat)
    (pre rest : List Event)
    (he : (runBody N code k st).2 = pre ++ Event.dispatch i a :: rest)
    (ho : ∀ c ∈ ownCalls rest, c.overrides = false)
    (hw : ∀ c, Event.call c ∈ rest → c.wakes i = false) :
    (runBody N code k st).1.s.Asleep i a := by
  rcases runBody_log N code k st with ⟨h1, _⟩ | ⟨hr, _, _, h1, h2⟩
  · rw [h1] at he
    simp at he
  · rw [h1] at he
    cases pre with
    | cons p pre2 =>
      simp only [List.cons_append, List.cons.injEq] at he
      have : Event.dispatch i a ∈ (runCall N code st.s (st.s.order.get k).idx).2.map Event.call := by
        rw [he.2]; simp
      exact absurd this (dispatch_not_mem_map_call _ _ _)
    | nil =>
      simp only [List.nil_append, List.cons.injEq, Event.dispatch.injEq] at he
      obtain ⟨⟨hi, ha⟩, hrest⟩ := he
      rw [hi] at hr h2 hrest ha
      have hin : (st.s.task i).meta.inUse = true := by
        simp only [Task.ready, Bool.and_eq_true] at hr
        exact hr.1.1
      subst hrest
      rw [ownCalls_map_call] at ho
      have hk := runCall_keeps N code st.s i i (fun c hc => hw c ((mem_map_call c _).2 hc)) hin
      have hov := runCall_overrideSet N code st.s i ho
      rw [h2]
      have := runCommit_autosuspend (runCall N code st.s i).1 st.newNextDue i hov hk.1
      rw [hk.2.1, ha] at this
      exact this

theorem runPass_autosuspend (N : Nat) (code : Nat → Prog) (n k : Nat) (st : RunSt) (i a : Nat)
    (pre post : List Event)
    (he : (runPass N code n k st).2 = pre ++ Event.dispatch i a :: post)
    (ho : ∀ c ∈ ownCalls post, c.overrides = false)
    (hw : ∀ c, Event.call c ∈ post → c.wakes i = false) :
    (runPass N code n k st).1.s.Asleep i a := by
  induction n generalizing k st pre with
  | zero => simp [runPass] at he
  | succ n ih =>
    by_cases hlt : k < st.s.order.size
    · rw [runPass_succ_lt N code n k st hlt] at he ⊢
      dsimp only at he ⊢
      rcases List.append_eq_append_iff.1 he with ⟨a2, h1, h2⟩ | ⟨c2, h1, h2⟩
      · exact ih (k + 1) (runBody N code k st).1 a2 h2
      · cases c2 with
        | nil =>
          simp only [List.nil_append] at h2
          exact ih (k + 1) (runBody N code k st).1 [] h2.symm
        | cons d c3 =>
          simp only [List.cons_append, List.cons.injEq] at h2
          obtain ⟨hd, hpost⟩ := h2
          subst hd
          subst hpost
          have hb := runBody_autosuspend N code k st i a pre c3 h1
            (fun c hc => ho c (ownCalls_append_subset _ _ c hc))
            (fun c hc => hw c (List.mem_append_left _ hc))
          exact (runPass_asleep N code n (k + 1) (runBody N code k st).1 i a hb
            (fun c hc => hw c (List.mem_append_right _ hc))).1
    · rw [runPass_succ_ge N code n k st hlt] at he
      simp at he

theorem runDrain_autosuspend (N : Nat) (code : Nat → Prog) (n : Nat) (st : RunSt) (i a : Nat)
    (pre post : List Event)
    (he : (runDrain N code n st).2 = pre ++ Event.dispatch i a :: post)
    (ho : ∀ c ∈ ownCalls post, c.overrides = false)
    (hw : ∀ c, Event.call c ∈ post → c.wakes i = false) :
    (runDrain N code n st).1.s.Asleep i a := by
  induction n generalizing st pre with
  | zero =>
    rw [runDrain_zero] at he ⊢
    exact runPass_autosuspend N code N 0 _ i a pre post he ho hw
  | succ n ih =>
    by_cases hcp : (endPass (runPass N code N 0 { st with anyRanThisPass := false }).1).s.cascadePending = true
    · rw [runDrain_succ_pos N code n st hcp] at he ⊢
      dsimp only at he ⊢
      rcases List.append_eq_append_iff.1 he with ⟨a2, h1, h2⟩ | ⟨c2, h1, h2⟩
      · exact ih _ a2 h2
      · cases c2 with
        | nil =>
          simp only [List.nil_append] at h2
          exact ih _ [] h2.symm
        | cons d c3 =>
          simp only [List.cons_append, List.cons.injEq] at h2
          obtain ⟨hd, hpost⟩ := h2
          subst hd
          subst hpost
          have hb := runPass_autosuspend N code N 0 { st with anyRanThisPass := false } i a pre c3 h1
            (fun c hc => ho c (ownCalls_append_subset _ _ c hc))
            (fun c hc => hw c (List.mem_append_left _ hc))
          exact (runDrain_asleep N code n
            (endPass (runPass N code N 0 { st with anyRanThisPass := false }).1) i a
            (show Sched.Asleep _ i a from hb)
            (fun c hc => hw c (List.mem_append_right _ hc))).1
    · rw [runDrain_succ_neg N code n st hcp] at he ⊢
      exact runPass_autosuspend N code N 0 _ i a pre post he ho hw

theorem run_autosuspend (N : Nat) (code : Nat → Prog) (s : Sched) (now i a : Nat)
    (pre post : List Event)
    (he : (run N code s now).2 = pre ++ Event.dispatch i a :: post)
    (ho : ∀ c ∈ ownCalls post, c.overrides = false)
    (hw : ∀ c, Event.call c ∈ post → c.wakes i = false) :
    (run N code s now).1.Asleep i a := by
  by_cases hg : sub32 now s.lastTick < s.tickMs
  · rw [run_gated N code s now hg] at he
    simp at he
  · by_cases hf : earlier (add32 s.lastTick s.tickMs) s.nextDue = true
    · rw [run_fast N code s now hg hf] at he
      simp at he
    · have hf2 : earlier (add32 s.lastTick s.tickMs) s.nextDue = false := by simpa using hf
      rw [run_drained N code s now hg hf2] at he ⊢
      exact runDrain_autosuspend N code (N - 1) _ i a pre post he ho hw

/-- A sleeping slot stays asleep and is not dispatched through any sequence of
steps in which no call wakes or deletes it. -/
theorem steps_asleep (N : Nat) (code : Nat → Prog) (s : Sched) (l : List Step) (i a : Nat)
    (hs : s.Asleep i a)
    (hw : ∀ c, Event.call c ∈ (steps N code s l).2 → c.wakes i = false) :
    (steps N code s l).1.Asleep i a ∧ i ∉ dispatched (steps N code s l).2 := by
  induction l generalizing s with
  | nil => exact ⟨hs, by simp [steps, dispatched]⟩
  | cons st rest ih =>
    cases st with
    | api c =>
      simp only [steps] at hw ⊢
      have hc := call_exec_keeps N c s i (hw c (List.mem_cons_self _ _)) hs.1
      have := ih (c.exec N s).1 ⟨hc.1, hc.2.2.2 hs.2.1, hc.2.1.trans hs.2.2⟩
        (fun c2 h2 => hw c2 (List.mem_cons_of_mem _ h2))
      exact ⟨this.1, by simpa [dispatched] using this.2⟩
    | tick now =>
      simp only [steps] at hw ⊢
      have hr := run_asleep N code s now i a hs (fun c hc => hw c (List.mem_append_left _ hc))
      have := ih (run N code s now).1 hr.1 (fun c hc => hw c (List.mem_append_right _ hc))
      refine ⟨this.1, ?_⟩
      rw [dispatched_append, List.mem_append]
      exact fun h => h.elim hr.2 this.2

/-! ## C2: priority order within a tick -/

theorem TaskMeta.prio_le (m : TaskMeta) : m.prio ≤ 7 := by
  unfold TaskMeta.prio
  have h : m.v &&& TaskMeta.PRIO_MASK ≤ 28 := Nat.and_le_right
  rw [Nat.shiftRight_eq_div_pow]
  have : (2 : Nat) ^ TaskMeta.PRIO_SHIFT = 4 := by norm_num
  rw [this]
  omega

theorem TaskKey.set_v (p i : Nat) (hp : p ≤ 7) (hi : i < 32) : (TaskKey.set p i).v = 32 * p + i := by
  unfold TaskKey.set
  have h1 : i &&& 0x1F = i := by
    have := Nat.and_pow_two_sub_one_eq_mod i 5
    simp only [Nat.reducePow, Nat.add_one_sub_one] at this
    rw [this]
    exact Nat.mod_eq_of_lt hi
  have h2 : p <<< 5 = 2 ^ 5 * p := by rw [Nat.shiftLeft_eq, Nat.mul_comm]
  have h3 : 2 ^ 5 * p ||| i = 2 ^ 5 * p + i := (Nat.mul_add_lt_is_or (by norm_num; exact hi) p).symm
  show (p <<< 5 ||| i &&& 0x1F) % 256 = 32 * p + i
  rw [h1, h2, h3]
  omega

theorem BoolArray32.get_clear (b : BoolArray32) (i : Nat) : b.clear.get i = false := by
  simp [BoolArray32.clear, BoolArray32.get]

theorem BoolArray32.get_set_ne (b : BoolArray32) (i j : Nat) (hne : i ≠ j)
    (h : b.get j = false) : (b.set i).get j = false := by
  rw [BoolArray32.get_eq_testBit] at *
  simp only [BoolArray32.set, U32]
  have h32 : (4294967296 : Nat) = 2 ^ 32 := by norm_num
  rw [h32, Nat.testBit_mod_two_pow, Nat.testBit_or, Nat.testBit_mod_two_pow, Nat.one_shiftLeft,
    Nat.testBit_two_pow]
  simp [h, hne]

theorem earlier_self (t : Nat) : earlier t t = false := by
  unfold earlier sub32
  have : (t + (U32 - t % U32)) % U32 = 0 := by
    simp only [U32]; omega
  rw [this]
  decide

theorem runCommit_order (s : Sched) (nnd idx : Nat) : (runCommit s nnd idx).s.order = s.order := by
  unfold runCommit
  dsimp only
  split <;> rfl

theorem runCommit_pending (s : Sched) (nnd idx x : Nat) (hne : idx ≠ x) (hp : s.Pending x) :
    (runCommit s nnd idx).s.Pending x := by
  unfold Sched.Pending at hp ⊢
  rw [runCommit_task_ne s nnd idx x hne, runCommit_ranMask, (runCommit_clock s nnd idx).2.2]
  exact ⟨hp.1, hp.2.1, BoolArray32.get_set_ne _ _ _ hne hp.2.2⟩

theorem Task.ready_inUse (x : Task) (h : x.ready = true) : x.meta.inUse = true := by
  simp only [Task.ready, Bool.and_eq_true] at h
  exact h.1.1

/-! ## The insertion sort on a sorted vector -/

theorem toInt8_of_range (x : Int) (h1 : -128 ≤ x) (h2 : x ≤ 127) : toInt8 x = x := by
  unfold toInt8
  omega

theorem list_eq_of_getD {α : Type} (l1 l2 : List α) (d : α) (hlen : l1.length = l2.length)
    (h : ∀ m, l1.getD m d = l2.getD m d) : l1 = l2 := by
  apply List.ext_getElem hlen
  intro n h1 h2
  have := h n
  rw [List.getD_eq_getElem _ _ h1, List.getD_eq_getElem _ _ h2] at this
  exact this

namespace FixedVector

variable {T : Type} [Inhabited T]

/-- The inner loop of the insertion sort, started at `j = q - 1`: it stops at
some `j = r - 1` with `r ≤ q`, having moved the entries `r .. q-1` (all less
than `key`) one place up and left the others alone. -/
theorem sortInner_spec (lt : T → T → Bool) (key : T) (n q : Nat) (arr : List T)
    (hq : q ≤ n) (hq128 : q ≤ 128) (hlen : q < arr.length) :
    ∃ r, r ≤ q ∧ (sortInner lt key n ((q : Int) - 1) arr).1 = (r : Int) - 1 ∧
      (sortInner lt key n ((q : Int) - 1) arr).2.length = arr.length ∧
      (∀ m, m < r → (sortInner lt key n ((q : Int) - 1) arr).2.getD m default
        = arr.getD m default) ∧
      (∀ m, r < m → m ≤ q → (sortInner lt key n ((q : Int) - 1) arr).2.getD m default
        = arr.getD (m - 1) default) ∧
      (∀ m, q < m → (sortInner lt key n ((q : Int) - 1) arr).2.getD m default
        = arr.getD m default) ∧
      (r = 0 ∨ lt (arr.getD (r - 1) default) key = false) ∧
      (∀ m, r ≤ m → m < q → lt (arr.getD m default) key = true) := by
  induction n generalizing q arr with
  | zero =>
    have : q = 0 := by omega
    subst this
    exact ⟨0, le_refl _, rfl, rfl, fun _ _ => rfl, fun m h1 h2 => by omega, fun _ _ => rfl,
      Or.inl rfl, fun m h1 h2 => by omega⟩
  | succ n ih =>
    unfold sortInner
    by_cases hc : 0 ≤ ((q : Int) - 1) ∧ lt (arr.getD ((q : Int) - 1).toNat default) key = true
    · rw [if_pos hc]
      obtain ⟨hq1, hlt⟩ := hc
      have hqpos : 1 ≤ q := by omega
      have e1 : ((q : Int) - 1).toNat = q - 1 := by omega
      have e2 : ((q : Int) - 1 + 1).toNat = q := by omega
      have e3 : toInt8 ((q : Int) - 1 - 1) = ((q - 1 : Nat) : Int) - 1 := by
        rw [toInt8_of_range _ (by omega) (by omega)]
        omega
      rw [e1] at hlt
      rw [e1, e2, e3]
      obtain ⟨r, hr, h1, h2, h3, h4, h5, h6, h7⟩ :=
        ih (q - 1) (arr.set q (arr.getD (q - 1) default)) (by omega) (by omega)
          (by rw [List.length_set]; omega)
      refine ⟨r, by omega, h1, by rw [h2, List.length_set], ?_, ?_, ?_, ?_, ?_⟩
      · intro m hm
        rw [h3 m hm, getD_set_ne _ _ _ _ _ (by omega)]
      · intro m hm1 hm2
        by_cases hmq : m = q
        · subst hmq
          rw [h5 m (by omega), getD_set_self _ _ _ _ hlen]
        · rw [h4 m hm1 (by omega), getD_set_ne _ _ _ _ _ (by omega)]
      · intro m hm
        rw [h5 m (by omega), getD_set_ne _ _ _ _ _ (by omega)]
      · rcases h6 with h6 | h6
        · exact Or.inl h6
        · right
          rw [getD_set_ne _ _ _ _ _ (by omega)] at h6
          exact h6
      · intro m hm1 hm2
        by_cases hmq : m = q - 1
        · subst hmq
          exact hlt
        · have := h7 m hm1 (by omega)
          rw [getD_set_ne _ _ _ _ _ (by omega)] at this
          exact this
    · rw [if_neg hc]
      refine ⟨q, le_refl _, rfl, rfl, fun _ _ => rfl, fun m h1 h2 => by omega, fun _ _ => rfl, ?_,
        fun m h1 h2 => by omega⟩
      by_cases hq0 : q = 0
      · exact Or.inl hq0
      · right
        have e1 : ((q : Int) - 1).toNat = q - 1 := by omega
        rw [e1] at hc
        have : ¬ lt (arr.getD (q - 1) default) key = true := fun h => hc ⟨by omega, h⟩
        simpa using this

end FixedVector

namespace FixedVector

variable {T : Type} [Inhabited T]

/-- One step of the insertion sort at index `c ≤ 128`: the key `d[c]` is put at
some place `r ≤ c`, the entries `r .. c-1` (all less than the key) move one
place up, and the entry before `r`, if any, is not less than the key. -/
theorem sortStep_spec (lt : T → T → Bool) (c : Nat) (d : List T) (hc : c ≤ 128)
    (hlen : c < d.length) :
    ∃ r, r ≤ c ∧ (sortStep lt c d).length = d.length ∧
      (∀ m, m < r → (sortStep lt c d).getD m default = d.getD m default) ∧
      (sortStep lt c d).getD r default = d.getD c default ∧
      (∀ m, r < m → m ≤ c → (sortStep lt c d).getD m default = d.getD (m - 1) default) ∧
      (∀ m, c < m → (sortStep lt c d).getD m default = d.getD m default) ∧
      (r = 0 ∨ lt (d.getD (r - 1) default) (d.getD c default) = false) ∧
      (∀ m, r ≤ m → m < c → lt (d.getD m default) (d.getD c default) = true) := by
  have ej : toInt8 (toInt8 (c : Int) - 1) = (c : Int) - 1 := by
    unfold toInt8
    omega
  obtain ⟨r, hr, h1, h2, h3, h4, h5, h6, h7⟩ :=
    sortInner_spec lt (d.getD c default) (((c : Int) - 1).toNat + 1) c d (by omega) hc hlen
  have hr1 : (0 : Int) ≤ ((r : Int) - 1) + 1 := by omega
  have hr2 : (((r : Int) - 1) + 1).toNat = r := by omega
  have hres : sortStep lt c d
      = (sortInner lt (d.getD c default) (((c : Int) - 1).toNat + 1) ((c : Int) - 1) d).2.set r
          (d.getD c default) := by
    unfold sortStep
    simp only [ej]
    rw [h1, if_pos hr1, hr2]
  have hrlen : r < (sortInner lt (d.getD c default) (((c : Int) - 1).toNat + 1)
      ((c : Int) - 1) d).2.length := by rw [h2]; omega
  rw [hres]
  refine ⟨r, hr, by rw [List.length_set, h2], ?_, ?_, ?_, ?_, h6, h7⟩
  · intro m hm
    rw [getD_set_ne _ _ _ _ _ (by omega), h3 m hm]
  · exact getD_set_self _ _ _ _ hrlen
  · intro m hm1 hm2
    rw [getD_set_ne _ _ _ _ _ (by omega), h4 m hm1 hm2]
  · intro m hm
    rw [getD_set_ne _ _ _ _ _ (by omega), h5 m hm]

/-- A step of the insertion sort at an index whose entry is not greater than
the one before it changes nothing. -/
theorem sortStep_noop (lt : T → T → Bool) (i : Nat) (d : List T) (hi0 : 1 ≤ i) (hi : i ≤ 128)
    (hlen : i < d.length) (hs : lt (d.getD (i - 1) default) (d.getD i default) = false) :
    sortStep lt i d = d := by
  obtain ⟨r, hr, h1, h2, h3, h4, h5, _, h7⟩ := sortStep_spec lt i d hi hlen
  have hri : r = i := by
    by_contra hne
    have := h7 (i - 1) (by omega) (by omega)
    rw [hs] at this
    cases this
  subst hri
  apply list_eq_of_getD _ _ default h1
  intro m
  rcases Nat.lt_trichotomy m r with h | h | h
  · exact h2 m h
  · rw [h]; exact h3
  · exact h5 m h

theorem sortOuter_succ (lt : T → T → Bool) (n i : Nat) (d : List T) :
    sortOuter lt (n + 1) i d = sortStep lt (i + n) (sortOuter lt n i d) := by
  induction n generalizing i d with
  | zero => rfl
  | succ n ih =>
    rw [sortOuter, ih (i + 1) (sortStep lt i d)]
    have : i + 1 + n = i + (n + 1) := by omega
    rw [this]
    rfl

/-- The insertion sort leaves a stretch that is already in descending order
as it is. -/
theorem sortOuter_noop (lt : T → T → Bool) (n i : Nat) (d : List T) (hi0 : 1 ≤ i)
    (hi : i + n ≤ 129) (hlen : i + n ≤ d.length)
    (hs : ∀ m, i ≤ m → m < i + n → lt (d.getD (m - 1) default) (d.getD m default) = false) :
    sortOuter lt n i d = d := by
  induction n generalizing i d with
  | zero => rfl
  | succ n ih =>
    rw [sortOuter, sortStep_noop lt i d hi0 (by omega) (by omega) (hs i (le_refl _) (by omega))]
    exact ih (i + 1) d (by omega) (by omega) (by omega) (fun m h1 h2 => hs m (by omega) (by omega))

/-- `push_back` followed by `sort_descending` on a vector whose `c ≤ 128`
entries are in descending order, with room for one more: the new key is
inserted at some place `r ≤ c`, after the entries not less than it and before
the entries less than it, which move one place up. -/
theorem push_sort_spec (lt : T → T → Bool) (CAP : Nat) (vec : FixedVector T) (x : T)
    (hc : vec.count < CAP) (h128 : vec.count ≤ 128) (hlen : vec.count < vec.data.length)
    (hs : ∀ m, m + 1 < vec.count →
      lt (vec.data.getD m default) (vec.data.getD (m + 1) default) = false) :
    ((vec.push_back CAP x).sort_descending lt).count = vec.count + 1 ∧
    ∃ r, r ≤ vec.count ∧
      ((vec.push_back CAP x).sort_descending lt).data.length = vec.data.length ∧
      (∀ m, m < r → ((vec.push_back CAP x).sort_descending lt).get m = vec.get m) ∧
      ((vec.push_back CAP x).sort_descending lt).get r = x ∧
      (∀ m, r < m → m ≤ vec.count →
        ((vec.push_back CAP x).sort_descending lt).get m = vec.get (m - 1)) ∧
      (r = 0 ∨ lt (vec.get (r - 1)) x = false) ∧
      (∀ m, r ≤ m → m < vec.count → lt (vec.get m) x = true) := by
  have hpb : vec.push_back CAP x = { data := vec.data.set vec.count x, count := vec.count + 1 } := by
    unfold push_back
    rw [if_pos hc]
  rw [hpb]
  unfold sort_descending get
  dsimp only
  refine ⟨rfl, ?_⟩
  have hd1 : ∀ m, m < vec.count → (vec.data.set vec.count x).getD m default
      = vec.data.getD m default := fun m hm => getD_set_ne _ _ _ _ _ (by omega)
  have hd1c : (vec.data.set vec.count x).getD vec.count default = x :=
    getD_set_self _ _ _ _ hlen
  have hout : sortOuter lt (vec.count + 1 - 1) 1 (vec.data.set vec.count x)
      = sortStep lt vec.count (vec.data.set vec.count x) := by
    rcases Nat.eq_zero_or_pos vec.count with h0 | hpos
    · rw [h0]
      have hlen0 : 0 < (vec.data.set 0 x).length := by rw [List.length_set]; omega
      obtain ⟨r, hr, h1, _, h3, _, h5, _, _⟩ :=
        sortStep_spec lt 0 (vec.data.set 0 x) (by omega) hlen0
      have hr0 : r = 0 := by omega
      subst hr0
      symm
      apply list_eq_of_getD _ _ default h1
      intro m
      rcases Nat.eq_zero_or_pos m with hm | hm
      · rw [hm]; exact h3
      · exact h5 m hm
    · obtain ⟨k, hk⟩ : ∃ k, vec.count = k + 1 := ⟨vec.count - 1, by omega⟩
      have e : vec.count + 1 - 1 = k + 1 := by omega
      rw [e, sortOuter_succ]
      have e2 : 1 + k = vec.count := by omega
      rw [e2, sortOuter_noop lt k 1 _ (le_refl _) (by omega) (by rw [List.length_set]; omega)]
      intro m hm1 hm2
      rw [hd1 (m - 1) (by omega), hd1 m (by omega)]
      have := hs (m - 1) (by omega)
      have e3 : m - 1 + 1 = m := by omega
      rw [e3] at this
      exact this
  rw [hout]
  obtain ⟨r, hr, h1, h2, h3, h4, _, h6, h7⟩ :=
    sortStep_spec lt vec.count (vec.data.set vec.count x) h128 (by rw [List.length_set]; exact hlen)
  rw [hd1c] at h3 h6 h7
  refine ⟨r, hr, by rw [h1, List.length_set], ?_, h3, ?_, ?_, ?_⟩
  · intro m hm
    rw [h2 m hm, hd1 m (by omega)]
  · intro m hm1 hm2
    rw [h4 m hm1 hm2, hd1 (m - 1) (by omega)]
  · rcases Nat.eq_zero_or_pos r with hr0 | hr0
    · exact Or.inl hr0
    · rcases h6 with h6 | h6
      · exact Or.inl h6
      · right
        rw [hd1 (r - 1) (by omega)] at h6
        exact h6
  · intro m hm1 hm2
    have := h7 m hm1 hm2
    rw [hd1 m hm2] at this
    exact this

end FixedVector

/-! ## Calls that spare a slot -/

theorem Sched.firstFree_lt (t : List Task) (n i f : Nat) (h : Sched.firstFree t n i = some f) :
    i ≤ f ∧ f < i + n := by
  induction n generalizing i with
  | zero => simp [Sched.firstFree] at h
  | succ n ih =>
    unfold Sched.firstFree at h
    split at h
    · simp only [Option.some.injEq] at h
      omega
    · have := ih _ h
      omega

theorem TaskKey.idx_set (p i : Nat) (hi : i < 32) : (TaskKey.set p i).idx = i := by
  rw [TaskKey.idx_eq_mod]
  unfold TaskKey.set
  have h1 : i &&& 0x1F = i := by
    have := Nat.and_pow_two_sub_one_eq_mod i 5
    simp only [Nat.reducePow, Nat.add_one_sub_one] at this
    rw [this]
    exact Nat.mod_eq_of_lt hi
  have h2 : p <<< 5 = 2 ^ 5 * p := by rw [Nat.shiftLeft_eq, Nat.mul_comm]
  have h3 : 2 ^ 5 * p ||| i = 2 ^ 5 * p + i := (Nat.mul_add_lt_is_or (by norm_num; exact hi) p).symm
  show (p <<< 5 ||| i &&& 0x1F) % 256 % 32 = i
  rw [h1, h2, h3]
  omega

/-- What a successful `create` does: it takes the first free slot `f`, which
lies below `N`, writes the new task there and inserts its key in `order`. -/
theorem Sched.xTaskCreate_cases (N : Nat) (s : Sched) (cb : Option Nat) (d p : Nat) :
    (s.xTaskCreate N cb d p).1 = s ∨
      ∃ f g, f < N ∧ (s.task f).meta.inUse = false ∧
        (s.xTaskCreate N cb d p).1.order
          = (s.order.push_back N (TaskKey.set g f)).sort_descending TaskKey.lt ∧
        (s.xTaskCreate N cb d p).1.ranMask = s.ranMask ∧
        (s.xTaskCreate N cb d p).1.tickNow = s.tickNow ∧
        ∀ x, x ≠ f → (s.xTaskCreate N cb d p).1.task x = s.task x := by
  unfold Sched.xTaskCreate
  split
  · left; rfl
  · split
    · left; rfl
    · rename_i cbf f hf
      right
      have hlt := Sched.firstFree_lt _ _ _ _ hf
      have hfree := Sched.firstFree_free _ _ _ _ hf
      refine ⟨f, ((((s.task f).meta.clear.setInUse true).setEnabled true).setPrio p).prio,
        by omega, hfree, ?_⟩
      dsimp only
      split
      · exact ⟨rfl, rfl, rfl, fun x hx => by simp only [Sched.task, getD_set_ne _ _ _ _ _ (Ne.symm hx)]⟩
      · exact ⟨rfl, rfl, rfl, fun x hx => by simp only [Sched.task, getD_set_ne _ _ _ _ _ (Ne.symm hx)]⟩

/-- Inserting a key by `push_back` and `sort_descending` into an order vector
that is in descending order keeps it so, keeps every listed slot listed at the
same or a later position, and keeps the relative position of any two slots
other than the new key's. -/
theorem insert_keeps (N : Nat) (s s2 : Sched) (K : TaskKey) (hN : N ≤ 32)
    (hs : s.OrderSorted N)
    (ho : s2.order = (s.order.push_back N K).sort_descending TaskKey.lt) :
    s2.OrderSorted N ∧
      (∀ k x, s.ListedFrom k x → s2.ListedFrom k x) ∧
      (∀ a b, s.Before a b → K.idx ≠ a → K.idx ≠ b → s2.Before a b) := by
  obtain ⟨hlen, hcnt, hsort⟩ := hs
  by_cases hfull : s.order.count < N
  · obtain ⟨hc, r, hr, h1, h2, h3, h4, h5, h6⟩ :=
      FixedVector.push_sort_spec TaskKey.lt N s.order K hfull (by omega) (by omega) hsort
    rw [← ho] at hc h1 h2 h3 h4
    refine ⟨⟨by rw [h1, hlen], by omega, ?_⟩, ?_, ?_⟩
    · intro m hm
      rw [hc] at hm
      rcases Nat.lt_trichotomy (m + 1) r with h | h | h
      · rw [h2 m (by omega), h2 (m + 1) h]
        exact hsort m (by omega)
      · rw [h2 m (by omega), h, h3]
        rcases h5 with h5 | h5
        · omega
        · have e : r - 1 = m := by omega
          rw [e] at h5
          exact h5
      · rcases Nat.eq_or_lt_of_le (Nat.lt_succ_iff.1 h) with e | l
        · -- m = r
          rw [← e, h3, h4 (r + 1) (by omega) (by omega)]
          have := h6 r (le_refl _) (by omega)
          simp only [Nat.add_sub_cancel]
          simp only [TaskKey.lt, decide_eq_true_eq, decide_eq_false_iff_not, not_lt] at this ⊢
          omega
        · rw [h4 m l (by omega), h4 (m + 1) (by omega) (by omega)]
          have := hsort (m - 1) (by omega)
          have e : m - 1 + 1 = m := by omega
          rw [e] at this
          simpa using this
    · rintro k x ⟨p, hk, hp, hx⟩
      by_cases hpr : p < r
      · exact ⟨p, hk, by omega, by rw [h2 p hpr]; exact hx⟩
      · exact ⟨p + 1, by omega, by omega, by
          rw [h4 (p + 1) (by omega) (by omega)]; simpa using hx⟩
    · intro a b hb hKa hKb p q hp hq hpa hqb
      rw [hc] at hp hq
      have hpr : p ≠ r := by
        intro e; rw [e, h3] at hpa; exact hKa hpa
      have hqr : q ≠ r := by
        intro e; rw [e, h3] at hqb; exact hKb hqb
      by_cases hp1 : p < r
      · by_cases hq1 : q < r
        · rw [h2 p hp1] at hpa
          rw [h2 q hq1] at hqb
          exact hb p q (by omega) (by omega) hpa hqb
        · omega
      · by_cases hq1 : q < r
        · rw [h4 p (by omega) (by omega)] at hpa
          rw [h2 q hq1] at hqb
          have := hb (p - 1) q (by omega) (by omega) hpa hqb
          omega
        · rw [h4 p (by omega) (by omega)] at hpa
          rw [h4 q (by omega) (by omega)] at hqb
          have := hb (p - 1) (q - 1) (by omega) (by omega) hpa hqb
          omega
  · have hpb : s.order.push_back N K = s.order := by
      unfold FixedVector.push_back
      rw [if_neg hfull]
    have hsame : s2.order = s.order := by
      rw [ho, hpb]
      unfold FixedVector.sort_descending
      have : FixedVector.sortOuter TaskKey.lt (s.order.count - 1) 1 s.order.data = s.order.data := by
        rcases Nat.eq_zero_or_pos s.order.count with h0 | hpos
        · rw [h0]
          rfl
        · apply FixedVector.sortOuter_noop TaskKey.lt (s.order.count - 1) 1 s.order.data
            (le_refl _) (by omega) (by omega)
          intro m hm1 hm2
          have := hsort (m - 1) (by omega)
          have e : m - 1 + 1 = m := by omega
          rw [e] at this
          exact this
      rw [this]
    unfold Sched.OrderSorted Sched.ListedFrom Sched.Before
    rw [hsame]
    exact ⟨⟨hlen, hcnt, hsort⟩, fun _ _ h => h, fun _ _ h _ _ => h⟩

/-- A call that is not `delete` or `priority_set` leaves `order` alone or, when
it is a successful `create`, inserts the key of a slot `f < N` that was free. -/
theorem call_exec_spares_order (N : Nat) (c : Call) (s : Sched) (x : Nat)
    (hc : c.spares x = true) :
    (c.exec N s).1.order = s.order ∨
      ∃ f g, f < N ∧ (s.task f).meta.inUse = false ∧
        (c.exec N s).1.order
          = (s.order.push_back N (TaskKey.set g f)).sort_descending TaskKey.lt := by
  cases c <;> simp only [Call.exec, Call.spares] at hc ⊢
  case create cb d p =>
    rcases Sched.xTaskCreate_cases N s cb d p with h | ⟨f, g, h1, h2, h3, _⟩
    · left; rw [h]
    · right; exact ⟨f, g, h1, h2, h3⟩
  case suspend h =>
    left
    unfold Sched.vTaskSuspend
    split <;> rfl
  case resume h =>
    left
    unfold Sched.vTaskResume
    split
    · rfl
    · dsimp only
      split <;> rfl
  case resumeAfter h ms =>
    left
    unfold Sched.vTaskResumeAfter
    split
    · rfl
    · dsimp only
      split
      · split <;> rfl
      · split <;> rfl
  case notifyGive h =>
    left
    unfold Sched.vTaskNotifyGive
    split
    · rfl
    · dsimp only
      split <;> rfl
  case notifyTake b =>
    left
    unfold Sched.ulTaskNotifyTake
    split
    · rfl
    · dsimp only
      split
      · rfl
      · split <;> rfl
  case delay ms =>
    left
    unfold Sched.vTaskDelay
    split <;> rfl
  case yieldNextTick =>
    left
    unfold Sched.vTaskYieldNextTick
    split <;> rfl
  case delayUntil p =>
    left
    unfold Sched.vTaskDelayUntil
    split
    · rfl
    · split
      · rfl
      · dsimp only
        split <;> rfl
  all_goals (left; trivial)

/-- What a call that is not `delete` or `priority_set` can do to a slot in
use: nothing, wake it at the current tick, or, as `suspend` or `resume_after`
on that very slot, disable or reschedule it. -/
theorem call_exec_spares_task (N : Nat) (c : Call) (s : Sched) (x y : Nat)
    (hc : c.spares x = true) (hin : (s.task y).meta.inUse = true) :
    (c.exec N s).1.task y = s.task y ∨
      (c.exec N s).1.task y
        = { s.task y with next := s.tickNow, meta := (s.task y).meta.enable } ∨
      (c = Call.suspend y ∧
        (c.exec N s).1.task y = { s.task y with meta := (s.task y).meta.disable }) ∨
      (∃ ms, c = Call.resumeAfter y ms ∧
        (c.exec N s).1.task y
          = { s.task y with next := add32 s.tickNow ms, meta := (s.task y).meta.enable }) := by
  cases c <;> simp only [Call.exec, Call.spares] at hc ⊢
  case create cb d p =>
    left
    rcases Sched.xTaskCreate_cases N s cb d p with h | ⟨f, g, _, h2, _, _, _, h6⟩
    · rw [h]
    · exact h6 y (fun e => by rw [e, h2] at hin; cases hin)
  case suspend h =>
    unfold Sched.vTaskSuspend
    split
    · left; rfl
    · simp only [Sched.task, getD_set]
      split
      · rename_i hh
        obtain ⟨rfl, _⟩ := hh
        right; right; left
        exact ⟨rfl, rfl⟩
      · left; rfl
  case resume h =>
    unfold Sched.vTaskResume
    split
    · left; rfl
    · dsimp only
      split <;> simp only [Sched.task, getD_set] <;> split
      all_goals first
        | (rename_i hh; obtain ⟨rfl, _⟩ := hh; right; left; rfl)
        | (left; rfl)
  case resumeAfter h ms =>
    unfold Sched.vTaskResumeAfter
    split
    · left; rfl
    · dsimp only
      split
      · split <;> simp only [Sched.task, getD_set] <;> split
        all_goals first
          | (rename_i hh; obtain ⟨rfl, _⟩ := hh; right; right; right; exact ⟨ms, rfl, rfl⟩)
          | (left; rfl)
      · split <;> simp only [Sched.task, getD_set] <;> split
        all_goals first
          | (rename_i hh; obtain ⟨rfl, _⟩ := hh; right; right; right; exact ⟨ms, rfl, rfl⟩)
          | (left; rfl)
  case notifyGive h =>
    unfold Sched.vTaskNotifyGive
    split
    · left; rfl
    · dsimp only
      split <;> simp only [Sched.task, getD_set] <;> split
      all_goals first
        | (rename_i hh; obtain ⟨rfl, _⟩ := hh; right; left; rfl)
        | (left; rfl)
  case notifyTake b =>
    left
    unfold Sched.ulTaskNotifyTake
    split
    · rfl
    · dsimp only
      split
      · rfl
      · split <;> rfl
  case delay ms =>
    left
    unfold Sched.vTaskDelay
    split <;> rfl
  case yieldNextTick =>
    left
    unfold Sched.vTaskYieldNextTick
    split <;> rfl
  case delayUntil p =>
    left
    unfold Sched.vTaskDelayUntil
    split
    · rfl
    · split
      · rfl
      · dsimp only
        split <;> rfl
  all_goals (left; trivial)

/-- A call that is not `delete` or `priority_set` keeps slots in use. -/
theorem call_exec_spares_inUse (N : Nat) (c : Call) (s : Sched) (x y : Nat)
    (hc : c.spares x = true) (hin : (s.task y).meta.inUse = true) :
    ((c.exec N s).1.task y).meta.inUse = true := by
  rcases call_exec_spares_task N c s x y hc hin with h | h | ⟨_, h⟩ | ⟨ms, _, h⟩ <;> rw [h]
  · exact hin
  · show (s.task y).meta.enable.inUse = true
    rw [TaskMeta.inUse_enable]; exact hin
  · show (s.task y).meta.disable.inUse = true
    rw [TaskMeta.inUse_disable]; exact hin
  · show (s.task y).meta.enable.inUse = true
    rw [TaskMeta.inUse_enable]; exact hin

/-- A call that spares slot `x` keeps it pending. -/
theorem call_exec_spares_pending (N : Nat) (c : Call) (s : Sched) (x : Nat)
    (hc : c.spares x = true) (hp : s.Pending x) : (c.exec N s).1.Pending x := by
  obtain ⟨hm, _, _, ht, _, _⟩ := call_exec_sameClock N c s
  unfold Sched.Pending at hp ⊢
  rw [hm, ht]
  rcases call_exec_spares_task N c s x x hc (Task.ready_inUse _ hp.1)
    with h | h | ⟨e, _⟩ | ⟨ms, e, _⟩
  · rw [h]; exact hp
  · rw [h]
    refine ⟨?_, earlier_self _, hp.2.2⟩
    have hr := hp.1
    simp only [Task.ready, Bool.and_eq_true] at hr ⊢
    exact ⟨⟨by rw [TaskMeta.inUse_enable]; exact hr.1.1, TaskMeta.enabled_enable _⟩, hr.2⟩
  · rw [e] at hc
    simp [Call.spares] at hc
  · rw [e] at hc
    simp [Call.spares] at hc

/-- A call that is not `delete` or `priority_set` keeps the order vector in
descending order, keeps listed slots listed from the same position on, and
keeps the relative position of two slots in use. -/
theorem call_exec_spares_listing (N : Nat) (c : Call) (s : Sched) (x : Nat) (hN : N ≤ 32)
    (hc : c.spares x = true) (hs : s.OrderSorted N) :
    (c.exec N s).1.OrderSorted N ∧
      (∀ k y, s.ListedFrom k y → (c.exec N s).1.ListedFrom k y) ∧
      (∀ a b, s.Before a b → (s.task a).meta.inUse = true → (s.task b).meta.inUse = true →
        (c.exec N s).1.Before a b) := by
  rcases call_exec_spares_order N c s x hc with h | ⟨f, g, hf, hfree, h⟩
  · unfold Sched.OrderSorted Sched.ListedFrom Sched.Before
    rw [h]
    exact ⟨hs, fun _ _ hl => hl, fun _ _ hb _ _ => hb⟩
  · obtain ⟨h1, h2, h3⟩ := insert_keeps N s (c.exec N s).1 (TaskKey.set g f) hN hs h
    have hidx : (TaskKey.set g f).idx = f := TaskKey.idx_set g f (by omega)
    refine ⟨h1, h2, fun a b hb ha hbb => h3 a b hb ?_ ?_⟩
    · rw [hidx]; intro e; rw [e, ha] at hfree; cases hfree
    · rw [hidx]; intro e; rw [e, hbb] at hfree; cases hfree

/-- A task function whose calls all spare the in-use slots `a` and `b` keeps
the order vector in descending order, keeps `a` and `b` in use, listed and in
their relative position, and keeps each of them pending if it was. -/
theorem prog_exec_spares (N : Nat) (p : Prog) (s : Sched) (a b : Nat) (hN : N ≤ 32)
    (hc : ∀ c ∈ (p.exec N s).2, c.spares a = true ∧ c.spares b = true)
    (hs : s.OrderSorted N) (hia : (s.task a).meta.inUse = true)
    (hib : (s.task b).meta.inUse = true) :
    (p.exec N s).1.OrderSorted N ∧
      ((p.exec N s).1.task a).meta.inUse = true ∧
      ((p.exec N s).1.task b).meta.inUse = true ∧
      (∀ k y, s.ListedFrom k y → (p.exec N s).1.ListedFrom k y) ∧
      (s.Before a b → (p.exec N s).1.Before a b) ∧
      (s.Pending a → (p.exec N s).1.Pending a) ∧
      (s.Pending b → (p.exec N s).1.Pending b) := by
  induction p generalizing s with
  | ret => exact ⟨hs, hia, hib, fun _ _ h => h, id, id, id⟩
  | call c k ih =>
    simp only [Prog.exec] at hc ⊢
    have hca := (hc c (List.mem_cons_self _ _)).1
    have hcb := (hc c (List.mem_cons_self _ _)).2
    obtain ⟨l1, l2, l3⟩ := call_exec_spares_listing N c s a hN hca hs
    have ia := call_exec_spares_inUse N c s a a hca hia
    have ib := call_exec_spares_inUse N c s a b hca hib
    obtain ⟨r1, r2, r3, r4, r5, r6, r7⟩ := ih (c.exec N s).2 (c.exec N s).1
      (fun c2 hc2 => hc c2 (List.mem_cons_of_mem _ hc2)) l1 ia ib
    exact ⟨r1, r2, r3, fun k y h => r4 k y (l2 k y h), fun h => r5 (l3 a b h hia hib),
      fun h => r6 (call_exec_spares_pending N c s a hca h),
      fun h => r7 (call_exec_spares_pending N c s b hcb h)⟩

theorem runCall_spares (N : Nat) (code : Nat → Prog) (s : Sched) (idx a b : Nat) (hN : N ≤ 32)
    (hc : ∀ c ∈ (runCall N code s idx).2, c.spares a = true ∧ c.spares b = true)
    (hs : s.OrderSorted N) (hia : (s.task a).meta.inUse = true)
    (hib : (s.task b).meta.inUse = true) :
    (runCall N code s idx).1.OrderSorted N ∧
      ((runCall N code s idx).1.task a).meta.inUse = true ∧
      ((runCall N code s idx).1.task b).meta.inUse = true ∧
      (∀ k y, s.ListedFrom k y → (runCall N code s idx).1.ListedFrom k y) ∧
      (s.Before a b → (runCall N code s idx).1.Before a b) ∧
      (s.Pending a → (runCall N code s idx).1.Pending a) ∧
      (s.Pending b → (runCall N code s idx).1.Pending b) := by
  unfold runCall at hc ⊢
  dsimp only at hc ⊢
  split
  · rename_i f hf
    rw [hf] at hc
    exact prog_exec_spares N (code f)
      { s with currentId := idx, currentAnchor := (s.task idx).next, overrideSet := false }
      a b hN hc hs hia hib
  · exact ⟨hs, hia, hib, fun _ _ h => h, id, id, id⟩

theorem runCommit_inUse (s : Sched) (nnd idx y : Nat) (h : (s.task y).meta.inUse = true) :
    ((runCommit s nnd idx).s.task y).meta.inUse = true := by
  by_cases hne : idx = y
  · subst hne
    have hlt := Sched.inUse_lt s idx h
    unfold runCommit
    dsimp only
    split
    · simp only [Sched.task, getD_set_self _ _ _ _ hlt]
      rw [TaskMeta.inUse_enable]; exact h
    · simp only [Sched.task, getD_set_self _ _ _ _ hlt]
      rw [TaskMeta.inUse_disable]; exact h
  · rw [runCommit_task_ne s nnd idx y hne]; exact h

/-- One loop iteration whose calls all spare the in-use slots `a` and `b`:
the order vector stays in descending order, `a` and `b` stay in use, listed
slots stay listed, the relative position of `a` and `b` stays; each of the two
that is pending and not at position `k` stays pending and is not dispatched,
and a pending one at position `k` is dispatched. -/
theorem runBody_spares (N : Nat) (code : Nat → Prog) (k : Nat) (st : RunSt) (a b : Nat)
    (hN : N ≤ 32)
    (hc : ∀ c, Event.call c ∈ (runBody N code k st).2 → c.spares a = true ∧ c.spares b = true)
    (hs : st.s.OrderSorted N) (hia : (st.s.task a).meta.inUse = true)
    (hib : (st.s.task b).meta.inUse = true) :
    (runBody N code k st).1.s.OrderSorted N ∧
      ((runBody N code k st).1.s.task a).meta.inUse = true ∧
      ((runBody N code k st).1.s.task b).meta.inUse = true ∧
      (∀ j y, st.s.ListedFrom j y → (runBody N code k st).1.s.ListedFrom j y) ∧
      (st.s.Before a b → (runBody N code k st).1.s.Before a b) ∧
      (∀ x, (x = a ∨ x = b) → st.s.Pending x → (st.s.order.get k).idx ≠ x →
        (runBody N code k st).1.s.Pending x ∧ x ∉ dispatched (runBody N code k st).2) ∧
      (∀ x, st.s.Pending x → (st.s.order.get k).idx = x →
        dispatched (runBody N code k st).2 = [x]) := by
  rcases runBody_log N code k st with ⟨h1, h2⟩ | ⟨hr, hm, hd, h1, h2⟩
  · rw [h1, h2]
    refine ⟨hs, hia, hib, fun _ _ h => h, id, fun x _ hp _ => ⟨hp, by simp [dispatched]⟩,
      fun x hp hx => ?_⟩
    exfalso
    have hb : (runBody N code k st).2 ≠ [] := by
      unfold runBody
      dsimp only
      rw [hx]
      simp [hp.1, hp.2.1, hp.2.2]
    exact hb h1
  · rw [h1] at hc
    obtain ⟨r1, r2, r3, r4, r5, r6, r7⟩ := runCall_spares N code st.s (st.s.order.get k).idx a b hN
      (fun c hcc => hc c (List.mem_cons_of_mem _ ((mem_map_call c _).2 hcc))) hs hia hib
    rw [h1, h2]
    have ho := runCommit_order (runCall N code st.s (st.s.order.get k).idx).1 st.newNextDue
      (st.s.order.get k).idx
    refine ⟨?_, runCommit_inUse _ _ _ _ r2, runCommit_inUse _ _ _ _ r3, ?_, ?_, ?_, ?_⟩
    · unfold Sched.OrderSorted
      rw [ho]; exact r1
    · intro j y h
      have := r4 j y h
      unfold Sched.ListedFrom at this ⊢
      rw [ho]; exact this
    · intro h
      have := r5 h
      unfold Sched.Before at this ⊢
      rw [ho]; exact this
    · intro x hx hp hne
      refine ⟨runCommit_pending _ _ _ _ hne ?_, ?_⟩
      · rcases hx with e | e
        · rw [e] at hp ⊢; exact r6 hp
        · rw [e] at hp ⊢; exact r7 hp
      · simp only [dispatched, dispatched_map_call, List.mem_singleton]
        exact fun e => hne e.symm
    · intro x _ hx
      simp [dispatched, dispatched_map_call, hx]

/-- A pending slot listed at a position the pass has yet to visit is
dispatched in that pass, when every call made spares it. -/
theorem runPass_reaches (N : Nat) (code : Nat → Prog) (n k : Nat) (st : RunSt) (x : Nat)
    (hN : N ≤ 32) (hn : N ≤ k + n) (hs : st.s.OrderSorted N)
    (hl : st.s.ListedFrom k x) (hp : st.s.Pending x)
    (hc : ∀ c, Event.call c ∈ (runPass N code n k st).2 → c.spares x = true) :
    x ∈ dispatched (runPass N code n k st).2 := by
  induction n generalizing k st with
  | zero =>
    obtain ⟨p, h1, h2, _⟩ := hl
    have := hs.2.1
    omega
  | succ n ih =>
    obtain ⟨p, hkp, hpc, hpx⟩ := hl
    have hlt : k < st.s.order.size := by unfold FixedVector.size; omega
    rw [runPass_succ_lt N code n k st hlt] at hc ⊢
    dsimp only at hc ⊢
    rw [dispatched_append, List.mem_append]
    have hin := Task.ready_inUse _ hp.1
    obtain ⟨b1, _, _, b4, _, b6, b7⟩ := runBody_spares N code k st x x hN
      (fun c h => ⟨hc c (List.mem_append_left _ h), hc c (List.mem_append_left _ h)⟩) hs hin hin
    by_cases hidx : (st.s.order.get k).idx = x
    · left
      rw [b7 x hp hidx]
      exact List.mem_singleton_self x
    · right
      have hkp2 : k ≠ p := fun e => hidx (e ▸ hpx)
      exact ih (k + 1) (runBody N code k st).1 (by omega) b1
        (b4 (k + 1) x ⟨p, by omega, hpc, hpx⟩) (b6 x (Or.inl rfl) hp hidx).1
        (fun c h => hc c (List.mem_append_right _ h))

/-- If `a` and `b` are pending and listed from position `k` on, every listing
of `a` being before every listing of `b`, the pass dispatches `a` and later
`b`, when every call made spares both. -/
theorem runPass_ordered (N : Nat) (code : Nat → Prog) (n k : Nat) (st : RunSt) (a b : Nat)
    (hN : N ≤ 32) (hn : N ≤ k + n) (hs : st.s.OrderSorted N)
    (hla : st.s.ListedFrom k a) (hlb : st.s.ListedFrom k b) (hbf : st.s.Before a b)
    (hpa : st.s.Pending a) (hpb : st.s.Pending b)
    (hc : ∀ c, Event.call c ∈ (runPass N code n k st).2 →
      c.spares a = true ∧ c.spares b = true) :
    ∃ l1 l2 l3, dispatched (runPass N code n k st).2 = l1 ++ a :: l2 ++ b :: l3 := by
  induction n generalizing k st with
  | zero =>
    obtain ⟨p, h1, h2, _⟩ := hla
    have := hs.2.1
    omega
  | succ n ih =>
    obtain ⟨p, hkp, hpc, hpx⟩ := hla
    obtain ⟨q, hkq, hqc, hqx⟩ := hlb
    have hpq : p < q := hbf p q hpc hqc hpx hqx
    have hlt : k < st.s.order.size := by unfold FixedVector.size; omega
    rw [runPass_succ_lt N code n k st hlt] at hc ⊢
    dsimp only at hc ⊢
    rw [dispatched_append]
    have hia := Task.ready_inUse _ hpa.1
    have hib := Task.ready_inUse _ hpb.1
    obtain ⟨b1, _, _, b4, b5, b6, b7⟩ := runBody_spares N code k st a b hN
      (fun c h => hc c (List.mem_append_left _ h)) hs hia hib
    have hkb : (st.s.order.get k).idx ≠ b := by
      intro e
      have := hbf p k hpc (by omega) hpx e
      omega
    have hb2 := b6 b (Or.inr rfl) hpb hkb
    have hlb2 : (runBody N code k st).1.s.ListedFrom (k + 1) b := b4 (k + 1) b ⟨q, by omega, hqc, hqx⟩
    by_cases hidx : (st.s.order.get k).idx = a
    · rw [b7 a hpa hidx]
      have hmem := runPass_reaches N code n (k + 1) (runBody N code k st).1 b hN (by omega) b1
        hlb2 hb2.1 (fun c h => (hc c (List.mem_append_right _ h)).2)
      obtain ⟨l2, l3, h23⟩ := List.append_of_mem hmem
      exact ⟨[], l2, l3, by rw [h23]; simp⟩
    · have hkp2 : k ≠ p := fun e => hidx (e ▸ hpx)
      obtain ⟨l1, l2, l3, h⟩ := ih (k + 1) (runBody N code k st).1 (by omega) b1
        (b4 (k + 1) a ⟨p, by omega, hpc, hpx⟩) hlb2 (b5 hbf)
        (b6 a (Or.inl rfl) hpa hidx).1 hb2.1
        (fun c h => hc c (List.mem_append_right _ h))
      exact ⟨dispatched (runBody N code k st).2 ++ l1, l2, l3, by rw [h]; simp⟩

theorem runDrain_ordered (N : Nat) (code : Nat → Prog) (n : Nat) (st : RunSt) (a b : Nat)
    (hN : N ≤ 32) (hs : st.s.OrderSorted N)
    (hla : st.s.ListedFrom 0 a) (hlb : st.s.ListedFrom 0 b) (hbf : st.s.Before a b)
    (hpa : st.s.Pending a) (hpb : st.s.Pending b)
    (hc : ∀ c, Event.call c ∈ (runDrain N code n st).2 →
      c.spares a = true ∧ c.spares b = true) :
    ∃ l1 l2 l3, dispatched (runDrain N code n st).2 = l1 ++ a :: l2 ++ b :: l3 := by
  have key : (∀ c, Event.call c ∈ (runPass N code N 0 { st with anyRanThisPass := false }).2 →
      c.spares a = true ∧ c.spares b = true) →
      ∃ l1 l2 l3, dispatched (runPass N code N 0 { st with anyRanThisPass := false }).2
        = l1 ++ a :: l2 ++ b :: l3 := fun h =>
    runPass_ordered N code N 0 { st with anyRanThisPass := false } a b hN (by omega) hs hla hlb
      hbf hpa hpb h
  cases n with
  | zero =>
    rw [runDrain_zero] at hc ⊢
    exact key hc
  | succ n =>
    by_cases hcp : (endPass (runPass N code N 0 { st with anyRanThisPass := false }).1).s.cascadePending = true
    · rw [runDrain_succ_pos N code n st hcp] at hc ⊢
      dsimp only at hc ⊢
      obtain ⟨l1, l2, l3, h⟩ := key (fun c h => hc c (List.mem_append_left _ h))
      exact ⟨l1, l2, l3 ++ dispatched (runDrain N code n
        (endPass (runPass N code N 0 { st with anyRanThisPass := false }).1)).2,
        by rw [dispatched_append, h]; simp⟩
    · rw [runDrain_succ_neg N code n st hcp] at hc ⊢
      exact key hc

/-! ## C2: the claim -/

theorem Sched.OrderOK.sorted (N : Nat) (s : Sched) (hok : s.OrderOK N) : s.OrderSorted N := by
  obtain ⟨hlen, hcnt, hsort, _, _⟩ := hok
  refine ⟨hlen, hcnt, fun m hm => ?_⟩
  have := hsort (m + 1) hm m (Nat.lt_succ_self m)
  simp only [TaskKey.lt, decide_eq_false_iff_not, not_lt]
  omega

theorem Sched.OrderOK.listed (N : Nat) (s : Sched) (a : Nat) (hok : s.OrderOK N) (ha : a < N)
    (hia : (s.task a).meta.inUse = true) : s.ListedFrom 0 a := by
  obtain ⟨p, hp, hx⟩ := hok.2.2.2.2 a ha hia
  exact ⟨p, Nat.zero_le _, hp, hx⟩

/-- In a well-formed order vector the key of a slot of higher priority stands
before the key of a slot of lower priority. -/
theorem Sched.OrderOK.before (N : Nat) (s : Sched) (a b : Nat) (hok : s.OrderOK N)
    (hprio : (s.task b).meta.prio < (s.task a).meta.prio) : s.Before a b := by
  obtain ⟨_, _, hsort, hkey, _⟩ := hok
  intro p q hp hq hpa hqb
  have ha32 : a < 32 := hpa ▸ TaskKey.idx_lt _
  have hb32 : b < 32 := hqb ▸ TaskKey.idx_lt _
  have hva : (s.order.get p).v = 32 * (s.task a).meta.prio + a := by
    have := (hkey p hp).2
    rw [hpa] at this
    rw [this]
    exact TaskKey.set_v _ _ (TaskMeta.prio_le _) ha32
  have hvb : (s.order.get q).v = 32 * (s.task b).meta.prio + b := by
    have := (hkey q hq).2
    rw [hqb] at this
    rw [this]
    exact TaskKey.set_v _ _ (TaskMeta.prio_le _) hb32
  by_contra hge
  rcases Nat.eq_or_lt_of_le (Nat.le_of_not_lt hge) with e | l
  · rw [e, hva] at hvb
    omega
  · have h1 := hsort p hp q l
    rw [hva, hvb] at h1
    omega

/-- C2 (amended): in a scheduler of at most 32 slots whose order vector is well
formed, let A and B be ready tasks (in use, enabled, with a callback) with
priority(A) > priority(B), both due at the tick that `run(now)` processes,
where `run` passes the cadence gate and the fast path. If no call made by a
task function during that `run` is a `delete` or a `priority_set`, or a
`suspend` or `resume_after` on A or B, then both are dispatched in that call
and A is dispatched before B. -/
theorem priority_order (N : Nat) (code : Nat → Prog) (s : Sched) (now a b : Nat)
    (hN : N ≤ 32) (hok : s.OrderOK N) (ha : a < N) (hb : b < N)
    (hra : (s.task a).ready = true) (hrb : (s.task b).ready = true)
    (hprio : (s.task b).meta.prio < (s.task a).meta.prio)
    (hg : ¬ sub32 now s.lastTick < s.tickMs)
    (hf : earlier (add32 s.lastTick s.tickMs) s.nextDue = false)
    (hda : earlier (add32 s.lastTick s.tickMs) (s.task a).next = false)
    (hdb : earlier (add32 s.lastTick s.tickMs) (s.task b).next = false)
    (hc : ∀ c, Event.call c ∈ (run N code s now).2 → c.spares a = true ∧ c.spares b = true) :
    ∃ l1 l2 l3, dispatched (run N code s now).2 = l1 ++ a :: l2 ++ b :: l3 := by
  rw [run_drained N code s now hg hf] at hc ⊢
  exact runDrain_ordered N code (N - 1) _ a b hN (Sched.OrderOK.sorted N s hok)
    (Sched.OrderOK.listed N s a hok ha (Task.ready_inUse _ hra))
    (Sched.OrderOK.listed N s b hok hb (Task.ready_inUse _ hrb))
    (Sched.OrderOK.before N s a b hok hprio)
    ⟨hra, hda, BoolArray32.get_clear s.ranMask a⟩ ⟨hrb, hdb, BoolArray32.get_clear s.ranMask b⟩ hc

/-- C2 (as stated, refuted): in the "postponed" scenario A (priority 5) and B
(priority 2) are in use, enabled and due at tick 1, the order vector is well
formed, and no task function deletes, suspends or re-prioritises; yet `run`
dispatches C, then B, and never A, which C has postponed. -/
theorem priority_order_postponed :
    postponeStart.OrderOK 8 ∧
      (postponeStart.task 0).ready = true ∧ (postponeStart.task 1).ready = true ∧
      (postponeStart.task 0).meta.prio = 5 ∧ (postponeStart.task 1).meta.prio = 2 ∧
      earlier 1 (postponeStart.task 0).next = false ∧
      earlier 1 (postponeStart.task 1).next = false ∧
      (run 8 postponeCode postponeStart 1).2
        = [.dispatch 2 0, .call (.resumeAfter 0 1000), .dispatch 1 0] ∧
      dispatched (run 8 postponeCode postponeStart 1).2 = [2, 1] := by
  decide

/-- C2, witness: the cascade scenario at tick 10, with B (priority 5, slot 1)
in the role of the higher-priority task and A (priority 1, slot 0) in the role
of the lower one. -/
theorem priority_order_witness :
    ((cascadeStart 8).OrderOK 8 ∧ ((cascadeStart 8).task 1).ready = true ∧
      ((cascadeStart 8).task 0).ready = true ∧
      ((cascadeStart 8).task 0).meta.prio < ((cascadeStart 8).task 1).meta.prio) ∧
    ∃ l1 l2 l3, dispatched (run 8 cascadeCode (cascadeStart 8) 10).2 = l1 ++ 1 :: l2 ++ 0 :: l3 :=
  ⟨by decide,
    priority_order 8 cascadeCode (cascadeStart 8) 10 1 0 (by decide) (by decide) (by decide)
      (by decide) (by decide) (by decide) (by decide) (by decide) (by decide) (by decide)
      (by decide)
      (fun c hc => by
        have e : (run 8 cascadeCode (cascadeStart 8) 10).2
            = [.dispatch 1 10, .dispatch 0 10, .call (.notifyGive 1)] := by decide
        rw [e] at hc
        simp only [List.mem_cons, List.mem_singleton, Event.call.injEq, List.not_mem_nil,
          or_false, false_or, reduceCtorEq] at hc
        rw [hc]
        exact ⟨rfl, rfl⟩)⟩

/-! ## The loop bound of a pass -/

theorem FixedVector.push_back_count_le {T : Type} (CAP : Nat) (vec : FixedVector T) (x : T)
    (h : vec.count ≤ CAP) : (vec.push_back CAP x).count ≤ CAP := by
  unfold FixedVector.push_back
  split
  · show vec.count + 1 ≤ CAP
    omega
  · exact h

theorem FixedVector.erase_count_le {T : Type} [Inhabited T] (vec : FixedVector T) (pos : Nat) :
    (vec.erase pos).count ≤ vec.count := by
  unfold FixedVector.erase
  split
  · exact le_refl _
  · show vec.count - 1 ≤ vec.count
    omega

theorem rebuildLoop_count_le (N : Nat) (t : List Task) (n i : Nat) (o : FixedVector TaskKey)
    (h : o.count ≤ N) : (Sched.rebuildLoop N t n i o).count ≤ N := by
  induction n generalizing i o with
  | zero => exact h
  | succ n ih =>
    unfold Sched.rebuildLoop
    apply ih
    split
    · exact FixedVector.push_back_count_le N o _ h
    · exact h

/-- No interface call makes `order` longer than the capacity `N`. -/
theorem call_exec_count_le (N : Nat) (c : Call) (s : Sched) (h : s.order.count ≤ N) :
    (c.exec N s).1.order.count ≤ N := by
  cases c <;> simp only [Call.exec]
  case create cb d p =>
    unfold Sched.xTaskCreate
    split
    · exact h
    · split
      · exact h
      · dsimp only
        split <;> exact FixedVector.push_back_count_le N s.order _ h
  case delete hd =>
    unfold Sched.vTaskDelete
    split
    · exact h
    · dsimp only
      split
      · exact Nat.le_trans (FixedVector.erase_count_le s.order _) h
      · exact h
  case suspend hd =>
    unfold Sched.vTaskSuspend
    split <;> exact h
  case resume hd =>
    unfold Sched.vTaskResume
    split
    · exact h
    · dsimp only
      split <;> exact h
  case resumeAfter hd ms =>
    unfold Sched.vTaskResumeAfter
    split
    · exact h
    · dsimp only
      split
      · split <;> exact h
      · split <;> exact h
  case notifyGive hd =>
    unfold Sched.vTaskNotifyGive
    split
    · exact h
    · dsimp only
      split <;> exact h
  case notifyTake b =>
    unfold Sched.ulTaskNotifyTake
    split
    · exact h
    · dsimp only
      split
      · exact h
      · split <;> exact h
  case delay ms =>
    unfold Sched.vTaskDelay
    split <;> exact h
  case yieldNextTick =>
    unfold Sched.vTaskYieldNextTick
    split <;> exact h
  case delayUntil p =>
    unfold Sched.vTaskDelayUntil
    split
    · exact h
    · split
      · exact h
      · dsimp only
        split <;> exact h
  case prioritySet hd p =>
    unfold Sched.vTaskPrioritySet
    split
    · exact h
    · exact rebuildLoop_count_le N _ N 0 s.order.clear (Nat.zero_le N)
  all_goals exact h

theorem prog_exec_count_le (N : Nat) (p : Prog) (s : Sched) (h : s.order.count ≤ N) :
    (p.exec N s).1.order.count ≤ N := by
  induction p generalizing s with
  | ret => exact h
  | call c k ih => exact ih _ _ (call_exec_count_le N c s h)

theorem runBody_count_le (N : Nat) (code : Nat → Prog) (k : Nat) (st : RunSt)
    (h : st.s.order.count ≤ N) : (runBody N code k st).1.s.order.count ≤ N := by
  rcases runBody_log N code k st with ⟨_, h2⟩ | ⟨_, _, _, _, h2⟩
  · rw [h2]; exact h
  · rw [h2, runCommit_order]
    unfold runCall
    dsimp only
    split
    · exact prog_exec_count_le N _ _ h
    · exact h

/-- The `for` loop of `run` ends by its own test `k < order.size()`: once the
iterations allowed reach the capacity, allowing more changes nothing. -/
theorem runPass_fuel (N : Nat) (code : Nat → Prog) (n m k : Nat) (st : RunSt)
    (h : st.s.order.count ≤ N) (hn : N ≤ k + n) (hm : N ≤ k + m) :
    runPass N code n k st = runPass N code m k st := by
  induction n generalizing m k st with
  | zero =>
    have hk : ¬ k < st.s.order.size := by unfold FixedVector.size; omega
    cases m with
    | zero => rfl
    | succ m => rw [runPass_zero, runPass_succ_ge N code m k st hk]
  | succ n ih =>
    by_cases hk : k < st.s.order.size
    · have hkN : k < N := by unfold FixedVector.size at hk; omega
      cases m with
      | zero => omega
      | succ m =>
        rw [runPass_succ_lt N code n k st hk, runPass_succ_lt N code m k st hk,
          ih m (k + 1) (runBody N code k st).1 (runBody_count_le N code k st h) (by omega)
            (by omega)]
    · cases m with
      | zero => rw [runPass_zero, runPass_succ_ge N code n k st hk]
      | succ m => rw [runPass_succ_ge N code n k st hk, runPass_succ_ge N code m k st hk]

/-! ## C3: the cascade scenario -/

/-- C3 (as stated, refuted): in the cascade scenario A (priority 1, slot 0) and
B (priority 5, slot 1) are both ready and due at tick 10 and A's function calls
`notify_give(B)`, yet the slots dispatched by the `run` call of tick 10 are not
B, A, B. -/
theorem cascade_not_B_A_B :
    (cascadeStart 8).tickNow = 9 ∧
      ((cascadeStart 8).task 0).ready = true ∧ ((cascadeStart 8).task 1).ready = true ∧
      ((cascadeStart 8).task 0).next = 10 ∧ ((cascadeStart 8).task 1).next = 10 ∧
      ((cascadeStart 8).task 0).meta.prio = 1 ∧ ((cascadeStart 8).task 1).meta.prio = 5 ∧
      dispatched (run 8 cascadeCode (cascadeStart 8) 10).2 ≠ [1, 0, 1] := by
  decide

/-! A slot that is not in use is not dispatched. -/

/-- Writing into slot `h` a task that is in use only if slot `h` was leaves a
free slot `y` free. -/
theorem free_set (s : Sched) (h y : Nat) (x : Task)
    (hx : x.meta.inUse = true → (s.task h).meta.inUse = true)
    (hf : (s.task y).meta.inUse = false) :
    ((s.t.set h x).getD y default).meta.inUse = false := by
  rw [getD_set]
  split
  · rename_i hc
    cases hi : x.meta.inUse with
    | false => rfl
    | true =>
      have := hx hi
      rw [hc.1, hf] at this
      cases this
  · exact hf

/-- No interface call but `create` takes a free slot into use. -/
theorem call_exec_free (N : Nat) (c : Call) (s : Sched) (y : Nat) (hc : c.creates = false)
    (hf : (s.task y).meta.inUse = false) : ((c.exec N s).1.task y).meta.inUse = false := by
  cases c <;> simp only [Call.exec]
  case create cb d p => cases hc
  case delete h =>
    unfold Sched.vTaskDelete
    split
    · exact hf
    · dsimp only
      split <;> exact free_set s h y _ (fun hi => absurd hi (by simp [Task.markFree, TaskMeta.clear, TaskMeta.inUse])) hf
  case suspend h =>
    unfold Sched.vTaskSuspend
    split
    · exact hf
    · exact free_set s h y _ (fun hi => by rw [← TaskMeta.inUse_disable]; exact hi) hf
  case resume h =>
    unfold Sched.vTaskResume
    split
    · exact hf
    · dsimp only
      split <;> exact free_set s h y _ (fun hi => by rw [← TaskMeta.inUse_enable]; exact hi) hf
  case resumeAfter h ms =>
    unfold Sched.vTaskResumeAfter
    split
    · exact hf
    · dsimp only
      split
      · split <;> exact free_set s h y _ (fun hi => by rw [← TaskMeta.inUse_enable]; exact hi) hf
      · split <;> exact free_set s h y _ (fun hi => by rw [← TaskMeta.inUse_enable]; exact hi) hf
  case notifyGive h =>
    unfold Sched.vTaskNotifyGive
    split
    · exact hf
    · dsimp only
      split <;> exact free_set s h y _ (fun hi => by rw [← TaskMeta.inUse_enable]; exact hi) hf
  case notifyTake b =>
    unfold Sched.ulTaskNotifyTake
    split
    · exact hf
    · dsimp only
      split
      · exact hf
      · split <;> exact hf
  case delay ms =>
    unfold Sched.vTaskDelay
    split <;> exact hf
  case yieldNextTick =>
    unfold Sched.vTaskYieldNextTick
    split <;> exact hf
  case delayUntil p =>
    unfold Sched.vTaskDelayUntil
    split
    · exact hf
    · split
      · exact hf
      · dsimp only
        split <;> exact hf
  case prioritySet h p =>
    unfold Sched.vTaskPrioritySet
    split
    · exact hf
    · exact free_set s h y _ (fun hi => by rw [← TaskMeta.inUse_setPrio]; exact hi) hf
  all_goals exact hf

theorem prog_exec_free (N : Nat) (p : Prog) (s : Sched) (y : Nat)
    (hc : ∀ c ∈ (p.exec N s).2, c.creates = false)
    (hf : (s.task y).meta.inUse = false) : ((p.exec N s).1.task y).meta.inUse = false := by
  induction p generalizing s with
  | ret => exact hf
  | call c k ih =>
    exact ih _ _ (fun c2 h2 => hc c2 (List.mem_cons_of_mem _ h2))
      (call_exec_free N c s y (hc c (List.mem_cons_self _ _)) hf)

theorem runCall_free (N : Nat) (code : Nat → Prog) (s : Sched) (idx y : Nat)
    (hc : ∀ c ∈ (runCall N code s idx).2, c.creates = false)
    (hf : (s.task y).meta.inUse = false) :
    ((runCall N code s idx).1.task y).meta.inUse = false := by
  unfold runCall at hc ⊢
  dsimp only at hc ⊢
  split
  · rename_i f hcb
    rw [hcb] at hc
    exact prog_exec_free N (code f) _ y hc hf
  · exact hf

theorem runCommit_free (s : Sched) (nnd idx y : Nat) (hf : (s.task y).meta.inUse = false) :
    ((runCommit s nnd idx).s.task y).meta.inUse = false := by
  unfold runCommit
  dsimp only
  split
  · exact free_set s idx y _ (fun hi => by rw [← TaskMeta.inUse_enable]; exact hi) hf
  · exact free_set s idx y _ (fun hi => by rw [← TaskMeta.inUse_disable]; exact hi) hf

theorem runBody_free (N : Nat) (code : Nat → Prog) (k : Nat) (st : RunSt) (y : Nat)
    (hc : ∀ c, Event.call c ∈ (runBody N code k st).2 → c.creates = false)
    (hf : (st.s.task y).meta.inUse = false) :
    ((runBody N code k st).1.s.task y).meta.inUse = false ∧
      y ∉ dispatched (runBody N code k st).2 := by
  rcases runBody_log N code k st with ⟨h1, h2⟩ | ⟨hr, _, _, h1, h2⟩
  · rw [h1, h2]
    exact ⟨hf, by simp [dispatched]⟩
  · have hne : (st.s.order.get k).idx ≠ y := by
      intro e
      rw [e] at hr
      have := Task.ready_inUse _ hr
      rw [hf] at this
      cases this
    rw [h1] at hc
    rw [h1, h2]
    refine ⟨runCommit_free _ _ _ y (runCall_free N code st.s _ y
      (fun c h => hc c (List.mem_cons_of_mem _ ((mem_map_call c _).2 h))) hf), ?_⟩
    simp only [dispatched, dispatched_map_call, List.mem_singleton]
    exact fun e => hne e.symm

theorem runPass_free (N : Nat) (code : Nat → Prog) (n k : Nat) (st : RunSt) (y : Nat)
    (hc : ∀ c, Event.call c ∈ (runPass N code n k st).2 → c.creates = false)
    (hf : (st.s.task y).meta.inUse = false) :
    ((runPass N code n k st).1.s.task y).meta.inUse = false ∧
      y ∉ dispatched (runPass N code n k st).2 := by
  induction n generalizing k st with
  | zero => exact ⟨hf, by simp [runPass_zero, dispatched]⟩
  | succ n ih =>
    by_cases hk : k < st.s.order.size
    · rw [runPass_succ_lt N code n k st hk] at hc ⊢
      obtain ⟨b1, b2⟩ := runBody_free N code k st y
        (fun c h => hc c (List.mem_append_left _ h)) hf
      obtain ⟨i1, i2⟩ := ih (k + 1) _ (fun c h => hc c (List.mem_append_right _ h)) b1
      refine ⟨i1, ?_⟩
      rw [dispatched_append, List.mem_append]
      exact fun h => h.elim b2 i2
    · rw [runPass_succ_ge N code n k st hk]
      exact ⟨hf, by simp [dispatched]⟩

theorem runDrain_free (N : Nat) (code : Nat → Prog) (n : Nat) (st : RunSt) (y : Nat)
    (hc : ∀ c, Event.call c ∈ (runDrain N code n st).2 → c.creates = false)
    (hf : (st.s.task y).meta.inUse = false) :
    ((runDrain N code n st).1.s.task y).meta.inUse = false ∧
      y ∉ dispatched (runDrain N code n st).2 := by
  induction n generalizing st with
  | zero =>
    rw [runDrain_zero] at hc ⊢
    exact runPass_free N code N 0 { st with anyRanThisPass := false } y hc hf
  | succ m ih =>
    by_cases hcp : (endPass (runPass N code N 0 { st with anyRanThisPass := false }).1).s.cascadePending
        = true
    · rw [runDrain_succ_pos N code m st hcp] at hc ⊢
      obtain ⟨p1, p2⟩ := runPass_free N code N 0 { st with anyRanThisPass := false } y
        (fun c h => hc c (List.mem_append_left _ h)) hf
      obtain ⟨i1, i2⟩ := ih (endPass (runPass N code N 0 { st with anyRanThisPass := false }).1)
        (fun c h => hc c (List.mem_append_right _ h)) p1
      refine ⟨i1, ?_⟩
      rw [dispatched_append, List.mem_append]
      exact fun h => h.elim p2 i2
    · rw [runDrain_succ_neg N code m st hcp] at hc ⊢
      exact runPass_free N code N 0 { st with anyRanThisPass := false } y hc hf

/-- A slot that is free when `run` is called is not dispatched by it, unless a
task function creates a task. -/
theorem run_free (N : Nat) (code : Nat → Prog) (s : Sched) (now y : Nat)
    (hc : ∀ c, Event.call c ∈ (run N code s now).2 → c.creates = false)
    (hf : (s.task y).meta.inUse = false) : y ∉ dispatched (run N code s now).2 := by
  by_cases hg : sub32 now s.lastTick < s.tickMs
  · rw [run_gated N code s now hg]
    simp [dispatched]
  · by_cases hfp : earlier (add32 s.lastTick s.tickMs) s.nextDue = true
    · rw [run_fast N code s now hg hfp]
      simp [dispatched]
    · have hf2 : earlier (add32 s.lastTick s.tickMs) s.nextDue = false := by simpa using hfp
      rw [run_drained N code s now hg hf2] at hc ⊢
      exact (runDrain_free N code (N - 1) _ y hc (show (Sched.task _ y).meta.inUse = false from hf)).2

/-- In a duplicate-free list where `b` stands before `a`, keeping only `a` and
`b` leaves `b`, then `a`. -/
theorem filter_pair_of_nodup (l l1 l2 l3 : List Nat) (a b : Nat) (hn : l.Nodup)
    (hl : l = l1 ++ b :: l2 ++ a :: l3) :
    l.filter (fun x => x == a || x == b) = [b, a] := by
  subst hl
  have h1 := List.nodup_append.1 hn
  have h2 := List.nodup_cons.1 h1.2.1
  have h5 := List.nodup_append.1 h1.1
  have h6 := List.nodup_cons.1 h5.2.1
  have hbm : b ∈ l1 ++ b :: l2 := List.mem_append_right _ (List.mem_cons_self _ _)
  have n1 : l1.filter (fun x => x == a || x == b) = [] := by
    rw [List.filter_eq_nil_iff]
    intro x hx
    have hxb : x ≠ b := fun e => h5.2.2 hx (e ▸ List.mem_cons_self _ _)
    have hxa : x ≠ a := fun e => h1.2.2 (List.mem_append_left _ hx) (e ▸ List.mem_cons_self _ _)
    simp [hxa, hxb]
  have n2 : l2.filter (fun x => x == a || x == b) = [] := by
    rw [List.filter_eq_nil_iff]
    intro x hx
    have hxb : x ≠ b := fun e => h6.1 (e ▸ hx)
    have hxa : x ≠ a := fun e => h1.2.2 (List.mem_append_right _ (List.mem_cons_of_mem _ hx))
      (e ▸ List.mem_cons_self _ _)
    simp [hxa, hxb]
  have n3 : l3.filter (fun x => x == a || x == b) = [] := by
    rw [List.filter_eq_nil_iff]
    intro x hx
    have hxb : x ≠ b := fun e => h1.2.2 hbm (List.mem_cons_of_mem _ (e ▸ hx))
    have hxa : x ≠ a := fun e => h2.1 (e ▸ hx)
    simp [hxa, hxb]
  have hb : (b == a || b == b) = true := by simp
  have ha : (a == a || a == b) = true := by simp
  rw [List.filter_append, List.filter_append, List.filter_cons, if_pos hb, List.filter_cons,
    if_pos ha, n1, n2, n3]
  rfl

/-- C3 (amended): in every scheduler state with a sound order vector in which
tasks A (slot `a`) and B (slot `b`) are ready and due at the tick that `run`
processes, A's priority being below B's, and for all task functions making
interface calls other than `delete` and `priority_set`, and other than
`suspend` and `resume_after` on A or B (so `notify_give(B)` in A's function is
allowed), the one `run` call invokes, of A and B, first B and then A, each
once: B is not invoked after A, and its `ranMask` flag is set when `run`
returns.  If moreover no other slot is in use and no task is created, B then
A is all that the `run` call invokes. -/
theorem cascade_invokes_B_then_A_only (N : Nat) (code : Nat → Prog) (s : Sched) (now a b : Nat)
    (hN : N ≤ 32) (hok : s.OrderOK N) (ha : a < N) (hb : b < N)
    (hra : (s.task a).ready = true) (hrb : (s.task b).ready = true)
    (hprio : (s.task a).meta.prio < (s.task b).meta.prio)
    (hg : ¬ sub32 now s.lastTick < s.tickMs)
    (hf : earlier (add32 s.lastTick s.tickMs) s.nextDue = false)
    (hda : earlier (add32 s.lastTick s.tickMs) (s.task a).next = false)
    (hdb : earlier (add32 s.lastTick s.tickMs) (s.task b).next = false)
    (hc : ∀ c, Event.call c ∈ (run N code s now).2 → c.spares a = true ∧ c.spares b = true) :
    (dispatched (run N code s now).2).filter (fun x => x == a || x == b) = [b, a] ∧
      (run N code s now).1.ranMask.get b = true ∧
      ((∀ y, y ≠ a → y ≠ b → (s.task y).meta.inUse = false) →
        (∀ c, Event.call c ∈ (run N code s now).2 → c.creates = false) →
        dispatched (run N code s now).2 = [b, a]) := by
  have hst : ∃ st : RunSt, st = { s := { s with lastTick := add32 s.lastTick s.tickMs, tickNow := add32 s.lastTick s.tickMs, ranMask := s.ranMask.clear, cascadePending := false }, newNextDue := UINT32_MAX, anyRanThisPass := false } := ⟨_, rfl⟩
  obtain ⟨st, hst⟩ := hst
  have hrun : run N code s now
      = ({ (runDrain N code (N - 1) st).1.s with nextDue := (runDrain N code (N - 1) st).1.newNextDue },
          (runDrain N code (N - 1) st).2) := by
    rw [hst]
    exact run_drained N code s now hg hf
  have hlog : (run N code s now).2 = (runDrain N code (N - 1) st).2 := by rw [hrun]
  have hmask : (run N code s now).1.ranMask = (runDrain N code (N - 1) st).1.s.ranMask := by
    rw [hrun]
  have hpb : st.s.Pending b := by
    rw [hst]
    exact ⟨hrb, hdb, BoolArray32.get_clear s.ranMask b⟩
  have hpa : st.s.Pending a := by
    rw [hst]
    exact ⟨hra, hda, BoolArray32.get_clear s.ranMask a⟩
  have hsorted : st.s.OrderSorted N := by
    rw [hst]
    exact Sched.OrderOK.sorted N s hok
  have hlb : st.s.ListedFrom 0 b := by
    rw [hst]
    exact Sched.OrderOK.listed N s b hok hb (Task.ready_inUse _ hrb)
  have hla : st.s.ListedFrom 0 a := by
    rw [hst]
    exact Sched.OrderOK.listed N s a hok ha (Task.ready_inUse _ hra)
  have hbf : st.s.Before b a := by
    rw [hst]
    exact Sched.OrderOK.before N s b a hok hprio
  have hnd := runDrain_nodup N code (N - 1) st [] List.nodup_nil (by intro i hi; cases hi)
  rw [List.nil_append] at hnd
  have hfilter : (dispatched (run N code s now).2).filter (fun x => x == a || x == b) = [b, a] := by
    rw [hlog] at hc ⊢
    obtain ⟨l1, l2, l3, hl⟩ := runDrain_ordered N code (N - 1) st b a hN hsorted hlb hla hbf
      hpb hpa (fun c h => ⟨(hc c h).2, (hc c h).1⟩)
    exact filter_pair_of_nodup _ l1 l2 l3 a b hnd.1 hl
  have hbmem : b ∈ dispatched (run N code s now).2 := by
    have : b ∈ (dispatched (run N code s now).2).filter (fun x => x == a || x == b) := by
      rw [hfilter]
      exact List.mem_cons_self _ _
    exact (List.mem_filter.1 this).1
  refine ⟨hfilter, ?_, ?_⟩
  · rw [hlog] at hbmem
    rw [hmask]
    exact (hnd.2 b hbmem).2
  · intro hfree hcr
    rw [← hfilter]
    symm
    rw [List.filter_eq_self]
    intro y hy
    by_cases hya : y = a
    · simp [hya]
    · by_cases hyb : y = b
      · simp [hyb]
      · exact absurd hy (run_free N code s now y hcr (hfree y hya hyb))

/-- C3, witness: the cascade scenario on a scheduler for 8 tasks, where A
(slot 0, priority 1) calls `notify_give` on B (slot 1, priority 5) at
tick 10. -/
theorem cascade_invokes_B_then_A_only_witness :
    (run 8 cascadeCode (cascadeStart 8) 10).2
        = [.dispatch 1 10, .dispatch 0 10, .call (.notifyGive 1)] ∧
      (dispatched (run 8 cascadeCode (cascadeStart 8) 10).2).filter (fun x => x == 0 || x == 1)
        = [1, 0] ∧
      (run 8 cascadeCode (cascadeStart 8) 10).1.ranMask.get 1 = true ∧
      dispatched (run 8 cascadeCode (cascadeStart 8) 10).2 = [1, 0] := by
  have hlog : (run 8 cascadeCode (cascadeStart 8) 10).2
      = [.dispatch 1 10, .dispatch 0 10, .call (.notifyGive 1)] := by decide
  have hfree : ∀ y, y ≠ 0 → y ≠ 1 → ((cascadeStart 8).task y).meta.inUse = false := by
    intro y h0 h1
    by_cases hy : y < 8
    · interval_cases y <;> first | exact absurd rfl h0 | exact absurd rfl h1 | decide
    · have hlen : (cascadeStart 8).t.length = 8 := by decide
      show ((cascadeStart 8).t.getD y default).meta.inUse = false
      rw [List.getD_eq_default _ _ (by omega)]
      rfl
  have h := cascade_invokes_B_then_A_only 8 cascadeCode (cascadeStart 8) 10 0 1 (by decide)
    (by decide) (by decide) (by decide) (by decide) (by decide) (by decide) (by decide)
    (by decide) (by decide) (by decide)
    (by
      intro c hc
      rw [hlog] at hc
      simp only [List.mem_cons, List.mem_singleton, List.not_mem_nil, or_false] at hc
      rcases hc with h | h | h <;> cases h
      decide)
  refine ⟨hlog, h.1, h.2.1, h.2.2 hfree ?_⟩
  intro c hc
  rw [hlog] at hc
  simp only [List.mem_cons, List.mem_singleton, List.not_mem_nil, or_false] at hc
  rcases hc with h | h | h <;> cases h
  rfl

/-! ## C4: auto-suspend -/

/-- C4 (as stated, refuted): in the "self resume" scenario the task function
of slot 0 makes no `delay`, `yield_next_tick` or `delay_until` call and no task
is dispatched after it; the slot ends disabled, but its wake time has moved
from 0 to 51. -/
theorem auto_suspend_wake_time_moved :
    (oneTaskStart.task 0).next = 0 ∧
      (run 8 selfResumeCode oneTaskStart 1).2
        = [.dispatch 0 0, .call (.resumeAfter 0 50)] ∧
      ((run 8 selfResumeCode oneTaskStart 1).1.task 0).meta.enabled = false ∧
      ((run 8 selfResumeCode oneTaskStart 1).1.task 0).next = 51 := by
  decide

/-- C4 (amended): if a call of `run` dispatches slot `i` (with wake time `a`
at that moment), the task function entered makes no `delay`,
`yield_next_tick` or `delay_until` call, and no call made from then on in that
`run` is a `resume`, `resume_after`, `notify_give` or `delete` on `i`, then
when `run` returns slot `i` is disabled with wake time `a`; and through any
later steps (calls of `run` and interface calls from outside) in which none of
those four is called on `i`, slot `i` is never dispatched. -/
theorem auto_suspend_until_woken (N : Nat) (code : Nat → Prog) (s : Sched) (now i a : Nat)
    (pre post : List Event)
    (he : (run N code s now).2 = pre ++ Event.dispatch i a :: post)
    (ho : ∀ c ∈ ownCalls post, c.overrides = false)
    (hw : ∀ c, Event.call c ∈ post → c.wakes i = false) :
    ((run N code s now).1.task i).meta.enabled = false ∧
      ((run N code s now).1.task i).next = a ∧
      ∀ later : List Step,
        (∀ c, Event.call c ∈ (steps N code (run N code s now).1 later).2 → c.wakes i = false) →
        i ∉ dispatched (steps N code (run N code s now).1 later).2 := by
  have h := run_autosuspend N code s now i a pre post he ho hw
  exact ⟨h.2.1, h.2.2, fun later hl => (steps_asleep N code _ later i a h hl).2⟩

/-- C4, witness: the "auto-suspend default" scenario; the task runs at tick 1,
and is not dispatched at ticks 2 and 3 (a `suspend` in between changes
nothing). -/
theorem auto_suspend_until_woken_witness :
    (run 8 idleCode oneTaskStart 1).2 = [] ++ Event.dispatch 0 0 :: [] ∧
      ((run 8 idleCode oneTaskStart 1).1.task 0).meta.enabled = false ∧
      ((run 8 idleCode oneTaskStart 1).1.task 0).next = 0 ∧
      0 ∉ dispatched (steps 8 idleCode (run 8 idleCode oneTaskStart 1).1
        [.tick 2, .api (.suspend 0), .tick 3]).2 :=
  have h := auto_suspend_until_woken 8 idleCode oneTaskStart 1 0 0 [] [] (by decide)
    (by intro c hc; cases hc) (by intro c hc; cases hc)
  ⟨by decide, h.1, h.2.1, h.2.2 [.tick 2, .api (.suspend 0), .tick 3] (by
    intro c hc
    have e : (steps 8 idleCode (run 8 idleCode oneTaskStart 1).1
        [.tick 2, .api (.suspend 0), .tick 3]).2 = [.call (.suspend 0)] := by decide
    rw [e] at hc
    simp only [List.mem_singleton, Event.call.injEq] at hc
    rw [hc]
    rfl)⟩

/-! ## C5 and C6: notification counters -/

/-- A valid handle lies inside the task array. -/
theorem Sched.isTaskIdValid_lt (N : Nat) (s : Sched) (h : Nat) (hv : s.isTaskIdValid N h = true) :
    h < N ∧ h < s.t.length ∧ (s.task h).meta.inUse = true := by
  simp only [Sched.isTaskIdValid, Bool.and_eq_true, decide_eq_true_eq] at hv
  refine ⟨hv.1, ?_, hv.2⟩
  apply getD_ne_default_lt s.t h default
  intro hd
  have := hv.2
  unfold Sched.task at this
  rw [hd] at this
  exact absurd this (by decide)

/-- One `notify_give` on a valid handle: the counter moves to `min (c + 1) 255`,
the handle stays valid, and the counter array keeps its length. -/
theorem Sched.vTaskNotifyGive_count (N : Nat) (s : Sched) (h : Nat)
    (hv : s.isTaskIdValid N h = true) (hlen : h < s.notifyCnt.length) (hc : s.notify h ≤ 255) :
    (s.vTaskNotifyGive N h).isTaskIdValid N h = true ∧
      (s.vTaskNotifyGive N h).notifyCnt.length = s.notifyCnt.length ∧
      (s.vTaskNotifyGive N h).notify h = min (s.notify h + 1) 255 := by
  obtain ⟨hN, hlt, hin⟩ := Sched.isTaskIdValid_lt N s h hv
  have hvalid : ∀ (cnt : List Nat) (nd : Nat),
      Sched.isTaskIdValid N
        { s with notifyCnt := cnt
                 t := s.t.set h { s.task h with meta := (s.task h).meta.enable, next := s.tickNow }
                 cascadePending := true
                 nextDue := nd } h = true := by
    intro cnt nd
    simp only [Sched.isTaskIdValid, Sched.task, hN, getD_set_self _ _ _ _ hlt,
      TaskMeta.inUse_enable, decide_True, Bool.true_and]
    exact hin
  unfold Sched.vTaskNotifyGive
  simp only [hv, Bool.not_true, Bool.false_eq_true, if_false]
  by_cases hmax : s.notify h = 255
  · have : (s.notify h != MAX_NOTIFY_COUNT) = false := by simp [hmax]
    simp only [this, Bool.false_eq_true, if_false]
    split
    · exact ⟨hvalid _ _, rfl, by simp [Sched.notify, hmax] at *; omega⟩
    · exact ⟨hvalid _ _, rfl, by simp [Sched.notify, hmax] at *; omega⟩
  · have : (s.notify h != MAX_NOTIFY_COUNT) = true := by simp [hmax]
    simp only [this, if_true]
    have hval : ((s.notifyCnt.set h ((s.notify h + 1) % 256)).getD h 0) = min (s.notify h + 1) 255 := by
      rw [getD_set_self _ _ _ _ hlen]
      omega
    split
    · exact ⟨hvalid _ _, by simp, hval⟩
    · exact ⟨hvalid _ _, by simp, hval⟩

theorem Sched.notifyGive_iterate (N : Nat) (s : Sched) (h k : Nat)
    (hv : s.isTaskIdValid N h = true) (hlen : h < s.notifyCnt.length) (h0 : s.notify h = 0) :
    ((fun x => Sched.vTaskNotifyGive N x h)^[k] s).isTaskIdValid N h = true ∧
      ((fun x => Sched.vTaskNotifyGive N x h)^[k] s).notifyCnt.length = s.notifyCnt.length ∧
      ((fun x => Sched.vTaskNotifyGive N x h)^[k] s).notify h = min k 255 := by
  induction k with
  | zero => exact ⟨hv, rfl, by simpa using h0⟩
  | succ k ih =>
    rw [Function.iterate_succ_apply']
    obtain ⟨i1, i2, i3⟩ := ih
    have := Sched.vTaskNotifyGive_count N _ h i1 (by omega) (by omega)
    refine ⟨this.1, this.2.1.trans i2, ?_⟩
    rw [this.2.2, i3]
    omega

/-- Taking with `clearOnExit` when the current task's counter is `c`: the call
returns `c`, and any take right after it returns 0. -/
theorem Sched.take_all (s : Sched) (hcur : s.currentId ≠ 255)
    (hlen : s.currentId < s.notifyCnt.length) :
    (s.ulTaskNotifyTake true).2 = s.notify s.currentId ∧
      ∀ b, ((s.ulTaskNotifyTake true).1.ulTaskNotifyTake b).2 = 0 := by
  have hc : s.hasCurrentTask = true := by simpa [Sched.hasCurrentTask] using hcur
  by_cases hz : s.notify s.currentId = 0
  · have e : s.ulTaskNotifyTake true = (s, 0) := by
      simp [Sched.ulTaskNotifyTake, hc, hz]
    rw [e]
    refine ⟨hz.symm, fun b => ?_⟩
    simp [Sched.ulTaskNotifyTake, hc, hz]
  · have e : s.ulTaskNotifyTake true
        = ({ s with notifyCnt := s.notifyCnt.set s.currentId 0 }, s.notify s.currentId) := by
      simp [Sched.ulTaskNotifyTake, hc, hz]
    rw [e]
    refine ⟨rfl, fun b => ?_⟩
    have hz2 : Sched.notify { s with notifyCnt := s.notifyCnt.set s.currentId 0 } s.currentId = 0 := by
      simp only [Sched.notify]
      exact getD_set_self _ _ _ _ hlen
    unfold Sched.ulTaskNotifyTake
    simp only [Sched.hasCurrentTask] at hc ⊢
    simp only [hc, hz2]
    simp

/-- C5: for a valid handle `h` (in a scheduler of at most 255 slots, whose
counter array has `N` entries) with counter 0, after `k` calls of
`notify_give(h)` a `notify_take(true)` made with `h` as the current task
returns `min k 255`, and a take made right after it, with either argument,
returns 0. -/
theorem notify_take_all_after_gives (N : Nat) (s : Sched) (h k : Nat) (hN : N ≤ 255)
    (hv : s.isTaskIdValid N h = true) (hlen : s.notifyCnt.length = N) (h0 : s.notify h = 0) :
    (Sched.ulTaskNotifyTake
        { ((fun x => Sched.vTaskNotifyGive N x h)^[k] s) with currentId := h } true).2
        = min k 255 ∧
      ∀ b, (Sched.ulTaskNotifyTake (Sched.ulTaskNotifyTake
        { ((fun x => Sched.vTaskNotifyGive N x h)^[k] s) with currentId := h } true).1 b).2
        = 0 := by
  obtain ⟨hlt, _, _⟩ := Sched.isTaskIdValid_lt N s h hv
  obtain ⟨_, i2, i3⟩ := Sched.notifyGive_iterate N s h k hv (by omega) h0
  have := Sched.take_all { ((fun x => Sched.vTaskNotifyGive N x h)^[k] s) with currentId := h }
    (by show h ≠ 255; omega) (by show h < _; rw [i2]; omega)
  refine ⟨?_, this.2⟩
  rw [this.1]
  exact i3

/-- C5, witness: slot 0 of the periodic scenario, 300 gives. -/
theorem notify_take_all_after_gives_witness :
    (8 ≤ 255 ∧ (periodicStart 8).isTaskIdValid 8 0 = true ∧ (periodicStart 8).notifyCnt.length = 8 ∧
      (periodicStart 8).notify 0 = 0) ∧
    ((Sched.ulTaskNotifyTake
        { ((fun x => Sched.vTaskNotifyGive 8 x 0)^[300] (periodicStart 8)) with currentId := 0 } true).2
        = min 300 255 ∧
      ∀ b, (Sched.ulTaskNotifyTake (Sched.ulTaskNotifyTake
        { ((fun x => Sched.vTaskNotifyGive 8 x 0)^[300] (periodicStart 8)) with currentId := 0 } true).1 b).2
        = 0) :=
  ⟨by decide,
    notify_take_all_after_gives 8 (periodicStart 8) 0 300 (by decide) (by decide) (by decide)
      (by decide)⟩

/-- A take when the current task's counter is 0 returns 0 and changes
nothing. -/
theorem Sched.take_zero (s : Sched) (hz : s.notify s.currentId = 0) (b : Bool) :
    s.ulTaskNotifyTake b = (s, 0) := by
  unfold Sched.ulTaskNotifyTake
  simp [hz]

/-- One `notify_take(false)` with a non-zero counter: returns 1, the counter
drops by one, nothing else about the current task changes. -/
theorem Sched.take_one (s : Sched) (c : Nat) (hcur : s.currentId ≠ INVALID_TASK_ID)
    (hlen : s.currentId < s.notifyCnt.length) (hc : s.notify s.currentId = c + 1)
    (h255 : c + 1 ≤ 255) :
    (s.ulTaskNotifyTake false).2 = 1 ∧
      (s.ulTaskNotifyTake false).1.currentId = s.currentId ∧
      (s.ulTaskNotifyTake false).1.notifyCnt.length = s.notifyCnt.length ∧
      (s.ulTaskNotifyTake false).1.notify s.currentId = c := by
  have hh : s.hasCurrentTask = true := by simpa [Sched.hasCurrentTask] using hcur
  have e : s.ulTaskNotifyTake false
      = ({ s with notifyCnt := s.notifyCnt.set s.currentId ((s.notify s.currentId + 255) % 256) }, 1) := by
    simp [Sched.ulTaskNotifyTake, hh, hc]
  rw [e]
  refine ⟨rfl, rfl, by simp, ?_⟩
  simp only [Sched.notify]
  rw [getD_set_self _ _ _ _ hlen]
  simp only [Sched.notify] at hc
  omega

theorem Sched.take_iterate (s : Sched) (c : Nat) (hcur : s.currentId ≠ INVALID_TASK_ID)
    (hlen : s.currentId < s.notifyCnt.length) (hc : s.notify s.currentId = c)
    (h255 : c ≤ 255) (j : Nat) (hj : j ≤ c) :
    ((fun x : Sched => (x.ulTaskNotifyTake false).1)^[j] s).currentId = s.currentId ∧
      ((fun x : Sched => (x.ulTaskNotifyTake false).1)^[j] s).notifyCnt.length
        = s.notifyCnt.length ∧
      ((fun x : Sched => (x.ulTaskNotifyTake false).1)^[j] s).notify s.currentId = c - j := by
  induction j with
  | zero => exact ⟨rfl, rfl, by simpa using hc⟩
  | succ j ih =>
    obtain ⟨i1, i2, i3⟩ := ih (by omega)
    rw [Function.iterate_succ_apply']
    have := Sched.take_one ((fun x : Sched => (x.ulTaskNotifyTake false).1)^[j] s) (c - j - 1)
      (by rw [i1]; exact hcur) (by rw [i1, i2]; exact hlen) (by rw [i1, i3]; omega) (by omega)
    rw [i1] at this
    refine ⟨this.2.1, this.2.2.1.trans i2, ?_⟩
    rw [this.2.2.2]
    omega

/-- C6: when the current task's counter is `c ≤ 255`, each of the first `c`
calls of `notify_take(false)` returns 1 and lowers the counter by exactly one,
the counter is 0 after them, and a further call returns 0 and changes nothing;
with no current task `notify_take` returns 0 and changes nothing. -/
theorem notify_take_one_at_a_time (s : Sched) (c : Nat)
    (hcur : s.currentId ≠ INVALID_TASK_ID) (hlen : s.currentId < s.notifyCnt.length)
    (hc : s.notify s.currentId = c) (h255 : c ≤ 255) :
    (∀ j, j < c →
      (Sched.ulTaskNotifyTake ((fun x : Sched => (x.ulTaskNotifyTake false).1)^[j] s) false).2 = 1 ∧
      ((fun x : Sched => (x.ulTaskNotifyTake false).1)^[j] s).notify s.currentId = c - j ∧
      ((fun x : Sched => (x.ulTaskNotifyTake false).1)^[j + 1] s).notify s.currentId
        = c - j - 1) ∧
    ((fun x : Sched => (x.ulTaskNotifyTake false).1)^[c] s).notify s.currentId = 0 ∧
    Sched.ulTaskNotifyTake ((fun x : Sched => (x.ulTaskNotifyTake false).1)^[c] s) false
      = ((fun x : Sched => (x.ulTaskNotifyTake false).1)^[c] s, 0) ∧
    ∀ (s0 : Sched) (b : Bool), s0.currentId = INVALID_TASK_ID →
      s0.ulTaskNotifyTake b = (s0, 0) := by
  refine ⟨?_, ?_, ?_, ?_⟩
  · intro j hj
    obtain ⟨i1, i2, i3⟩ := Sched.take_iterate s c hcur hlen hc h255 j (by omega)
    obtain ⟨_, _, k3⟩ := Sched.take_iterate s c hcur hlen hc h255 (j + 1) (by omega)
    have := Sched.take_one ((fun x : Sched => (x.ulTaskNotifyTake false).1)^[j] s) (c - j - 1)
      (by rw [i1]; exact hcur) (by rw [i1, i2]; exact hlen) (by rw [i1, i3]; omega) (by omega)
    exact ⟨this.1, i3, by rw [k3]; omega⟩
  · have := (Sched.take_iterate s c hcur hlen hc h255 c (le_refl c)).2.2
    simpa using this
  · obtain ⟨i1, _, i3⟩ := Sched.take_iterate s c hcur hlen hc h255 c (le_refl c)
    have hz : ((fun x : Sched => (x.ulTaskNotifyTake false).1)^[c] s).notify
        ((fun x : Sched => (x.ulTaskNotifyTake false).1)^[c] s).currentId = 0 := by
      rw [i1, i3]; omega
    exact Sched.take_zero _ hz false
  · intro s0 b h0
    simp [Sched.ulTaskNotifyTake, Sched.hasCurrentTask, h0]

/-- C6, witness: the current task is slot 0 of the periodic scenario with
counter 3. -/
theorem notify_take_one_at_a_time_witness :
    ((Sched.vTaskNotifyGive 8 (Sched.vTaskNotifyGive 8 (Sched.vTaskNotifyGive 8
        { (periodicStart 8) with currentId := 0 } 0) 0) 0).notify 0 = 3) ∧
    (Sched.ulTaskNotifyTake ((fun x : Sched => (x.ulTaskNotifyTake false).1)^[3]
        (Sched.vTaskNotifyGive 8 (Sched.vTaskNotifyGive 8 (Sched.vTaskNotifyGive 8
          { (periodicStart 8) with currentId := 0 } 0) 0) 0)) false).2 = 0 :=
  ⟨by decide,
    congrArg Prod.snd (notify_take_one_at_a_time
      (Sched.vTaskNotifyGive 8 (Sched.vTaskNotifyGive 8 (Sched.vTaskNotifyGive 8
        { (periodicStart 8) with currentId := 0 } 0) 0) 0) 3
      (by decide) (by decide) (by decide) (by decide)).2.2.1⟩

/-! ## C7: the period-locked delay -/

/-- C7: in a callback context, for a period `> 0` with
`late = (tickNow - currentAnchor) mod 2^32` and `late + period < 2^32`,
`delay_until(period)` requests the wake `currentAnchor + m * period (mod 2^32)`
for the least positive `m` with `late < m * period`; that wake is strictly
after `tickNow` and at most `period` after it. -/
theorem delayUntil_first_grid_point (s : Sched) (period : Nat)
    (hcur : s.hasCurrentTask = true) (hp : 0 < period)
    (hlate : sub32 s.tickNow s.currentAnchor + period < U32) :
    ∃ m, 0 < m ∧ sub32 s.tickNow s.currentAnchor < m * period ∧
      (∀ j, 0 < j → sub32 s.tickNow s.currentAnchor < j * period → m ≤ j) ∧
      (s.vTaskDelayUntil period).overrideSet = true ∧
      (s.vTaskDelayUntil period).overrideNext = (s.currentAnchor + m * period) % U32 ∧
      0 < sub32 (s.vTaskDelayUntil period).overrideNext s.tickNow ∧
      sub32 (s.vTaskDelayUntil period).overrideNext s.tickNow ≤ period := by
  have hpU : period % U32 = period := Nat.mod_eq_of_lt (by omega)
  have hp0 : period ≠ 0 := by omega
  have hlate2 : sub32 s.tickNow s.currentAnchor + period < 4294967296 := hlate
  have hLdef : sub32 s.tickNow s.currentAnchor
      = (s.tickNow + (4294967296 - s.currentAnchor % 4294967296)) % 4294967296 := rfl
  have hsub : ∀ X, sub32 s.tickNow s.currentAnchor < X →
      X ≤ sub32 s.tickNow s.currentAnchor + period →
      0 < sub32 (add32 s.currentAnchor X) s.tickNow ∧
        sub32 (add32 s.currentAnchor X) s.tickNow ≤ period := by
    intro X h1 h2
    have e : sub32 (add32 s.currentAnchor X) s.tickNow
        = ((s.currentAnchor + X) % 4294967296 + (4294967296 - s.tickNow % 4294967296))
            % 4294967296 := rfl
    rw [e]
    generalize sub32 s.tickNow s.currentAnchor = L at *
    omega
  by_cases hl : sub32 s.tickNow s.currentAnchor < period
  · have hv : s.vTaskDelayUntil period =
        { s with overrideSet := true, overrideNext := add32 s.currentAnchor period } := by
      simp [Sched.vTaskDelayUntil, hcur, hpU, hp0, hl]
    rw [hv]
    have := hsub period hl (by omega)
    refine ⟨1, by omega, by omega, fun j hj _ => hj, rfl, ?_, this.1, this.2⟩
    simp [add32]
  · have hdiv := Nat.div_add_mod (sub32 s.tickNow s.currentAnchor) period
    have hmod := Nat.mod_lt (sub32 s.tickNow s.currentAnchor) hp
    have hmul : (sub32 s.tickNow s.currentAnchor / period + 1) * period
        = period * (sub32 s.tickNow s.currentAnchor / period) + period := by ring
    have hdle : sub32 s.tickNow s.currentAnchor / period ≤ sub32 s.tickNow s.currentAnchor :=
      Nat.div_le_self _ _
    have hlo : sub32 s.tickNow s.currentAnchor
        < (sub32 s.tickNow s.currentAnchor / period + 1) * period := by omega
    have hhi : (sub32 s.tickNow s.currentAnchor / period + 1) * period
        ≤ sub32 s.tickNow s.currentAnchor + period := by omega
    have hk : add32 (sub32 s.tickNow s.currentAnchor / period) 1
        = sub32 s.tickNow s.currentAnchor / period + 1 := by
      unfold add32
      apply Nat.mod_eq_of_lt
      show _ < 4294967296
      omega
    have hm32 : mul32 (sub32 s.tickNow s.currentAnchor / period + 1) period
        = (sub32 s.tickNow s.currentAnchor / period + 1) * period := by
      unfold mul32
      apply Nat.mod_eq_of_lt
      show _ < 4294967296
      omega
    have hv : s.vTaskDelayUntil period =
        { s with overrideSet := true,
                 overrideNext := add32 s.currentAnchor
                   ((sub32 s.tickNow s.currentAnchor / period + 1) * period) } := by
      rw [← hm32, ← hk]
      simp [Sched.vTaskDelayUntil, hcur, hpU, hp0, hl]
    rw [hv]
    have hs := hsub _ hlo hhi
    refine ⟨sub32 s.tickNow s.currentAnchor / period + 1, Nat.succ_pos _, hlo, ?_, rfl, ?_,
      hs.1, hs.2⟩
    · intro j _ hlt
      have := (Nat.div_lt_iff_lt_mul hp).2 hlt
      omega
    · simp [add32]

/-- C7, witness: anchored at 0 and running at tick 11 with period 5, the wake
requested is 15 (`m = 3`). -/
theorem delayUntil_first_grid_point_witness :
    (Sched.hasCurrentTask { (periodicStart 8) with currentId := 0, tickNow := 11 } = true ∧
      0 < 5 ∧
      sub32 (Sched.tickNow { (periodicStart 8) with currentId := 0, tickNow := 11 })
        (Sched.currentAnchor { (periodicStart 8) with currentId := 0, tickNow := 11 }) + 5 < U32) ∧
    (Sched.vTaskDelayUntil { (periodicStart 8) with currentId := 0, tickNow := 11 } 5).overrideNext
      = 15 ∧
    ∃ m, 0 < m ∧
      sub32 (Sched.tickNow { (periodicStart 8) with currentId := 0, tickNow := 11 })
        (Sched.currentAnchor { (periodicStart 8) with currentId := 0, tickNow := 11 }) < m * 5 :=
  ⟨by decide, by decide,
    (delayUntil_first_grid_point { (periodicStart 8) with currentId := 0, tickNow := 11 } 5
      (by decide) (by decide) (by decide)).imp (fun _ hm => ⟨hm.1, hm.2.1⟩)⟩

/-! ## C8: calling `run` twice with one timestamp -/

/-- C8 (as stated, refuted): in the cadence-gate scenario `now = 5` is five
quanta ahead of `lastTick = 0`; the second `run(5)` passes the gate, dispatches
the task again and leaves another state than the first one did. -/
theorem run_twice_not_idempotent :
    dispatched (run 1 yieldCode yieldStart 5).2 = [0] ∧
      dispatched (run 1 yieldCode (run 1 yieldCode yieldStart 5).1 5).2 = [0] ∧
      (run 1 yieldCode (run 1 yieldCode yieldStart 5).1 5).1
        ≠ (run 1 yieldCode yieldStart 5).1 := by
  decide

/-- C8 (amended): when `now` is less than two quanta ahead of `lastTick`, a
second `run(now)` is rejected by the cadence gate: it leaves the state of the
first call unchanged and invokes nothing. -/
theorem run_twice_gated (N : Nat) (code : Nat → Prog) (s : Sched) (now : Nat)
    (h : sub32 now s.lastTick < 2 * s.tickMs) :
    run N code (run N code s now).1 now = ((run N code s now).1, []) := by
  by_cases hg : sub32 now s.lastTick < s.tickMs
  · rw [run_gated N code s now hg]
    exact run_gated N code s now hg
  · obtain ⟨h1, h2, _⟩ := run_clock N code s now hg
    apply run_gated
    rw [h1, h2]
    simp only [sub32, add32, U32] at *
    omega

/-- C8, witness: the cadence-gate scenario with `now = 1`; the first call
dispatches the task, the second does nothing. -/
theorem run_twice_gated_witness :
    (sub32 1 yieldStart.lastTick < 2 * yieldStart.tickMs ∧
      dispatched (run 1 yieldCode yieldStart 1).2 = [0]) ∧
    run 1 yieldCode (run 1 yieldCode yieldStart 1).1 1
      = ((run 1 yieldCode yieldStart 1).1, []) :=
  ⟨by decide, run_twice_gated 1 yieldCode yieldStart 1 (by decide)⟩

/-! ## C9: the periodic scenario -/

/-- C9 (as stated, refuted): driving `run(t)` for `t = 0, 1, ..., 25` in the
periodic scenario does not dispatch A in the calls with `t = 0, 10, 20`. -/
theorem periodic_not_at_0_10_20 :
    dispatchTimes 8 periodicCode 0 (periodicStart 8) (List.range 26) ≠ [0, 10, 20] := by
  decide

/-- C9 (amended): for every scheduler size from 1 to 32, driving `run(t)` for
`t = 0, 1, ..., 25` in the periodic scenario dispatches A exactly three times,
in the calls with `t = 1`, `t = 11` and `t = 21`; the call with `t = 0` is
rejected by the cadence gate. -/
theorem periodic_at_1_11_21 (N : Nat) (h1 : 1 ≤ N) (h32 : N ≤ 32) :
    dispatchTimes N periodicCode 0 (periodicStart N) (List.range 26) = [1, 11, 21] ∧
      run N periodicCode (periodicStart N) 0 = (periodicStart N, []) := by
  interval_cases N <;> decide

/-- C9, witness: the scheduler for 8 tasks. -/
theorem periodic_at_1_11_21_witness :
    (1 ≤ 8 ∧ 8 ≤ 32) ∧
    dispatchTimes 8 periodicCode 0 (periodicStart 8) (List.range 26) = [1, 11, 21] ∧
      run 8 periodicCode (periodicStart 8) 0 = (periodicStart 8, []) :=
  ⟨by decide, periodic_at_1_11_21 8 (by decide) (by decide)⟩

/-! ## C10: a notification after the task ran -/

set_option maxRecDepth 100000 in
/-- C10 (code defect): in the "lost wake" scenario B notifies A at tick
3000000001 after A has run in that tick; when `run` returns A is valid, ready,
due and holds one notification, but `run` has overwritten `nextDue` with
3000001001. The next call of `run` passes the gate (tick 3000000002) and
returns on the fast path without invoking A, and so do the calls that follow:
A is dispatched again only at tick 3000001001. -/
theorem notified_task_not_run_next_tick :
    (run 8 lostWakeCode lostWakeStart 3000000001).2
        = [.dispatch 0 3000000000, .call (.delay 1000), .dispatch 1 3000000000,
            .call (.notifyGive 0), .call (.delay 1000)] ∧
      (Sched.isTaskIdValid 8 (run 8 lostWakeCode lostWakeStart 3000000001).1 0 = true ∧
        ((run 8 lostWakeCode lostWakeStart 3000000001).1.task 0).ready = true ∧
        ((run 8 lostWakeCode lostWakeStart 3000000001).1.task 0).next = 3000000001 ∧
        (run 8 lostWakeCode lostWakeStart 3000000001).1.notify 0 = 1 ∧
        (run 8 lostWakeCode lostWakeStart 3000000001).1.nextDue = 3000001001) ∧
      (run 8 lostWakeCode (run 8 lostWakeCode lostWakeStart 3000000001).1
        3000000002).1.tickNow = 3000000002 ∧
      (run 8 lostWakeCode (run 8 lostWakeCode lostWakeStart 3000000001).1 3000000002).2 = [] ∧
      dispatchTimes 8 lostWakeCode 0 (run 8 lostWakeCode lostWakeStart 3000000001).1
        (List.range' 3000000002 1000) = [3000001001] := by
  decide

/-! ## C12: the cadence gate -/

/-- C12: for every scheduler state and timestamp, `run(now)` with
`(now - lastTick) mod 2^32 < tickMs` returns with the whole state unchanged and
no event (no task function entered); otherwise it leaves `lastTick` and
`tickNow` both equal to `(lastTick + tickMs) mod 2^32`, one quantum ahead,
however far `now` is ahead of `lastTick`. -/
theorem run_consumes_one_quantum (N : Nat) (code : Nat → Prog) (s : Sched) (now : Nat) :
    (sub32 now s.lastTick < s.tickMs → run N code s now = (s, [])) ∧
      (¬ sub32 now s.lastTick < s.tickMs →
        (run N code s now).1.lastTick = (s.lastTick + s.tickMs) % 4294967296 ∧
          (run N code s now).1.tickNow = (s.lastTick + s.tickMs) % 4294967296 ∧
          (run N code s now).1.tickMs = s.tickMs) := by
  refine ⟨run_gated N code s now, fun h => ?_⟩
  obtain ⟨h1, h2, h3⟩ := run_clock N code s now h
  exact ⟨h1, h3, h2⟩

/-! ## C13: the contract of `xTaskCreate` -/

theorem Sched.firstFree_none (t : List Task) (n i : Nat) (h : Sched.firstFree t n i = none) :
    ∀ j, i ≤ j → j < i + n → (t.getD j default).meta.inUse = true := by
  induction n generalizing i with
  | zero => intro j h1 h2; omega
  | succ n ih =>
    unfold Sched.firstFree at h
    split at h
    · cases h
    · rename_i hif
      intro j h1 h2
      by_cases hj : j = i
      · subst hj
        simpa using hif
      · exact ih (i + 1) h j (by omega) (by omega)

theorem Sched.firstFree_least (t : List Task) (n i f : Nat) (h : Sched.firstFree t n i = some f) :
    ∀ j, i ≤ j → j < f → (t.getD j default).meta.inUse = true := by
  induction n generalizing i with
  | zero => cases h
  | succ n ih =>
    unfold Sched.firstFree at h
    split at h
    · cases h
      intro j h1 h2; omega
    · rename_i hif
      intro j h1 h2
      by_cases hj : j = i
      · subst hj
        simpa using hif
      · exact ih (i + 1) h j (by omega) h2

theorem TaskMeta.prio_setPrio (m : TaskMeta) (p : Nat) (hm : m.v < 4) :
    (m.setPrio p).prio = p &&& 7 := by
  have h7 : p &&& 7 = p % 8 := Nat.and_pow_two_sub_one_eq_mod p 3
  unfold TaskMeta.setPrio TaskMeta.prio
  dsimp only
  rw [h7]
  have hq : p % 8 < 8 := Nat.mod_lt _ (by norm_num)
  generalize p % 8 = q at hq
  obtain ⟨v⟩ := m
  dsimp only at hm ⊢
  interval_cases v <;> interval_cases q <;> decide

/-- C13: in a scheduler whose task and counter arrays have `N <= 255` entries,
`create(cb, delay, prio)` returns `INVALID_TASK_ID` and leaves the state
unchanged if and only if `cb` is null or every slot below `N` is in use;
otherwise it returns the least index of a free slot, a value below `N` and
other than `INVALID_TASK_ID`, and afterwards that slot is in use and enabled
with priority `prio & 7`, wake time `(tickNow + delay) mod 2^32`, callback `cb`
and notify counter 0, every other slot and counter being unchanged. -/
theorem create_contract (N : Nat) (s : Sched) (cb : Option Nat) (delayMs prio : Nat)
    (hN : N ≤ 255) (ht : s.t.length = N) (hn : s.notifyCnt.length = N) :
    (((s.xTaskCreate N cb delayMs prio).2 = INVALID_TASK_ID ∧
        (s.xTaskCreate N cb delayMs prio).1 = s) ↔
      (cb = none ∨ ∀ i, i < N → (s.task i).meta.inUse = true)) ∧
    (¬ (cb = none ∨ ∀ i, i < N → (s.task i).meta.inUse = true) →
      (s.xTaskCreate N cb delayMs prio).2 < N ∧
      (s.xTaskCreate N cb delayMs prio).2 ≠ INVALID_TASK_ID ∧
      (s.task (s.xTaskCreate N cb delayMs prio).2).meta.inUse = false ∧
      (∀ j, j < (s.xTaskCreate N cb delayMs prio).2 → (s.task j).meta.inUse = true) ∧
      (((s.xTaskCreate N cb delayMs prio).1.task
          (s.xTaskCreate N cb delayMs prio).2).meta.inUse = true ∧
        ((s.xTaskCreate N cb delayMs prio).1.task
          (s.xTaskCreate N cb delayMs prio).2).meta.enabled = true ∧
        ((s.xTaskCreate N cb delayMs prio).1.task
          (s.xTaskCreate N cb delayMs prio).2).meta.prio = prio &&& 7 ∧
        ((s.xTaskCreate N cb delayMs prio).1.task
          (s.xTaskCreate N cb delayMs prio).2).next = (s.tickNow + delayMs) % 4294967296 ∧
        ((s.xTaskCreate N cb delayMs prio).1.task
          (s.xTaskCreate N cb delayMs prio).2).cb = cb ∧
        (s.xTaskCreate N cb delayMs prio).1.notify (s.xTaskCreate N cb delayMs prio).2 = 0) ∧
      ∀ j, j ≠ (s.xTaskCreate N cb delayMs prio).2 →
        (s.xTaskCreate N cb delayMs prio).1.task j = s.task j ∧
          (s.xTaskCreate N cb delayMs prio).1.notify j = s.notify j) := by
  cases cb with
  | none =>
    refine ⟨⟨fun _ => Or.inl rfl, fun _ => ⟨rfl, rfl⟩⟩, fun h => absurd (Or.inl rfl) h⟩
  | some f =>
    cases hff : Sched.firstFree s.t N 0 with
    | none =>
      have hall : ∀ i, i < N → (s.task i).meta.inUse = true := fun i hi =>
        Sched.firstFree_none s.t N 0 hff i (Nat.zero_le i) (by omega)
      have hr : s.xTaskCreate N (some f) delayMs prio = (s, INVALID_TASK_ID) := by
        unfold Sched.xTaskCreate
        simp only [hff]
      rw [hr]
      exact ⟨⟨fun _ => Or.inr hall, fun _ => ⟨rfl, rfl⟩⟩, fun h => absurd (Or.inr hall) h⟩
    | some i =>
      have hi := Sched.firstFree_lt s.t N 0 i hff
      have hfree : (s.task i).meta.inUse = false := Sched.firstFree_free s.t N 0 i hff
      have hleast := Sched.firstFree_least s.t N 0 i hff
      have h2 : (s.xTaskCreate N (some f) delayMs prio).2 = i := by
        unfold Sched.xTaskCreate
        simp only [hff]
        split <;> rfl
      have ht1 : (s.xTaskCreate N (some f) delayMs prio).1.t
          = s.t.set i ⟨add32 s.tickNow delayMs, some f,
              ((((s.task i).meta.clear).setInUse true).setEnabled true).setPrio prio⟩ := by
        unfold Sched.xTaskCreate
        simp only [hff]
        split <;> rfl
      have hn1 : (s.xTaskCreate N (some f) delayMs prio).1.notifyCnt = s.notifyCnt.set i 0 := by
        unfold Sched.xTaskCreate
        simp only [hff]
        split <;> rfl
      have htask : ∀ j, (s.xTaskCreate N (some f) delayMs prio).1.task j
          = (s.t.set i ⟨add32 s.tickNow delayMs, some f,
              ((((s.task i).meta.clear).setInUse true).setEnabled true).setPrio prio⟩).getD
              j default := by
        intro j
        show (s.xTaskCreate N (some f) delayMs prio).1.t.getD j default = _
        rw [ht1]
      have hnot : ∀ j, (s.xTaskCreate N (some f) delayMs prio).1.notify j
          = (s.notifyCnt.set i 0).getD j 0 := by
        intro j
        show (s.xTaskCreate N (some f) delayMs prio).1.notifyCnt.getD j 0 = _
        rw [hn1]
      have hm3 : (((s.task i).meta.clear).setInUse true).setEnabled true = ⟨3⟩ := by
        simp only [TaskMeta.clear, TaskMeta.setInUse, TaskMeta.setEnabled, TaskMeta.enable,
          if_true]
        decide
      have hne : (s.xTaskCreate N (some f) delayMs prio).1 ≠ s := by
        intro he
        have h1 := htask i
        rw [he, getD_set_self _ _ _ _ (by omega)] at h1
        rw [h1] at hfree
        rw [TaskMeta.inUse_setPrio, hm3] at hfree
        exact absurd hfree (by decide)
      refine ⟨⟨fun h => absurd h.2 hne, fun h => ?_⟩, fun _ => ?_⟩
      · rcases h with h | h
        · cases h
        · have := h i (by omega)
          rw [hfree] at this
          cases this
      · rw [h2]
        refine ⟨by omega, by unfold INVALID_TASK_ID; omega, hfree, fun j hj => hleast j (Nat.zero_le j) hj, ?_, ?_⟩
        · rw [htask i, hnot i, getD_set_self _ _ _ _ (by omega),
            getD_set_self _ _ _ _ (by omega)]
          refine ⟨?_, ?_, ?_, rfl, rfl, rfl⟩
          · rw [TaskMeta.inUse_setPrio, hm3]
            decide
          · rw [TaskMeta.enabled_setPrio, hm3]
            decide
          · rw [hm3]
            exact TaskMeta.prio_setPrio ⟨3⟩ prio (by decide)
        · intro j hj
          rw [htask j, hnot j, getD_set_ne _ _ _ _ _ (Ne.symm hj),
            getD_set_ne _ _ _ _ _ (Ne.symm hj)]
          exact ⟨rfl, rfl⟩

/-- C13, witness: the first `create` in a fresh scheduler for 8 tasks, with
priority argument 13: slot 0 is taken and the priority stored is 5. -/
theorem create_contract_witness :
    (8 ≤ 255 ∧ (Sched.init 8 1 0).t.length = 8 ∧ (Sched.init 8 1 0).notifyCnt.length = 8) ∧
    ((Sched.init 8 1 0).xTaskCreate 8 (some 0) 10 13).2 = 0 ∧
    (((Sched.init 8 1 0).xTaskCreate 8 (some 0) 10 13).1.task 0).meta.prio = 5 :=
  ⟨by decide, by decide,
    ((create_contract 8 (Sched.init 8 1 0) (some 0) 10 13 (by decide) (by decide) (by decide)).2
      (by decide)).2.2.2.2.1.2.2.1⟩

/-! ## C14: invalid handles -/

/-- C14: for a handle that is out of range (`h >= N`) or names a free slot,
`delete`, `suspend`, `resume`, `resume_after`, `notify_give` and `priority_set`
return the state they were given, unchanged in every member, and
`priority_get` returns 0. -/
theorem invalid_handle_noop (N : Nat) (s : Sched) (h : Nat)
    (hinv : ¬ h < N ∨ (s.task h).meta.inUse = false) :
    s.vTaskDelete N h = s ∧ s.vTaskSuspend N h = s ∧ s.vTaskResume N h = s ∧
      (∀ ms, s.vTaskResumeAfter N h ms = s) ∧ s.vTaskNotifyGive N h = s ∧
      (∀ p, s.vTaskPrioritySet N h p = s) ∧ s.uxTaskPriorityGet N h = 0 := by
  have hv : s.isTaskIdValid N h = false := by
    unfold Sched.isTaskIdValid
    rcases hinv with h1 | h1
    · simp [h1]
    · simp [h1]
  refine ⟨?_, ?_, ?_, ?_, ?_, ?_, ?_⟩
  · simp [Sched.vTaskDelete, hv]
  · simp [Sched.vTaskSuspend, hv]
  · simp [Sched.vTaskResume, hv]
  · intro ms; simp [Sched.vTaskResumeAfter, hv]
  · simp [Sched.vTaskNotifyGive, hv]
  · intro p; simp [Sched.vTaskPrioritySet, hv]
  · simp [Sched.uxTaskPriorityGet, hv]

/-- C14, witness: the handle `0xFF` and the free slot 3 of the periodic
scenario. -/
theorem invalid_handle_noop_witness :
    ((¬ 255 < 8 ∨ ((periodicStart 8).task 255).meta.inUse = false) ∧
      ((periodicStart 8).task 3).meta.inUse = false) ∧
    (periodicStart 8).vTaskNotifyGive 8 255 = periodicStart 8 ∧
    (periodicStart 8).vTaskDelete 8 3 = periodicStart 8 :=
  ⟨by decide,
    (invalid_handle_noop 8 (periodicStart 8) 255 (Or.inl (by decide))).2.2.2.2.1,
    (invalid_handle_noop 8 (periodicStart 8) 3 (Or.inr (by decide))).1⟩

/-! ## C15, C16: the ring buffer `FixedQueue` -/

set_option maxRecDepth 100000 in
theorem pow2_of_land (c : Fin 256) : c.val ≠ 0 → c.val &&& (c.val - 1) = 0 →
    c.val = 1 ∨ c.val = 2 ∨ c.val = 4 ∨ c.val = 8 ∨ c.val = 16 ∨ c.val = 32 ∨ c.val = 64 ∨ c.val = 128 := by
  revert c
  decide

theorem FixedQueue.inc_eq (CAP i : Nat) (h1 : 1 ≤ CAP) (h2 : CAP ≤ 255) (hi : i < CAP) :
    FixedQueue.inc CAP i = (i + 1) % CAP := by
  unfold FixedQueue.inc
  rw [if_neg (by omega)]
  split
  · rename_i hp
    have h := pow2_of_land ⟨CAP, by omega⟩ (by simpa using (by omega : CAP ≠ 0)) hp
    simp only at h
    have key : ∀ k, CAP = 2 ^ k → ((i + 1) &&& (CAP - 1)) % 256 = (i + 1) % CAP := by
      intro k hk
      rw [hk, Nat.and_pow_two_sub_one_eq_mod]
      have : (i + 1) % 2 ^ k < 2 ^ k := Nat.mod_lt _ (by positivity)
      omega
    rcases h with h | h | h | h | h | h | h | h
    · exact key 0 (by rw [h]; norm_num)
    · exact key 1 (by rw [h]; norm_num)
    · exact key 2 (by rw [h]; norm_num)
    · exact key 3 (by rw [h]; norm_num)
    · exact key 4 (by rw [h]; norm_num)
    · exact key 5 (by rw [h]; norm_num)
    · exact key 6 (by rw [h]; norm_num)
    · exact key 7 (by rw [h]; norm_num)
  · have : (i + 1) % 256 = i + 1 := Nat.mod_eq_of_lt (by omega)
    rw [this]
    split
    · rename_i h; rw [h]; simp
    · rename_i h
      rw [Nat.mod_eq_of_lt (by omega)]


theorem mod_add_inj (CAP a j k : Nat) (hj : j < CAP) (hk : k < CAP)
    (h : (a + j) % CAP = (a + k) % CAP) : j = k := by
  have h1 : j ≡ k [MOD CAP] := Nat.ModEq.add_left_cancel' a h
  have h2 : j % CAP = k % CAP := h1
  rwa [Nat.mod_eq_of_lt hj, Nat.mod_eq_of_lt hk] at h2

namespace FixedQueue

variable {T : Type} [Inhabited T]

theorem toList_length (CAP : Nat) (q : FixedQueue T) : (q.toList CAP).length = q.count := by
  simp [toList]

theorem toList_getD (CAP : Nat) (q : FixedQueue T) (k : Nat) (hk : k < q.count) :
    (q.toList CAP).getD k default = q.buf.getD ((q.tail + k) % CAP) default := by
  simp [toList, List.getD_eq_getElem?_getD, hk]

theorem init_inv (CAP : Nat) (h1 : 1 ≤ CAP) : (init CAP : FixedQueue T).Inv CAP := by
  refine ⟨by simp [init], ?_, ?_, Nat.zero_le _, ?_⟩
  · show 0 < CAP
    omega
  · show 0 < CAP
    omega
  · show 0 = (0 + 0) % CAP
    simp

omit [Inhabited T] in
theorem try_push_full (CAP : Nat) (q : FixedQueue T) (v : T) (hf : q.count = CAP) :
    q.try_push CAP v = (q, false) := by
  simp [try_push, full, hf]

theorem try_push_ok (CAP : Nat) (q : FixedQueue T) (v : T) (h1 : 1 ≤ CAP) (h2 : CAP ≤ 255)
    (hinv : q.Inv CAP) (hf : q.count ≠ CAP) :
    (q.try_push CAP v).2 = true ∧ (q.try_push CAP v).1.Inv CAP ∧
      (q.try_push CAP v).1.count = q.count + 1 ∧
      (q.try_push CAP v).1.toList CAP = q.toList CAP ++ [v] := by
  obtain ⟨hlen, hh, ht, hc, hht⟩ := hinv
  have hr : q.try_push CAP v =
      ({ q with buf := q.buf.set q.head v, head := (q.head + 1) % CAP, count := q.count + 1 },
        true) := by
    unfold try_push
    rw [if_neg (by simp [full, hf]), inc_eq CAP q.head h1 h2 hh,
      Nat.mod_eq_of_lt (by omega : q.count + 1 < 256)]
  rw [hr]
  refine ⟨rfl, ⟨by simp [hlen], Nat.mod_lt _ (by omega), ht, by show q.count + 1 ≤ CAP; omega, ?_⟩,
    rfl, ?_⟩
  · show (q.head + 1) % CAP = (q.tail + (q.count + 1)) % CAP
    rw [hht, Nat.mod_add_mod, Nat.add_assoc]
  · apply List.ext_getElem
    · simp [toList]
    · intro n hn1 hn2
      simp only [toList, List.length_map, List.length_range] at hn1
      simp only [toList, List.getElem_map, List.getElem_range]
      by_cases hnc : n < q.count
      · rw [List.getElem_append_left (by simpa using hnc)]
        simp only [List.getElem_map, List.getElem_range]
        apply getD_set_ne
        intro he
        rw [hht] at he
        have := mod_add_inj CAP q.tail q.count n (by omega) (by omega) he
        omega
      · have hn : n = q.count := by omega
        subst hn
        rw [List.getElem_append_right (by simp)]
        simp only [List.length_map, List.length_range, Nat.sub_self, List.getElem_cons_zero]
        rw [← hht]
        exact getD_set_self _ _ _ _ (by omega)

theorem try_pop_empty (CAP : Nat) (q : FixedQueue T) (he : q.count = 0) :
    q.try_pop CAP = (q, false, none) := by
  simp [try_pop, empty, he]

theorem try_pop_ok (CAP : Nat) (q : FixedQueue T) (h1 : 1 ≤ CAP) (h2 : CAP ≤ 255)
    (hinv : q.Inv CAP) (he : q.count ≠ 0) :
    (q.try_pop CAP).2.1 = true ∧ (q.try_pop CAP).1.Inv CAP ∧
      (q.try_pop CAP).1.count = q.count - 1 ∧
      (q.try_pop CAP).1.buf = q.buf ∧
      ∃ x, (q.try_pop CAP).2.2 = some x ∧ q.peek = (true, some x) ∧
        q.toList CAP = x :: (q.try_pop CAP).1.toList CAP := by
  obtain ⟨hlen, hh, ht, hc, hht⟩ := hinv
  have hr : q.try_pop CAP =
      ({ q with tail := (q.tail + 1) % CAP, count := q.count - 1 }, true,
        some (q.buf.getD q.tail default)) := by
    unfold try_pop
    rw [if_neg (by simp [empty, he]), inc_eq CAP q.tail h1 h2 ht]
    have : (q.count + 255) % 256 = q.count - 1 := by omega
    rw [this]
  rw [hr]
  refine ⟨rfl, ⟨hlen, hh, Nat.mod_lt _ (by omega), by show q.count - 1 ≤ CAP; omega, ?_⟩, rfl, rfl,
    q.buf.getD q.tail default, rfl, by simp [peek, empty, he], ?_⟩
  · show q.head = ((q.tail + 1) % CAP + (q.count - 1)) % CAP
    rw [hht, Nat.mod_add_mod]
    congr 1
    omega
  · apply List.ext_getElem
    · simp [toList]
      omega
    · intro n hn1 hn2
      simp only [toList, List.length_map, List.length_range] at hn1
      simp only [toList, List.getElem_map, List.getElem_range]
      cases n with
      | zero =>
        simp only [List.getElem_cons_zero, Nat.add_zero]
        rw [Nat.mod_eq_of_lt ht]
      | succ n =>
        simp only [List.getElem_cons_succ, List.getElem_map, List.getElem_range]
        rw [Nat.mod_add_mod]
        congr 2
        omega


theorem step_refines (CAP : Nat) (q : FixedQueue T) (op : QueueOp T) (h1 : 1 ≤ CAP)
    (h2 : CAP ≤ 255) (hinv : q.Inv CAP) :
    (q.step CAP op).1.Inv CAP ∧
      (q.step CAP op).1.toList CAP = (fifoStep CAP (q.toList CAP) op).1 ∧
      (q.step CAP op).2 = (fifoStep CAP (q.toList CAP) op).2 ∧
      ((q.step CAP op).2.1 = false → (q.step CAP op).1 = q) := by
  cases op with
  | push v =>
    simp only [step, fifoStep, toList_length]
    by_cases hf : q.count = CAP
    · rw [try_push_full CAP q v hf, if_pos hf]
      exact ⟨hinv, rfl, rfl, fun _ => rfl⟩
    · obtain ⟨hr, hi, _, hl⟩ := try_push_ok CAP q v h1 h2 hinv hf
      rw [if_neg hf, hr]
      exact ⟨hi, hl, rfl, fun h => by cases h⟩
  | pop =>
    simp only [step]
    by_cases he : q.count = 0
    · have hl : q.toList CAP = [] := List.eq_nil_of_length_eq_zero (by rw [toList_length, he])
      rw [try_pop_empty CAP q he, hl]
      exact ⟨hinv, rfl, rfl, fun _ => rfl⟩
    · obtain ⟨hr, hi, _, _, x, hx, _, hl⟩ := try_pop_ok CAP q h1 h2 hinv he
      rw [hl]
      refine ⟨hi, rfl, ?_, fun h => ?_⟩
      · show (q.try_pop CAP).2 = (true, some x)
        exact Prod.ext hr hx
      · rw [hr] at h
        cases h
  | peek =>
    simp only [step]
    by_cases he : q.count = 0
    · have hl : q.toList CAP = [] := List.eq_nil_of_length_eq_zero (by rw [toList_length, he])
      rw [hl]
      refine ⟨hinv, rfl, ?_, fun _ => trivial⟩
      simp [peek, empty, he, fifoStep]
    · obtain ⟨_, _, _, _, x, _, hx, hl⟩ := try_pop_ok CAP q h1 h2 hinv he
      rw [hl, hx]
      exact ⟨hinv, rfl, rfl, fun _ => trivial⟩

theorem steps_refines (CAP : Nat) (q : FixedQueue T) (ops : List (QueueOp T)) (h1 : 1 ≤ CAP)
    (h2 : CAP ≤ 255) (hinv : q.Inv CAP) :
    (steps CAP q ops).Inv CAP ∧
      (steps CAP q ops).toList CAP = fifoSteps CAP (q.toList CAP) ops := by
  induction ops generalizing q with
  | nil => exact ⟨hinv, rfl⟩
  | cons op ops ih =>
    obtain ⟨hi, hl, _, _⟩ := step_refines CAP q op h1 h2 hinv
    have := ih (q.step CAP op).1 hi
    rw [hl] at this
    exact this

end FixedQueue

/-- C15: for every capacity from 1 to 255 and every sequence `ops` of
`try_push`, `try_pop` and `peek` calls made on a freshly constructed queue, the
queue then holds, oldest first, exactly the elements of the bounded FIFO list
after the same calls, `size()` is the length of that list, and any next call
`op` returns the same value and output as on the list (so `try_push` fails
exactly when the list has `CAP` elements, `try_pop` and `peek` exactly when it
is empty, and the element output is the oldest one) and leaves the queue
holding the list that `op` leaves; a call that fails leaves every member of
the queue unchanged. -/
theorem fixedQueue_refines_fifo {T : Type} [Inhabited T] (CAP : Nat) (ops : List (QueueOp T))
    (op : QueueOp T) (h1 : 1 ≤ CAP) (h2 : CAP ≤ 255) :
    (FixedQueue.steps CAP (FixedQueue.init CAP) ops).toList CAP = fifoSteps CAP [] ops ∧
      (FixedQueue.steps CAP (FixedQueue.init CAP) ops).size = (fifoSteps CAP [] ops).length ∧
      ((FixedQueue.steps CAP (FixedQueue.init CAP) ops).step CAP op).2
        = (fifoStep CAP (fifoSteps CAP [] ops) op).2 ∧
      (((FixedQueue.steps CAP (FixedQueue.init CAP) ops).step CAP op).1).toList CAP
        = (fifoStep CAP (fifoSteps CAP [] ops) op).1 ∧
      (((FixedQueue.steps CAP (FixedQueue.init CAP) ops).step CAP op).2.1 = false →
        ((FixedQueue.steps CAP (FixedQueue.init CAP) ops).step CAP op).1
          = FixedQueue.steps CAP (FixedQueue.init CAP) ops) := by
  obtain ⟨hi, hl⟩ := FixedQueue.steps_refines CAP (FixedQueue.init CAP : FixedQueue T) ops h1 h2
    (FixedQueue.init_inv CAP h1)
  have h0 : (FixedQueue.init CAP : FixedQueue T).toList CAP = [] := rfl
  rw [h0] at hl
  obtain ⟨_, hl2, hr, hn⟩ := FixedQueue.step_refines CAP _ op h1 h2 hi
  rw [hl] at hl2 hr
  refine ⟨hl, ?_, hr, hl2, hn⟩
  rw [← hl, FixedQueue.toList_length]
  rfl

/-- C15, witness: capacity 3; after `push 10, push 20, pop, push 30, push 40`
the queue is full, `push 50` fails, and the next `pop` outputs 20. -/
theorem fixedQueue_refines_fifo_witness :
    (1 ≤ 3 ∧ 3 ≤ 255) ∧
    (FixedQueue.steps 3 (FixedQueue.init 3)
        [QueueOp.push 10, .push 20, .pop, .push 30, .push 40, .push 50, .peek]).toList 3
      = [20, 30, 40] ∧
    ((FixedQueue.steps 3 (FixedQueue.init 3)
        [QueueOp.push 10, .push 20, .pop, .push 30, .push 40, .push 50, .peek]).step 3 .pop).2
      = (true, some 20) :=
  ⟨by decide,
    (fixedQueue_refines_fifo 3 [QueueOp.push 10, .push 20, .pop, .push 30, .push 40, .push 50, .peek]
      .pop (by decide) (by decide)).1,
    (fixedQueue_refines_fifo 3 [QueueOp.push 10, .push 20, .pop, .push 30, .push 40, .push 50, .peek]
      .pop (by decide) (by decide)).2.2.1⟩

/-- C16: for every capacity from 1 to 255 and every queue satisfying the ring
invariant, if the queue is full, `push_overwrite(v)` returns true, `size()`
stays `CAP`, and the queue then holds, oldest first, the former elements
without the oldest one followed by `v`; if the queue is not full,
`push_overwrite(v)` is `try_push(v)`. -/
theorem push_overwrite_drops_oldest {T : Type} [Inhabited T] (CAP : Nat) (q : FixedQueue T) (v : T)
    (h1 : 1 ≤ CAP) (h2 : CAP ≤ 255) (hinv : q.Inv CAP) :
    (q.count = CAP →
      (q.push_overwrite CAP v).2 = true ∧ (q.push_overwrite CAP v).1.size = CAP ∧
        (q.push_overwrite CAP v).1.Inv CAP ∧
        (q.push_overwrite CAP v).1.toList CAP = (q.toList CAP).tail ++ [v]) ∧
    (q.count ≠ CAP → q.push_overwrite CAP v = q.try_push CAP v) := by
  constructor
  · intro hf
    obtain ⟨hlen, hh, ht, hc, hht⟩ := hinv
    have hhead : q.head = q.tail := by
      rw [hht, hf, Nat.add_mod_right, Nat.mod_eq_of_lt ht]
    have hr : q.push_overwrite CAP v =
        ({ q with buf := q.buf.set q.head v, head := (q.head + 1) % CAP,
                  tail := (q.tail + 1) % CAP }, true) := by
      unfold FixedQueue.push_overwrite
      rw [if_pos (by simp [FixedQueue.full, hf]), FixedQueue.inc_eq CAP q.head h1 h2 hh,
        FixedQueue.inc_eq CAP q.tail h1 h2 ht]
    rw [hr]
    refine ⟨rfl, hf, ⟨by simp [hlen], Nat.mod_lt _ (by omega), Nat.mod_lt _ (by omega), hc, ?_⟩, ?_⟩
    · show (q.head + 1) % CAP = ((q.tail + 1) % CAP + q.count) % CAP
      rw [hhead, hf, Nat.add_mod_right, Nat.mod_mod]
    · apply List.ext_getElem
      · simp [FixedQueue.toList]
        omega
      · intro n hn1 hn2
        simp only [FixedQueue.toList, List.length_map, List.length_range] at hn1
        simp only [FixedQueue.toList, List.getElem_map, List.getElem_range]
        rw [Nat.mod_add_mod]
        by_cases hnc : n + 1 < q.count
        · rw [List.getElem_append_left (by simp; omega)]
          simp only [List.getElem_tail, List.getElem_map, List.getElem_range]
          rw [getD_set_ne, Nat.add_assoc, Nat.add_comm 1 n]
          intro he
          have h3 : (q.tail + 0) % CAP = (q.tail + (n + 1)) % CAP := by
            rw [Nat.add_zero, Nat.mod_eq_of_lt ht, ← hhead, he]
            congr 1
            omega
          have := mod_add_inj CAP q.tail 0 (n + 1) (by omega) (by omega) h3
          omega
        · have hn : n + 1 = q.count := by omega
          rw [List.getElem_append_right (by simp; omega)]
          simp only [List.length_tail, List.length_map, List.length_range]
          have h4 : (q.tail + 1 + n) % CAP = q.head := by
            rw [hhead, Nat.add_assoc, Nat.add_comm 1 n, hn, hf, Nat.add_mod_right,
              Nat.mod_eq_of_lt ht]
          rw [h4, getD_set_self _ _ _ _ (by omega)]
          simp [hn.symm]
  · intro hf
    unfold FixedQueue.push_overwrite
    rw [if_neg (by simp [FixedQueue.full, hf])]

/-- C16, witness: the full queue of capacity 3 holding 10, 20, 30 holds
20, 30, 40 after `push_overwrite(40)`. -/
theorem push_overwrite_drops_oldest_witness :
    ((1 ≤ 3 ∧ 3 ≤ 255) ∧
      (FixedQueue.steps 3 (FixedQueue.init 3) [QueueOp.push 10, .push 20, .push 30]).Inv 3 ∧
      (FixedQueue.steps 3 (FixedQueue.init 3) [QueueOp.push 10, .push 20, .push 30]).toList 3
        = [10, 20, 30]) ∧
    ((FixedQueue.steps 3 (FixedQueue.init 3)
        [QueueOp.push 10, .push 20, .push 30]).push_overwrite 3 40).1.toList 3 = [20, 30, 40] :=
  ⟨by decide,
    ((push_overwrite_drops_oldest 3
      (FixedQueue.steps 3 (FixedQueue.init 3) [QueueOp.push 10, .push 20, .push 30]) 40
      (by decide) (by decide) (by decide)).1 (by decide)).2.2.2⟩

/-! ## C17: the notifying queue `TinyQueue` -/

theorem Sched.vTaskNotifyGive_task (N : Nat) (s : Sched) (h : Nat)
    (hv : s.isTaskIdValid N h = true) :
    (s.vTaskNotifyGive N h).task h
      = { s.task h with meta := (s.task h).meta.enable, next := s.tickNow } := by
  obtain ⟨_, hlt, _⟩ := Sched.isTaskIdValid_lt N s h hv
  unfold Sched.vTaskNotifyGive
  simp only [hv, Bool.not_true, Bool.false_eq_true, if_false]
  split <;> exact getD_set_self _ _ _ _ hlt

/-- C17: with a scheduler registered as the active instance and a queue of
capacity 1 to 255 that is empty: a `receive(out, block = true)` made while `R`
is the current task returns false, writes no output and records `R` as waiter;
a following `send(v)`, made when `R` is a valid handle, returns true, leaves the
queue holding `v` alone and calls `notify_give(R)`, after which `R` is enabled
with wake time `tickNow` and its counter is `min (c + 1) 255`; the next
`receive`, with either `block` argument, returns true with output `v` and
leaves the queue empty. A `send` on a full queue returns false and changes
neither the queue nor the scheduler, and a `receive` with `block = false` on an
empty queue returns false and changes nothing, the waiter included. -/
theorem notifying_queue_wakes_waiter {T : Type} [Inhabited T] (CAP N : Nat) (tq : TinyQueue T)
    (s1 s2 s3 : Sched) (R : Nat) (v : T) (b : Bool)
    (h1 : 1 ≤ CAP) (h2 : CAP ≤ 255) (hinv : tq.base.Inv CAP) (hempty : tq.base.count = 0)
    (hcur : s1.currentId = R) (hR : R ≠ INVALID_TASK_ID)
    (hvalid : s2.isTaskIdValid N R = true) (hlen : s2.notifyCnt.length = N)
    (hcnt : s2.notify R ≤ 255) :
    (tq.xQueueReceive CAP (some s1) true).2 = (false, none) ∧
      (tq.xQueueReceive CAP (some s1) true).1 = { base := tq.base, waiter := R } ∧
      ((tq.xQueueReceive CAP (some s1) true).1.xQueueSend CAP N (some s2) v).2.2 = true ∧
      ((tq.xQueueReceive CAP (some s1) true).1.xQueueSend CAP N (some s2) v).1.base.toList CAP
        = [v] ∧
      ((tq.xQueueReceive CAP (some s1) true).1.xQueueSend CAP N (some s2) v).2.1
        = some (s2.vTaskNotifyGive N R) ∧
      ((s2.vTaskNotifyGive N R).task R).meta.enabled = true ∧
      ((s2.vTaskNotifyGive N R).task R).next = s2.tickNow ∧
      (s2.vTaskNotifyGive N R).notify R = min (s2.notify R + 1) 255 ∧
      (((tq.xQueueReceive CAP (some s1) true).1.xQueueSend CAP N (some s2) v).1.xQueueReceive
        CAP (some s3) b).2 = (true, some v) ∧
      ((((tq.xQueueReceive CAP (some s1) true).1.xQueueSend CAP N (some s2) v).1.xQueueReceive
        CAP (some s3) b).1.base.toList CAP) = [] ∧
      (∀ (fq : TinyQueue T) (sch : Option Sched) (x : T), fq.base.count = CAP →
        fq.xQueueSend CAP N sch x = (fq, sch, false)) ∧
      (∀ (eq : TinyQueue T) (sch : Option Sched), eq.base.count = 0 →
        eq.xQueueReceive CAP sch false = (eq, false, none)) := by
  have hpop := FixedQueue.try_pop_empty CAP tq.base hempty
  have hrecv : tq.xQueueReceive CAP (some s1) true = ({ base := tq.base, waiter := R }, false, none) := by
    unfold TinyQueue.xQueueReceive
    rw [hpop]
    simp [Sched.xTaskGetCurrentTaskHandle, hcur]
  obtain ⟨hp1, hp2, hp3, hp4⟩ := FixedQueue.try_push_ok CAP tq.base v h1 h2 hinv (by omega)
  have hl0 : tq.base.toList CAP = [] := List.eq_nil_of_length_eq_zero (by rw [FixedQueue.toList_length, hempty])
  rw [hl0] at hp4
  have hsend : ({ base := tq.base, waiter := R } : TinyQueue T).xQueueSend CAP N (some s2) v
      = ({ base := (tq.base.try_push CAP v).1, waiter := R }, some (s2.vTaskNotifyGive N R), true) := by
    unfold TinyQueue.xQueueSend
    simp [hp1, hR]
  obtain ⟨hq1, hq2, hq3, hq4, x, hx1, hx2, hx3⟩ := FixedQueue.try_pop_ok CAP (tq.base.try_push CAP v).1 h1 h2 hp2 (by omega)
  rw [hp4] at hx3
  have hxv : x = v := by
    have := congrArg List.head? hx3
    simpa using this.symm
  have htl : ((tq.base.try_push CAP v).1.try_pop CAP).1.toList CAP = [] := by
    have := congrArg List.tail hx3
    simpa using this.symm
  subst hxv
  refine ⟨by rw [hrecv], by rw [hrecv], by rw [hrecv, hsend], by rw [hrecv, hsend]; exact hp4,
    by rw [hrecv, hsend], ?_, ?_, ?_, ?_, ?_, ?_, ?_⟩
  · rw [Sched.vTaskNotifyGive_task N s2 R hvalid]
    exact TaskMeta.enabled_enable _
  · rw [Sched.vTaskNotifyGive_task N s2 R hvalid]
  · exact (Sched.vTaskNotifyGive_count N s2 R hvalid
      (by rw [hlen]; exact (Sched.isTaskIdValid_lt N s2 R hvalid).1) hcnt).2.2
  · rw [hrecv, hsend]
    unfold TinyQueue.xQueueReceive
    simp [hq1, hx1]
  · rw [hrecv, hsend]
    unfold TinyQueue.xQueueReceive
    simp [hq1, htl]
  · intro fq sch x hf
    unfold TinyQueue.xQueueSend
    rw [FixedQueue.try_push_full CAP fq.base x hf]
    rfl
  · intro eq sch he
    unfold TinyQueue.xQueueReceive
    rw [FixedQueue.try_pop_empty CAP eq.base he]
    cases sch <;> rfl

/-- C17, witness: a queue of capacity 4, the consumer being slot 0 of the
periodic scenario, and the value 42. -/
theorem notifying_queue_wakes_waiter_witness :
    ((1 ≤ 4 ∧ 4 ≤ 255) ∧ (TinyQueue.init 4 : TinyQueue Nat).base.Inv 4 ∧
      (periodicStart 8).isTaskIdValid 8 0 = true) ∧
    ((((TinyQueue.init 4 : TinyQueue Nat).xQueueReceive 4
        (some { periodicStart 8 with currentId := 0 }) true).1.xQueueSend 4 8
          (some (periodicStart 8)) 42).1.xQueueReceive 4
            (some { periodicStart 8 with currentId := 0 }) false).2 = (true, some 42) :=
  ⟨by decide,
    (notifying_queue_wakes_waiter 4 8 (TinyQueue.init 4) { periodicStart 8 with currentId := 0 }
      (periodicStart 8) { periodicStart 8 with currentId := 0 } 0 42 false (by decide) (by decide)
      (by decide) (by decide) (by decide) (by decide) (by decide) (by decide)
      (by decide)).2.2.2.2.2.2.2.2.1⟩

/-! ## The insertion sort in general -/

namespace FixedVector

variable {T : Type} [Inhabited T]

/-- The first `c + 1` entries after one step of the insertion sort: the key
`d[c]` moved to position `r`. -/
theorem sortStep_take (lt : T → T → Bool) (c : Nat) (d : List T) (hc : c ≤ 128)
    (hlen : c < d.length) :
    ∃ r, r ≤ c ∧ (sortStep lt c d).length = d.length ∧
      (sortStep lt c d).take (c + 1) = d.take r ++ d.getD c default :: (d.take c).drop r ∧
      (∀ m, c < m → (sortStep lt c d).getD m default = d.getD m default) ∧
      (r = 0 ∨ lt (d.getD (r - 1) default) (d.getD c default) = false) ∧
      (∀ m, r ≤ m → m < c → lt (d.getD m default) (d.getD c default) = true) := by
  obtain ⟨r, hr, h1, h2, h3, h4, h5, h6, h7⟩ := sortStep_spec lt c d hc hlen
  refine ⟨r, hr, h1, ?_, h5, h6, h7⟩
  apply List.ext_getElem
  · simp only [List.length_take, List.length_append, List.length_cons, List.length_drop]
    omega
  · intro n hn1 hn2
    simp only [List.length_take] at hn1
    have hn : n < c + 1 := by omega
    have hnl : n < (sortStep lt c d).length := by omega
    rw [List.getElem_take, ← List.getD_eq_getElem _ default hnl]
    rcases Nat.lt_trichotomy n r with h | h | h
    · rw [List.getElem_append_left (by simp; omega), List.getElem_take, h2 n h,
        List.getD_eq_getElem _ default (by omega)]
    · subst h
      rw [List.getElem_append_right (by simp), h3]
      simp only [List.length_take, Nat.min_eq_left (show n ≤ d.length by omega), Nat.sub_self,
        List.getElem_cons_zero]
    · rw [List.getElem_append_right (by simp; omega), h4 n h (by omega)]
      have e : n - (List.take r d).length = (n - r - 1) + 1 := by
        simp only [List.length_take]
        omega
      simp only [e, List.getElem_cons_succ, List.getElem_drop, List.getElem_take]
      rw [List.getD_eq_getElem _ default (by omega)]
      congr 1
      omega

theorem sortStep_perm (lt : T → T → Bool) (c : Nat) (d : List T) (hc : c ≤ 128)
    (hlen : c < d.length) :
    ((sortStep lt c d).take (c + 1)).Perm (d.take (c + 1)) := by
  obtain ⟨r, hr, _, h2, _⟩ := sortStep_take lt c d hc hlen
  rw [h2]
  have e1 : d.take (c + 1) = d.take c ++ [d.getD c default] := by
    rw [List.take_succ, List.getD_eq_getElem?_getD, List.getElem?_eq_getElem hlen]
    rfl
  have e2 : d.take c = d.take r ++ (d.take c).drop r := by
    have := (List.take_append_drop r (d.take c)).symm
    rwa [List.take_take, Nat.min_eq_left hr] at this
  rw [e1]
  conv_rhs => rw [e2]
  exact List.perm_middle.trans (List.perm_append_singleton _ _).symm


/-- The insertion sort after `n` steps of its outer loop: the first `n + 1`
entries are a permutation of what they were, no entry among them is less than
the next, and the rest of the array is untouched. The comparison must be
asymmetric. -/
theorem sortOuter_spec (lt : T → T → Bool) (hasym : ∀ a b, lt a b = true → lt b a = false)
    (n : Nat) (d : List T) (hn : n ≤ 128) (hlen : n < d.length) :
    (sortOuter lt n 1 d).length = d.length ∧
      ((sortOuter lt n 1 d).take (n + 1)).Perm (d.take (n + 1)) ∧
      (∀ m, n < m → (sortOuter lt n 1 d).getD m default = d.getD m default) ∧
      (∀ m, m + 1 ≤ n →
        lt ((sortOuter lt n 1 d).getD m default) ((sortOuter lt n 1 d).getD (m + 1) default)
          = false) := by
  induction n with
  | zero => exact ⟨rfl, List.Perm.refl _, fun _ _ => rfl, fun m hm => by omega⟩
  | succ n ih =>
    obtain ⟨i1, i2, i3, i4⟩ := ih (by omega) (by omega)
    rw [sortOuter_succ, Nat.add_comm 1 n]
    have hl : n + 1 < (sortOuter lt n 1 d).length := by rw [i1]; exact hlen
    obtain ⟨r, hr, h1, h2, h3, h4, h5, h6, h7⟩ :=
      sortStep_spec lt (n + 1) (sortOuter lt n 1 d) hn hl
    refine ⟨h1.trans i1, ?_, fun m hm => ?_, fun m hm => ?_⟩
    · refine (sortStep_perm lt (n + 1) _ hn hl).trans ?_
      have e1 : ∀ l : List T, n + 1 < l.length →
          l.take (n + 1 + 1) = l.take (n + 1) ++ [l.getD (n + 1) default] := by
        intro l h
        rw [List.take_succ, List.getD_eq_getElem?_getD, List.getElem?_eq_getElem h]
        rfl
      rw [e1 _ hl, e1 d hlen, i3 (n + 1) (by omega)]
      exact List.Perm.append_right _ i2
    · rw [h5 m hm]
      exact i3 m (by omega)
    · rcases Nat.lt_trichotomy (m + 1) r with h | h | h
      · rw [h2 m (by omega), h2 (m + 1) h]
        exact i4 m (by omega)
      · rw [h2 m (by omega), h, h3]
        rcases h6 with h6 | h6
        · omega
        · have e : r - 1 = m := by omega
          rw [e] at h6
          exact h6
      · rcases Nat.eq_or_lt_of_le (Nat.lt_succ_iff.1 h) with e | l
        · rw [← e, h3, h4 (r + 1) (by omega) (by omega)]
          exact hasym _ _ (h7 r (le_refl _) (by omega))
        · rw [h4 m l (by omega), h4 (m + 1) (by omega) (by omega)]
          have := i4 (m - 1) (by omega)
          have e : m - 1 + 1 = m := by omega
          rw [e] at this
          exact this

/-- The contract of `sort_descending` for at most 129 elements and an
asymmetric comparison: the count and the array length are kept, the first
`count` entries are a permutation of what they were with no entry less than
the next, and the entries from `count` on are untouched. -/
theorem sort_descending_spec (lt : T → T → Bool)
    (hasym : ∀ a b, lt a b = true → lt b a = false) (vec : FixedVector T)
    (hc : vec.count ≤ 129) (hlen : vec.count ≤ vec.data.length) :
    (vec.sort_descending lt).count = vec.count ∧
      (vec.sort_descending lt).data.length = vec.data.length ∧
      ((vec.sort_descending lt).data.take vec.count).Perm (vec.data.take vec.count) ∧
      ((vec.sort_descending lt).data.take vec.count).Chain' (fun a b => lt a b = false) ∧
      (∀ m, vec.count ≤ m → (vec.sort_descending lt).get m = vec.get m) := by
  unfold sort_descending FixedVector.get
  dsimp only
  rcases Nat.eq_zero_or_pos vec.count with h0 | hpos
  · rw [h0]
    exact ⟨rfl, rfl, List.Perm.refl _, by simp, fun _ _ => rfl⟩
  · obtain ⟨i1, i2, i3, i4⟩ := sortOuter_spec lt hasym (vec.count - 1) vec.data (by omega) (by omega)
    have e : vec.count - 1 + 1 = vec.count := by omega
    rw [e] at i2
    refine ⟨rfl, i1, i2, ?_, fun m hm => i3 m (by omega)⟩
    rw [List.chain'_iff_get]
    intro i hi
    simp only [List.length_take] at hi
    simp only [List.get_eq_getElem, List.getElem_take]
    have := i4 i (by omega)
    rw [List.getD_eq_getElem _ default (by omega), List.getD_eq_getElem _ default (by omega)] at this
    exact this


/-- At an index from 129 on, `j = (int8_t)i - 1` is negative: the inner loop
is not entered and the final store goes below the array, so the step changes
nothing in it. -/
theorem sortStep_skip (lt : T → T → Bool) (i : Nat) (d : List T) (h1 : 129 ≤ i) (h2 : i ≤ 255) :
    sortStep lt i d = d := by
  have hj : ∃ j : Int, toInt8 (toInt8 (i : Int) - 1) = j ∧ j < -1 := by
    refine ⟨_, rfl, ?_⟩
    unfold toInt8
    omega
  obtain ⟨j, ej, hj⟩ := hj
  unfold sortStep
  simp only [ej]
  have e1 : j.toNat = 0 := by omega
  have hin : sortInner lt (d.getD i default) (0 + 1) j d = (j, d) := by
    unfold sortInner
    exact if_neg (fun h => absurd h.1 (by omega))
  rw [e1, hin]
  exact if_neg (by omega)

theorem sortOuter_skip (lt : T → T → Bool) (n i : Nat) (d : List T) (h1 : 129 ≤ i)
    (h2 : i + n ≤ 256) : sortOuter lt n i d = d := by
  induction n generalizing i with
  | zero => rfl
  | succ n ih =>
    rw [sortOuter, sortStep_skip lt i d h1 (by omega)]
    exact ih (i + 1) (by omega) (by omega)

theorem sortOuter_add (lt : T → T → Bool) (a b i : Nat) (d : List T) :
    sortOuter lt (a + b) i d = sortOuter lt b (i + a) (sortOuter lt a i d) := by
  induction a generalizing i d with
  | zero => simp [sortOuter]
  | succ a ih =>
    have e : a + 1 + b = (a + b) + 1 := by omega
    rw [e, sortOuter, sortOuter, ih]
    have e2 : i + 1 + a = i + (a + 1) := by omega
    rw [e2]

/-- The outer loop of `sort_descending` on a vector of 129 to 255 elements
does what it does on the first 129 of them. -/
theorem sortOuter_from_129 (lt : T → T → Bool) (c : Nat) (d : List T) (h1 : 129 ≤ c)
    (h2 : c ≤ 255) : sortOuter lt (c - 1) 1 d = sortOuter lt 128 1 d := by
  have e : c - 1 = 128 + (c - 129) := by omega
  rw [e, sortOuter_add, sortOuter_skip lt (c - 129) (1 + 128) _ (by omega) (by omega)]

end FixedVector

/-! ## C20: `sort_descending` beyond 129 elements -/

theorem ascending130_take : ascending130.data.take 129 = List.range 129 := by
  unfold ascending130
  dsimp only
  rw [List.range_succ, List.append_assoc]
  exact List.take_left' (List.length_range 129)

theorem ascending130_last : ascending130.data.getD 129 default = 129 := by
  unfold ascending130
  dsimp only
  rw [List.getD_append _ _ _ _ (by simp), List.getD_eq_getElem _ _ (by simp)]
  simp

/-- C20 (code defect): on the vector of capacity 255 holding 0, 1, ..., 129,
`sort_descending` keeps the count 130 but leaves the element at index 129 where
it was: `int8_t j = (int8_t)i - 1` is negative for `i = 129`, so the inner loop
is skipped. The entry at index 128 ends less than the entry at index 129, and
the result is not in non-increasing order. -/
theorem sort_descending_skips_index_129 :
    ascending130.count = 130 ∧ ascending130.data.length = 255 ∧
      (ascending130.sort_descending (fun a b => decide (a < b))).count = 130 ∧
      (ascending130.sort_descending (fun a b => decide (a < b))).get 129 = 129 ∧
      (ascending130.sort_descending (fun a b => decide (a < b))).get 128
        < (ascending130.sort_descending (fun a b => decide (a < b))).get 129 := by
  have hlenA : ascending130.data.length = 255 := by simp [ascending130]
  have hso : (ascending130.sort_descending (fun a b => decide (a < b))).data
      = FixedVector.sortOuter (fun a b => decide (a < b)) 128 1 ascending130.data := by
    unfold FixedVector.sort_descending
    dsimp only
    have hcount : ascending130.count = 130 := rfl
    rw [hcount]
    exact FixedVector.sortOuter_from_129 (fun a b => decide (a < b)) 130 ascending130.data
      (by omega) (by omega)
  obtain ⟨i1, i2, i3, _⟩ := FixedVector.sortOuter_spec (fun a b : Nat => decide (a < b))
    (fun a b h => by simp only [decide_eq_true_eq, decide_eq_false_iff_not] at *; omega)
    128 ascending130.data (by omega) (by omega)
  have h129 : (ascending130.sort_descending (fun a b => decide (a < b))).get 129 = 129 := by
    unfold FixedVector.get
    rw [hso, i3 129 (by omega)]
    exact ascending130_last
  have h128 : (ascending130.sort_descending (fun a b => decide (a < b))).get 128 < 129 := by
    unfold FixedVector.get
    rw [hso]
    have hl : 128 < (FixedVector.sortOuter (fun a b => decide (a < b)) 128 1
        ascending130.data).length := by rw [i1, hlenA]; omega
    rw [List.getD_eq_getElem _ _ hl]
    have hm : (FixedVector.sortOuter (fun a b => decide (a < b)) 128 1 ascending130.data)[128]
        ∈ (FixedVector.sortOuter (fun a b => decide (a < b)) 128 1 ascending130.data).take
          (128 + 1) := by
      rw [List.mem_take_iff_getElem]
      exact ⟨128, by rw [i1, hlenA]; omega, rfl⟩
    rw [i2.mem_iff, ascending130_take, List.mem_range] at hm
    exact hm
  refine ⟨rfl, hlenA, rfl, h129, ?_⟩
  rw [h129]
  exact h128

/-! ## C18: the order vector lists the slots in use -/

theorem Sched.mem_keys (N : Nat) (s : Sched) (K : TaskKey) :
    K ∈ (s.inUseSlots N).map s.keyOf ↔
      ∃ i, i < N ∧ (s.task i).meta.inUse = true ∧ K = s.keyOf i := by
  simp only [Sched.inUseSlots, List.mem_map, List.mem_filter, List.mem_range]
  constructor
  · rintro ⟨i, ⟨h1, h2⟩, h3⟩
    exact ⟨i, h1, h2, h3.symm⟩
  · rintro ⟨i, h1, h2, h3⟩
    exact ⟨i, ⟨h1, h2⟩, h3.symm⟩

theorem Sched.keyOf_idx (s : Sched) (i : Nat) (hi : i < 32) : (s.keyOf i).idx = i :=
  TaskKey.idx_set _ i hi

theorem Sched.keyOf_inj (s s2 : Sched) (i j : Nat) (hi : i < 32) (hj : j < 32)
    (h : s.keyOf i = s2.keyOf j) : i = j := by
  have := congrArg TaskKey.idx h
  rwa [Sched.keyOf_idx s i hi, Sched.keyOf_idx s2 j hj] at this

theorem Sched.inUseSlots_nodup (N : Nat) (s : Sched) : (s.inUseSlots N).Nodup :=
  (List.nodup_range N).filter _

theorem Sched.keys_nodup (N : Nat) (s : Sched) (hN : N ≤ 32) :
    ((s.inUseSlots N).map s.keyOf).Nodup := by
  apply List.Nodup.map_on _ (Sched.inUseSlots_nodup N s)
  intro i hi j hj h
  simp only [Sched.inUseSlots, List.mem_filter, List.mem_range] at hi hj
  exact Sched.keyOf_inj s s i j (by omega) (by omega) h

theorem Sched.orderList_length (s : Sched) (h : s.order.count ≤ s.order.data.length) :
    s.orderList.length = s.order.count := by
  simp [Sched.orderList, h]

theorem pairwise_strict_nodup (l : List TaskKey) (h : l.Pairwise (fun a b => b.v < a.v)) :
    l.Nodup := by
  apply h.imp
  intro a b hab he
  rw [he] at hab
  exact Nat.lt_irrefl _ hab

/-- What the invariant says in the words of the claim. -/
theorem Sched.OrderInv.spec (N : Nat) (s : Sched) (hN : N ≤ 32) (h : s.OrderInv N) :
    s.order.size = (s.inUseSlots N).length ∧
      s.orderList.Perm ((s.inUseSlots N).map s.keyOf) ∧
      (s.orderList.map TaskKey.idx).Perm (s.inUseSlots N) ∧
      s.orderList.Pairwise (fun a b => TaskKey.lt b a = true) := by
  obtain ⟨ht, hd, hc, hp, hm⟩ := h
  have hperm : s.orderList.Perm ((s.inUseSlots N).map s.keyOf) :=
    (List.perm_ext_iff_of_nodup (pairwise_strict_nodup _ hp) (Sched.keys_nodup N s hN)).2 hm
  refine ⟨?_, hperm, ?_, ?_⟩
  · have := hperm.length_eq
    rw [Sched.orderList_length s (by omega), List.length_map] at this
    exact this
  · have h1 := hperm.map TaskKey.idx
    rw [List.map_map] at h1
    have h2 : (s.inUseSlots N).map (TaskKey.idx ∘ s.keyOf) = s.inUseSlots N := by
      conv_rhs => rw [← List.map_id (s.inUseSlots N)]
      apply List.map_congr_left
      intro i hi
      simp only [Sched.inUseSlots, List.mem_filter, List.mem_range] at hi
      exact Sched.keyOf_idx s i (by omega)
    rwa [h2] at h1
  · apply hp.imp
    intro a b hab
    simpa [TaskKey.lt] using hab

theorem Sched.init_orderInv (N q now : Nat) : (Sched.init N q now).OrderInv N := by
  have hfree : ∀ i, ((Sched.init N q now).task i).meta.inUse = false := by
    intro i
    unfold Sched.task Sched.init
    dsimp only
    rw [List.getD_eq_getElem?_getD, List.getElem?_replicate]
    split <;> rfl
  have hslots : (Sched.init N q now).inUseSlots N = [] := by
    unfold Sched.inUseSlots
    rw [List.filter_eq_nil_iff]
    intro i _
    rw [hfree i]
    exact Bool.false_ne_true
  refine ⟨by simp [Sched.init], by simp [Sched.init], Nat.zero_le _, ?_, ?_⟩
  · simp [Sched.orderList, Sched.init]
  · intro K
    rw [hslots]
    simp [Sched.orderList, Sched.init]

theorem testBit_prio_mask (i : Nat) (hi : 3 ≤ i) : Nat.testBit TaskMeta.PRIO_MASK (2 + i) = false := by
  apply Nat.testBit_lt_two_pow
  have : 2 ^ 5 ≤ 2 ^ (2 + i) := Nat.pow_le_pow_right (by norm_num) (by omega)
  have h5 : (2 : Nat) ^ 5 = 32 := by norm_num
  unfold TaskMeta.PRIO_MASK
  omega

theorem TaskMeta.prio_enable (m : TaskMeta) : m.enable.prio = m.prio := by
  unfold TaskMeta.prio TaskMeta.enable
  apply Nat.eq_of_testBit_eq
  intro i
  have h : (256 : Nat) = 2 ^ 8 := by norm_num
  simp only [Nat.testBit_shiftRight, Nat.testBit_and, h, Nat.testBit_mod_two_pow, Nat.testBit_or]
  by_cases hi : i < 3
  · have h2 : Nat.testBit TaskMeta.EN (TaskMeta.PRIO_SHIFT + i) = false := by
      interval_cases i <;> decide
    have h3 : decide (TaskMeta.PRIO_SHIFT + i < 8) = true := by
      simp only [decide_eq_true_eq]; unfold TaskMeta.PRIO_SHIFT; omega
    rw [h2, h3]
    simp
  · have := testBit_prio_mask i (by omega)
    unfold TaskMeta.PRIO_SHIFT
    rw [this]
    simp

theorem TaskMeta.prio_disable (m : TaskMeta) : m.disable.prio = m.prio := by
  unfold TaskMeta.prio TaskMeta.disable
  apply Nat.eq_of_testBit_eq
  intro i
  simp only [Nat.testBit_shiftRight, Nat.testBit_and]
  by_cases hi : i < 3
  · have h2 : Nat.testBit (0xFF ^^^ TaskMeta.EN) (TaskMeta.PRIO_SHIFT + i) = true := by
      interval_cases i <;> decide
    rw [h2]
    simp
  · have := testBit_prio_mask i (by omega)
    unfold TaskMeta.PRIO_SHIFT
    rw [this]
    simp

/-- A state that differs from `s` in one task entry at most, the change
touching neither the in-use flag nor the priority, and has the same order
vector, keeps the order invariant. -/
theorem orderInv_frame (N : Nat) (s s2 : Sched) (ho : s2.order = s.order)
    (ht : s2.t = s.t ∨ ∃ h x, s2.t = s.t.set h x ∧ x.meta.inUse = (s.task h).meta.inUse ∧
      x.meta.prio = (s.task h).meta.prio)
    (hinv : s.OrderInv N) : s2.OrderInv N := by
  have hlen : s2.t.length = s.t.length := by
    rcases ht with ht | ⟨h, x, ht, _⟩
    · rw [ht]
    · rw [ht, List.length_set]
  have htask : ∀ i, (s2.task i).meta.inUse = (s.task i).meta.inUse ∧
      (s2.task i).meta.prio = (s.task i).meta.prio := by
    intro i
    rcases ht with ht | ⟨h, x, ht, hx1, hx2⟩
    · unfold Sched.task
      rw [ht]
      exact ⟨rfl, rfl⟩
    · have e : s2.task i = if h = i ∧ i < s.t.length then x else s.task i := by
        unfold Sched.task
        rw [ht]
        exact getD_set _ _ _ _ _
      rw [e]
      split
      · rename_i hc
        rw [← hc.1]
        exact ⟨hx1, hx2⟩
      · exact ⟨rfl, rfl⟩
  have hslots : s2.inUseSlots N = s.inUseSlots N := by
    unfold Sched.inUseSlots
    apply List.filter_congr
    intro i _
    exact (htask i).1
  have hkey : ∀ i, s2.keyOf i = s.keyOf i := by
    intro i
    unfold Sched.keyOf
    rw [(htask i).2]
  have hkeys : (s2.inUseSlots N).map s2.keyOf = (s.inUseSlots N).map s.keyOf := by
    rw [hslots]
    exact List.map_congr_left (fun i _ => hkey i)
  obtain ⟨h1, h2, h3, h4, h5⟩ := hinv
  unfold Sched.OrderInv Sched.orderList at *
  rw [hkeys, ho, hlen]
  exact ⟨h1, h2, h3, h4, h5⟩

theorem take_set_succ {α : Type} (l : List α) (c : Nat) (x : α) (hc : c < l.length) :
    (l.set c x).take (c + 1) = l.take c ++ [x] := by
  rw [List.take_succ, List.set_take, List.set_eq_of_length_le (by simp),
    List.getElem?_set_self hc]
  rfl

theorem TaskKey.lt_asymm (a b : TaskKey) (h : TaskKey.lt a b = true) : TaskKey.lt b a = false := by
  simp only [TaskKey.lt, decide_eq_true_eq, decide_eq_false_iff_not] at *
  omega

/-- A list of keys in which no key is less than the next and no key occurs
twice is in strictly descending order throughout. -/
theorem pairwise_of_chain_nodup (l : List TaskKey)
    (hc : l.Chain' (fun a b => TaskKey.lt a b = false)) (hn : l.Nodup) :
    l.Pairwise (fun a b => b.v < a.v) := by
  have hc2 : l.Chain' (fun a b => b.v ≤ a.v) := by
    apply hc.imp
    intro a b h
    simpa [TaskKey.lt] using h
  haveI : IsTrans TaskKey (fun a b => b.v ≤ a.v) := ⟨fun a b c h1 h2 => le_trans h2 h1⟩
  have hp := List.chain'_iff_pairwise.1 hc2
  apply (hp.and hn).imp
  rintro a b ⟨h1, h2⟩
  have : a.v ≠ b.v := by
    intro he
    apply h2
    cases a
    cases b
    simp only at he
    rw [he]
  omega

namespace FixedVector

variable {T : Type} [Inhabited T]

theorem eraseLoop_spec (n i : Nat) (d : List T) (hi : 1 ≤ i) :
    (eraseLoop n i d).length = d.length ∧
      ∀ m, (eraseLoop n i d).getD m default
        = if i - 1 ≤ m ∧ m < i - 1 + n ∧ m < d.length then d.getD (m + 1) default
          else d.getD m default := by
  induction n generalizing i d with
  | zero =>
    refine ⟨rfl, fun m => ?_⟩
    rw [if_neg (by omega)]
    rfl
  | succ n ih =>
    unfold eraseLoop
    obtain ⟨h1, h2⟩ := ih (i + 1) (d.set (i - 1) (d.getD i default)) (by omega)
    refine ⟨by rw [h1, List.length_set], fun m => ?_⟩
    rw [h2 m, List.length_set]
    by_cases hc : i + 1 - 1 ≤ m ∧ m < i + 1 - 1 + n ∧ m < d.length
    · rw [if_pos hc, if_pos (by omega), getD_set_ne _ _ _ _ _ (by omega)]
    · rw [if_neg hc, getD_set]
      by_cases hm : i - 1 = m ∧ m < d.length
      · rw [if_pos hm, if_pos (by omega)]
        congr 1
        omega
      · rw [if_neg hm, if_neg (by omega)]

/-- `erase(pos)` on the listed part of the vector is the removal of the entry at
`pos`. -/
theorem erase_take (vec : FixedVector T) (pos : Nat) (hp : pos < vec.count)
    (hlen : vec.count ≤ vec.data.length) :
    (vec.erase pos).count = vec.count - 1 ∧
      (vec.erase pos).data.length = vec.data.length ∧
      (vec.erase pos).data.take (vec.erase pos).count
        = (vec.data.take vec.count).eraseIdx pos := by
  have he : vec.erase pos
      = { data := eraseLoop (vec.count - (pos + 1)) (pos + 1) vec.data, count := vec.count - 1 } := by
    unfold erase
    rw [if_neg (by omega)]
  rw [he]
  obtain ⟨h1, h2⟩ := eraseLoop_spec (vec.count - (pos + 1)) (pos + 1) vec.data (by omega)
  refine ⟨rfl, h1, ?_⟩
  dsimp only
  apply List.ext_getElem
  · rw [List.length_eraseIdx]
    simp only [List.length_take, h1]
    rw [if_pos (by omega)]
    omega
  · intro m hm1 hm2
    simp only [List.length_take, h1] at hm1
    rw [List.getElem_take, List.getElem_eraseIdx, ← List.getD_eq_getElem _ default (by omega), h2 m]
    split
    · rename_i hc
      rw [dif_neg (by omega), List.getElem_take, List.getD_eq_getElem _ default (by omega)]
    · rename_i hc
      rw [dif_pos (by omega), List.getElem_take, List.getD_eq_getElem _ default (by omega)]

end FixedVector

theorem Sched.findPosLoop_spec (order : FixedVector TaskKey) (idx n k : Nat) (h255 : k + n ≤ 255)
    (hex : ∃ p, k ≤ p ∧ p < k + n ∧ (order.get p).idx = idx) :
    k ≤ Sched.findPosLoop order idx n k ∧ Sched.findPosLoop order idx n k < k + n ∧
      (order.get (Sched.findPosLoop order idx n k)).idx = idx := by
  induction n generalizing k with
  | zero =>
    obtain ⟨p, h1, h2, _⟩ := hex
    omega
  | succ n ih =>
    unfold Sched.findPosLoop
    split
    · rename_i hc
      exact ⟨le_refl _, by omega, hc⟩
    · rename_i hc
      obtain ⟨p, h1, h2, h3⟩ := hex
      have hpk : p ≠ k := by
        intro e
        rw [e] at h3
        exact hc h3
      obtain ⟨i1, i2, i3⟩ := ih (k + 1) (by omega) ⟨p, by omega, by omega, h3⟩
      exact ⟨by omega, by omega, i3⟩

/-- The rebuild loop of `vTaskPrioritySet` appends, in index order, the keys of
the in-use slots it scans. -/
theorem rebuildLoop_spec (N : Nat) (t : List Task) (n i : Nat) (o : FixedVector TaskKey)
    (hlen : o.data.length = N) (hc : o.count ≤ i) (hn : i + n ≤ N) :
    (Sched.rebuildLoop N t n i o).data.length = N ∧
      (Sched.rebuildLoop N t n i o).count ≤ i + n ∧
      (Sched.rebuildLoop N t n i o).data.take (Sched.rebuildLoop N t n i o).count
        = o.data.take o.count ++
          ((List.range' i n).filter (fun j => (t.getD j default).meta.inUse)).map
            (fun j => TaskKey.set (t.getD j default).meta.prio j) := by
  induction n generalizing i o with
  | zero =>
    refine ⟨hlen, hc, ?_⟩
    simp [Sched.rebuildLoop]
  | succ n ih =>
    unfold Sched.rebuildLoop
    rw [List.range'_succ]
    by_cases hu : (t.getD i default).meta.inUse = true
    · rw [if_pos hu]
      have hpb : o.push_back N (TaskKey.set (t.getD i default).meta.prio i)
          = { data := o.data.set o.count (TaskKey.set (t.getD i default).meta.prio i),
              count := o.count + 1 } := by
        unfold FixedVector.push_back
        rw [if_pos (by omega)]
      rw [hpb]
      obtain ⟨i1, i2, i3⟩ := ih (i + 1)
        { data := o.data.set o.count (TaskKey.set (t.getD i default).meta.prio i),
          count := o.count + 1 }
        (by rw [List.length_set]; exact hlen) (by show o.count + 1 ≤ i + 1; omega) (by omega)
      refine ⟨i1, by omega, ?_⟩
      rw [i3]
      dsimp only
      rw [take_set_succ _ _ _ (by omega)]
      simp only [List.filter_cons, hu, if_true, List.map_cons, List.append_assoc,
        List.singleton_append]
    · rw [if_neg hu]
      obtain ⟨i1, i2, i3⟩ := ih (i + 1) o hlen (by omega) (by omega)
      refine ⟨i1, by omega, ?_⟩
      have hu2 : (t.getD i default).meta.inUse = false := by simpa using hu
      rw [i3]
      simp only [List.filter_cons, hu2, Bool.false_eq_true, if_false]

/-- Putting a task that is in use into a free slot `f` and its key into the
order vector (`push_back`, then `sort_descending`) keeps the order
invariant. -/
theorem orderInv_insert (N : Nat) (s s2 : Sched) (f : Nat) (x : Task) (hN : N ≤ 32)
    (hf : f < N) (hfree : (s.task f).meta.inUse = false) (hx : x.meta.inUse = true)
    (ht : s2.t = s.t.set f x)
    (ho : s2.order
      = (s.order.push_back N (TaskKey.set x.meta.prio f)).sort_descending TaskKey.lt)
    (hinv : s.OrderInv N) : s2.OrderInv N := by
  obtain ⟨hsz, _, _, _⟩ := Sched.OrderInv.spec N s hN hinv
  obtain ⟨h1, h2, h3, h4, h5⟩ := hinv
  have hcnt : s.order.count < N := by
    have hlt : (s.inUseSlots N).length < (List.range N).length := by
      unfold Sched.inUseSlots
      rw [List.length_filter_lt_length_iff_exists]
      exact ⟨f, List.mem_range.2 hf, by rw [hfree]; exact Bool.false_ne_true⟩
    rw [List.length_range] at hlt
    unfold FixedVector.size at hsz
    omega
  have htask : ∀ i, s2.task i = if f = i then x else s.task i := by
    intro i
    unfold Sched.task
    rw [ht, getD_set]
    by_cases hfi : f = i
    · rw [if_pos ⟨hfi, by omega⟩, if_pos hfi]
    · rw [if_neg (fun h => hfi h.1), if_neg hfi]
  have hK : s2.keyOf f = TaskKey.set x.meta.prio f := by
    unfold Sched.keyOf
    rw [htask f, if_pos rfl]
  have hpb : s.order.push_back N (TaskKey.set x.meta.prio f)
      = { data := s.order.data.set s.order.count (TaskKey.set x.meta.prio f),
          count := s.order.count + 1 } := by
    unfold FixedVector.push_back
    rw [if_pos hcnt]
  obtain ⟨g1, g2, g3, g4, _⟩ := FixedVector.sort_descending_spec TaskKey.lt TaskKey.lt_asymm
    (s.order.push_back N (TaskKey.set x.meta.prio f))
    (by rw [hpb]; show s.order.count + 1 ≤ 129; omega)
    (by rw [hpb]; show s.order.count + 1 ≤ (s.order.data.set _ _).length
        rw [List.length_set]; omega)
  rw [← ho] at g1 g2 g3 g4
  have hcount2 : s2.order.count = s.order.count + 1 := by rw [g1, hpb]
  have hperm : s2.orderList.Perm (s.orderList ++ [TaskKey.set x.meta.prio f]) := by
    unfold Sched.orderList
    rw [hpb] at g3
    dsimp only at g3
    rw [take_set_succ _ _ _ (by omega)] at g3
    rw [hcount2]
    exact g3
  have hnew : TaskKey.set x.meta.prio f ∉ s.orderList := by
    intro hmem
    rw [h5, Sched.mem_keys] at hmem
    obtain ⟨i, hi, hiu, hk⟩ := hmem
    have := congrArg TaskKey.idx hk
    rw [TaskKey.idx_set _ f (by omega), Sched.keyOf_idx s i (by omega)] at this
    rw [this, hiu] at hfree
    cases hfree
  have hnodup : s2.orderList.Nodup := by
    rw [hperm.nodup_iff]
    apply List.Nodup.append (pairwise_strict_nodup _ h4) (List.nodup_singleton _)
    intro a ha hb
    rw [List.mem_singleton] at hb
    rw [hb] at ha
    exact hnew ha
  refine ⟨by rw [ht, List.length_set]; exact h1, ?_, by omega, ?_, ?_⟩
  · rw [g2, hpb]
    show (s.order.data.set _ _).length = N
    rw [List.length_set]
    exact h2
  · apply pairwise_of_chain_nodup _ _ hnodup
    unfold Sched.orderList
    rw [hcount2]
    rw [hpb] at g4
    exact g4
  · intro K
    rw [hperm.mem_iff, List.mem_append, List.mem_singleton, h5, Sched.mem_keys, Sched.mem_keys]
    constructor
    · rintro (⟨i, hi, hiu, hk⟩ | hk)
      · have hfi : f ≠ i := by
          intro e
          rw [e, hiu] at hfree
          cases hfree
        refine ⟨i, hi, ?_, ?_⟩
        · rw [htask i, if_neg hfi]
          exact hiu
        · unfold Sched.keyOf
          rw [htask i, if_neg hfi]
          exact hk
      · exact ⟨f, hf, by rw [htask f, if_pos rfl]; exact hx, by rw [hK]; exact hk⟩
    · rintro ⟨i, hi, hiu, hk⟩
      by_cases hfi : f = i
      · right
        rw [hk, ← hfi, hK]
      · left
        refine ⟨i, hi, ?_, ?_⟩
        · rw [htask i, if_neg hfi] at hiu
          exact hiu
        · unfold Sched.keyOf at hk
          rw [htask i, if_neg hfi] at hk
          exact hk

theorem create_orderInv (N : Nat) (s : Sched) (cb : Option Nat) (d p : Nat) (hN : N ≤ 32)
    (hinv : s.OrderInv N) : (s.xTaskCreate N cb d p).1.OrderInv N := by
  unfold Sched.xTaskCreate
  split
  · exact hinv
  · split
    · exact hinv
    · rename_i g i hff
      have hi := Sched.firstFree_lt s.t N 0 i hff
      have hfree : (s.task i).meta.inUse = false := Sched.firstFree_free s.t N 0 i hff
      have hx : (((((s.task i).meta.clear).setInUse true).setEnabled true).setPrio p).inUse
          = true := by
        rw [TaskMeta.inUse_setPrio]
        simp only [TaskMeta.clear, TaskMeta.setInUse, TaskMeta.setEnabled, TaskMeta.enable,
          if_true]
        decide
      dsimp only
      split <;> exact orderInv_insert N s _ i _ hN (by omega) hfree hx rfl rfl hinv


theorem delete_orderInv (N : Nat) (s : Sched) (h : Nat) (hN : N ≤ 32)
    (hinv : s.OrderInv N) : (s.vTaskDelete N h).OrderInv N := by
  by_cases hv : s.isTaskIdValid N h = true
  · obtain ⟨hhN, hlt, hin⟩ := Sched.isTaskIdValid_lt N s h hv
    obtain ⟨h1, h2, h3, h4, h5⟩ := hinv
    have hnodup := pairwise_strict_nodup _ h4
    -- the key of `h` is listed
    have hlisted : s.keyOf h ∈ s.orderList := (h5 _).2 ((Sched.mem_keys N s _).2 ⟨h, hhN, hin, rfl⟩)
    obtain ⟨p, hp, hpk⟩ := List.getElem_of_mem hlisted
    have hlenL : s.orderList.length = s.order.count := Sched.orderList_length s (by omega)
    have hget : ∀ q (hq : q < s.orderList.length), s.order.get q = s.orderList[q] := by
      intro q hq
      unfold FixedVector.get Sched.orderList
      rw [List.getElem_take, List.getD_eq_getElem _ _ (by omega)]
    obtain ⟨_, f2, f3⟩ := Sched.findPosLoop_spec s.order h s.order.count 0 (by omega)
      ⟨p, Nat.zero_le _, by omega, by rw [hget p hp, hpk]; exact Sched.keyOf_idx s h (by omega)⟩
    have hpos : s.findPosByIdx h = Sched.findPosLoop s.order h s.order.count 0 := rfl
    rw [← hpos] at f2 f3
    -- the entry found is the key of `h`
    have hb : s.findPosByIdx h < s.orderList.length := by omega
    have hfound : s.orderList[s.findPosByIdx h] = s.keyOf h := by
      have hm : s.orderList[s.findPosByIdx h] ∈ s.orderList := List.getElem_mem _
      rw [h5, Sched.mem_keys] at hm
      obtain ⟨i, hi, _, hk⟩ := hm
      have := congrArg TaskKey.idx hk
      rw [← hget _ (by omega), f3, Sched.keyOf_idx s i (by omega)] at this
      rw [hk, this]
    have hr : s.vTaskDelete N h
        = { s with t := s.t.set h (s.task h).markFree, notifyCnt := s.notifyCnt.set h 0,
                   order := s.order.erase (s.findPosByIdx h) } := by
      unfold Sched.vTaskDelete
      rw [if_neg (by simp [hv])]
      dsimp only
      have e : Sched.findPosByIdx
          { s with t := s.t.set h (s.task h).markFree, notifyCnt := s.notifyCnt.set h 0 } h
          = s.findPosByIdx h := rfl
      rw [e, if_pos (by simp only [bne_iff_ne, ne_eq, INVALID_TASK_ID]; omega)]
    obtain ⟨e1, e2, e3⟩ := FixedVector.erase_take s.order (s.findPosByIdx h) (by omega) (by omega)
    have htask : ∀ i, (s.vTaskDelete N h).task i
        = if h = i then (s.task h).markFree else s.task i := by
      intro i
      rw [hr]
      unfold Sched.task
      dsimp only
      rw [getD_set]
      by_cases hhi : h = i
      · rw [if_pos ⟨hhi, by omega⟩, if_pos hhi]
      · rw [if_neg (fun hc => hhi hc.1), if_neg hhi]
    have hol : (s.vTaskDelete N h).orderList = s.orderList.eraseIdx (s.findPosByIdx h) := by
      rw [hr]
      exact e3
    refine ⟨by rw [hr]; show (s.t.set _ _).length = N; rw [List.length_set]; exact h1,
      by rw [hr]; show (s.order.erase _).data.length = N; rw [e2]; exact h2,
      by rw [hr]; show (s.order.erase _).count ≤ N; rw [e1]; omega, ?_, ?_⟩
    · rw [hol]
      exact h4.sublist (List.eraseIdx_sublist _ _)
    · intro K
      rw [hol, ← List.Nodup.erase_getElem hnodup (s.findPosByIdx h) (by omega),
        List.Nodup.mem_erase_iff hnodup, hfound, h5, Sched.mem_keys, Sched.mem_keys]
      constructor
      · rintro ⟨hne, i, hi, hiu, hk⟩
        have hhi : h ≠ i := by
          intro e
          rw [hk, e] at hne
          exact hne rfl
        refine ⟨i, hi, by rw [htask i, if_neg hhi]; exact hiu, ?_⟩
        unfold Sched.keyOf
        rw [htask i, if_neg hhi]
        exact hk
      · rintro ⟨i, hi, hiu, hk⟩
        have hhi : h ≠ i := by
          intro e
          rw [htask i, if_pos e] at hiu
          exact absurd hiu (by simp [Task.markFree, TaskMeta.clear, TaskMeta.inUse])
        rw [htask i, if_neg hhi] at hiu
        unfold Sched.keyOf at hk
        rw [htask i, if_neg hhi] at hk
        refine ⟨?_, i, hi, hiu, hk⟩
        intro e
        rw [hk] at e
        exact hhi (Sched.keyOf_inj s s i h (by omega) (by omega) e).symm
  · unfold Sched.vTaskDelete
    rw [if_pos (by simpa using hv)]
    exact hinv

theorem prioritySet_orderInv (N : Nat) (s : Sched) (h p : Nat) (hN : N ≤ 32)
    (hinv : s.OrderInv N) : (s.vTaskPrioritySet N h p).OrderInv N := by
  by_cases hv : s.isTaskIdValid N h = true
  · obtain ⟨h1, h2, h3, h4, h5⟩ := hinv
    have hr : s.vTaskPrioritySet N h p
        = { s with t := s.t.set h { s.task h with meta := (s.task h).meta.setPrio p },
                   order := (Sched.rebuildLoop N
                     (s.t.set h { s.task h with meta := (s.task h).meta.setPrio p }) N 0
                     s.order.clear).sort_descending TaskKey.lt } := by
      unfold Sched.vTaskPrioritySet
      rw [if_neg (by simp [hv])]
    obtain ⟨r1, r2, r3⟩ := rebuildLoop_spec N
      (s.t.set h { s.task h with meta := (s.task h).meta.setPrio p }) N 0 s.order.clear
      h2 (Nat.le_refl 0) (by omega)
    obtain ⟨g1, g2, g3, g4, _⟩ := FixedVector.sort_descending_spec TaskKey.lt TaskKey.lt_asymm
      (Sched.rebuildLoop N (s.t.set h { s.task h with meta := (s.task h).meta.setPrio p }) N 0
        s.order.clear) (by omega) (by omega)
    have hkeys : (List.take (Sched.rebuildLoop N
          (s.t.set h { s.task h with meta := (s.task h).meta.setPrio p }) N 0 s.order.clear).count
        (Sched.rebuildLoop N
          (s.t.set h { s.task h with meta := (s.task h).meta.setPrio p }) N 0 s.order.clear).data)
        = ((s.vTaskPrioritySet N h p).inUseSlots N).map (s.vTaskPrioritySet N h p).keyOf := by
      rw [r3, hr]
      simp only [FixedVector.clear, List.take_zero, List.nil_append, Sched.inUseSlots,
        List.range_eq_range']
      rfl
    have hol : (s.vTaskPrioritySet N h p).orderList.Perm
        (((s.vTaskPrioritySet N h p).inUseSlots N).map (s.vTaskPrioritySet N h p).keyOf) := by
      rw [← hkeys]
      unfold Sched.orderList
      rw [hr]
      dsimp only
      rw [g1]
      exact g3
    have hnodup : (s.vTaskPrioritySet N h p).orderList.Nodup :=
      hol.nodup_iff.2 (Sched.keys_nodup N _ hN)
    refine ⟨by rw [hr]; show (s.t.set _ _).length = N; rw [List.length_set]; exact h1,
      by rw [hr]; dsimp only; rw [g2]; exact r1,
      by rw [hr]; dsimp only; rw [g1]; omega, ?_, fun K => hol.mem_iff⟩
    apply pairwise_of_chain_nodup _ _ hnodup
    unfold Sched.orderList
    rw [hr]
    dsimp only
    rw [g1]
    exact g4
  · unfold Sched.vTaskPrioritySet
    rw [if_pos (by simpa using hv)]
    exact hinv

/-- Every interface call keeps the order invariant. -/
theorem call_exec_orderInv (N : Nat) (c : Call) (s : Sched) (hN : N ≤ 32)
    (hinv : s.OrderInv N) : (c.exec N s).1.OrderInv N := by
  cases c <;> simp only [Call.exec]
  case create cb d p => exact create_orderInv N s cb d p hN hinv
  case delete h => exact delete_orderInv N s h hN hinv
  case prioritySet h p => exact prioritySet_orderInv N s h p hN hinv
  case suspend h =>
    unfold Sched.vTaskSuspend
    split
    · exact hinv
    · exact orderInv_frame N s _ rfl
        (Or.inr ⟨h, _, rfl, TaskMeta.inUse_disable _, TaskMeta.prio_disable _⟩) hinv
  case resume h =>
    unfold Sched.vTaskResume
    split
    · exact hinv
    · dsimp only
      split <;> exact orderInv_frame N s _ rfl
        (Or.inr ⟨h, _, rfl, TaskMeta.inUse_enable _, TaskMeta.prio_enable _⟩) hinv
  case resumeAfter h ms =>
    unfold Sched.vTaskResumeAfter
    split
    · exact hinv
    · dsimp only
      split
      · split <;> exact orderInv_frame N s _ rfl
          (Or.inr ⟨h, _, rfl, TaskMeta.inUse_enable _, TaskMeta.prio_enable _⟩) hinv
      · split <;> exact orderInv_frame N s _ rfl
          (Or.inr ⟨h, _, rfl, TaskMeta.inUse_enable _, TaskMeta.prio_enable _⟩) hinv
  case notifyGive h =>
    unfold Sched.vTaskNotifyGive
    split
    · exact hinv
    · dsimp only
      split <;> exact orderInv_frame N s _ rfl
        (Or.inr ⟨h, _, rfl, TaskMeta.inUse_enable _, TaskMeta.prio_enable _⟩) hinv
  case notifyTake b =>
    unfold Sched.ulTaskNotifyTake
    split
    · exact hinv
    · dsimp only
      split
      · exact hinv
      · split <;> exact orderInv_frame N s _ rfl (Or.inl rfl) hinv
  case delay ms =>
    unfold Sched.vTaskDelay
    split
    · exact hinv
    · exact orderInv_frame N s _ rfl (Or.inl rfl) hinv
  case yieldNextTick =>
    unfold Sched.vTaskYieldNextTick
    split
    · exact hinv
    · exact orderInv_frame N s _ rfl (Or.inl rfl) hinv
  case delayUntil p =>
    unfold Sched.vTaskDelayUntil
    split
    · exact hinv
    · split
      · exact orderInv_frame N s _ rfl (Or.inl rfl) hinv
      · dsimp only
        split <;> exact orderInv_frame N s _ rfl (Or.inl rfl) hinv
  all_goals exact hinv

theorem calls_orderInv (N : Nat) (s : Sched) (l : List Call) (hN : N ≤ 32)
    (hinv : s.OrderInv N) : (s.calls N l).OrderInv N := by
  induction l generalizing s with
  | nil => exact hinv
  | cons c cs ih => exact ih _ (call_exec_orderInv N c s hN hinv)

/-- C18: in every state reached from a freshly constructed scheduler for
`N <= 32` tasks by a sequence of interface calls (`create`, `delete`, `suspend`,
`resume`, `resume_after`, `notify_give`, `priority_set`, and the other calls of
the interface too), `order.size()` is the number of slots in use, the listed
keys are, up to their arrangement, exactly the keys
`TaskKey(priority of slot i, i)` of the slots `i` in use, each slot in use is
listed once, and the listed keys are in strictly descending order. -/
theorem order_lists_in_use_slots (N quantumMs now : Nat) (l : List Call) (hN : N ≤ 32) :
    ((Sched.init N quantumMs now).calls N l).order.size
        = (((Sched.init N quantumMs now).calls N l).inUseSlots N).length ∧
      ((Sched.init N quantumMs now).calls N l).orderList.Perm
        ((((Sched.init N quantumMs now).calls N l).inUseSlots N).map
          ((Sched.init N quantumMs now).calls N l).keyOf) ∧
      (((Sched.init N quantumMs now).calls N l).orderList.map TaskKey.idx).Perm
        (((Sched.init N quantumMs now).calls N l).inUseSlots N) ∧
      ((Sched.init N quantumMs now).calls N l).orderList.Pairwise
        (fun a b => TaskKey.lt b a = true) :=
  Sched.OrderInv.spec N _ hN
    (calls_orderInv N _ l hN (Sched.init_orderInv N quantumMs now))

/-- C18, witness: a scheduler for 8 tasks; three tasks are created with
priorities 3, 5, 3, slot 0 is deleted, slot 2 is raised to priority 7 and slot 1
is suspended. The order vector then lists slot 2 (key `7 << 5 | 2`) before
slot 1 (key `5 << 5 | 1`). -/
theorem order_lists_in_use_slots_witness :
    (8 ≤ 32 ∧
      ((Sched.init 8 1 0).calls 8
        [.create (some 0) 0 3, .create (some 1) 0 5, .create (some 2) 0 3, .delete 0,
          .prioritySet 2 7, .suspend 1]).orderList = [⟨226⟩, ⟨161⟩] ∧
      ((Sched.init 8 1 0).calls 8
        [.create (some 0) 0 3, .create (some 1) 0 5, .create (some 2) 0 3, .delete 0,
          .prioritySet 2 7, .suspend 1]).inUseSlots 8 = [1, 2]) ∧
    ((Sched.init 8 1 0).calls 8
        [.create (some 0) 0 3, .create (some 1) 0 5, .create (some 2) 0 3, .delete 0,
          .prioritySet 2 7, .suspend 1]).order.size
      = (((Sched.init 8 1 0).calls 8
        [.create (some 0) 0 3, .create (some 1) 0 5, .create (some 2) 0 3, .delete 0,
          .prioritySet 2 7, .suspend 1]).inUseSlots 8).length :=
  ⟨by decide,
    (order_lists_in_use_slots 8 1 0
      [.create (some 0) 0 3, .create (some 1) 0 5, .create (some 2) 0 3, .delete 0,
        .prioritySet 2 7, .suspend 1] (by decide)).1⟩

/-! ## C11: translation of time -/

theorem add32_shift (a d m : Nat) : add32 (add32 a d) m = add32 (add32 a m) d := by
  unfold add32 U32
  omega

theorem sub32_shift (a b d : Nat) : sub32 (add32 a d) (add32 b d) = sub32 a b := by
  unfold sub32 add32 U32
  omega

theorem earlier_shift (a b d : Nat) : earlier (add32 a d) (add32 b d) = earlier a b := by
  unfold earlier
  rw [sub32_shift]

/-- What `ShiftedBy` says member by member. -/
theorem shiftedBy_fields {d : Nat} {s s2 : Sched} (h : s.ShiftedBy d s2) :
    s2.t = s.t.map (Task.shift d) ∧ s2.order = s.order ∧ s2.lastTick = add32 s.lastTick d ∧
      s2.tickNow = add32 s.tickNow d ∧ s2.tickMs = s.tickMs ∧ s2.currentId = s.currentId ∧
      s2.currentAnchor = add32 s.currentAnchor d ∧ s2.overrideSet = s.overrideSet ∧
      s2.overrideNext = add32 s.overrideNext d ∧ s2.cascadePending = s.cascadePending ∧
      s2.ranMask = s.ranMask ∧ s2.notifyCnt = s.notifyCnt := by
  unfold Sched.ShiftedBy Sched.shift at h
  obtain ⟨t, order, nextDue, lastTick, tickNow, tickMs, currentId, currentAnchor, overrideSet,
    overrideNext, cascadePending, ranMask, notifyCnt⟩ := s2
  simp only [Sched.mk.injEq] at h
  obtain ⟨h1, h2, _, h3, h4, h5, h6, h7, h8, h9, h10, h11, h12⟩ := h
  exact ⟨h1, h2, h3, h4, h5, h6, h7, h8, h9, h10, h11, h12⟩

theorem shiftedBy_of_fields {d : Nat} {s s2 : Sched}
    (h1 : s2.t = s.t.map (Task.shift d)) (h2 : s2.order = s.order)
    (h3 : s2.lastTick = add32 s.lastTick d) (h4 : s2.tickNow = add32 s.tickNow d)
    (h5 : s2.tickMs = s.tickMs) (h6 : s2.currentId = s.currentId)
    (h7 : s2.currentAnchor = add32 s.currentAnchor d) (h8 : s2.overrideSet = s.overrideSet)
    (h9 : s2.overrideNext = add32 s.overrideNext d)
    (h10 : s2.cascadePending = s.cascadePending) (h11 : s2.ranMask = s.ranMask)
    (h12 : s2.notifyCnt = s.notifyCnt) : s.ShiftedBy d s2 := by
  unfold Sched.ShiftedBy Sched.shift
  obtain ⟨t, order, nextDue, lastTick, tickNow, tickMs, currentId, currentAnchor, overrideSet,
    overrideNext, cascadePending, ranMask, notifyCnt⟩ := s2
  simp only [Sched.mk.injEq]
  exact ⟨h1, h2, trivial, h3, h4, h5, h6, h7, h8, h9, h10, h11, h12⟩


theorem getD_map_shift (d : Nat) (t : List Task) (i : Nat) :
    ((t.map (Task.shift d)).getD i default).meta = (t.getD i default).meta ∧
      ((t.map (Task.shift d)).getD i default).cb = (t.getD i default).cb ∧
      (i < t.length → (t.map (Task.shift d)).getD i default = (t.getD i default).shift d) := by
  by_cases hi : i < t.length
  · rw [List.getD_eq_getElem _ _ (by simpa using hi), List.getD_eq_getElem _ _ hi,
      List.getElem_map]
    exact ⟨rfl, rfl, fun _ => rfl⟩
  · rw [List.getD_eq_default _ _ (by simpa using hi), List.getD_eq_default _ _ (by omega)]
    exact ⟨rfl, rfl, fun h => absurd h hi⟩

theorem task_shifted (d : Nat) (s s2 : Sched) (h1 : s2.t = s.t.map (Task.shift d)) (i : Nat) :
    (s2.task i).meta = (s.task i).meta ∧ (s2.task i).cb = (s.task i).cb ∧
      (i < s.t.length → s2.task i = (s.task i).shift d) := by
  unfold Sched.task
  rw [h1]
  exact getD_map_shift d s.t i

theorem task_shifted_inUse (d : Nat) (s s2 : Sched) (h1 : s2.t = s.t.map (Task.shift d))
    (i : Nat) (hin : (s.task i).meta.inUse = true) : s2.task i = (s.task i).shift d :=
  (task_shifted d s s2 h1 i).2.2 (Sched.inUse_lt s i hin)

theorem isTaskIdValid_shifted (N d : Nat) (s s2 : Sched) (h1 : s2.t = s.t.map (Task.shift d))
    (i : Nat) : s2.isTaskIdValid N i = s.isTaskIdValid N i := by
  unfold Sched.isTaskIdValid
  rw [(task_shifted d s s2 h1 i).1]

theorem firstFree_shifted (d : Nat) (t : List Task) (n i : Nat) :
    Sched.firstFree (t.map (Task.shift d)) n i = Sched.firstFree t n i := by
  induction n generalizing i with
  | zero => rfl
  | succ n ih =>
    unfold Sched.firstFree
    rw [(getD_map_shift d t i).1, ih]

theorem suspend_shifted (N d : Nat) (s s2 : Sched) (h : Nat) (hs : s.ShiftedBy d s2) :
    (s.vTaskSuspend N h).ShiftedBy d (s2.vTaskSuspend N h) := by
  obtain ⟨h1, h2, h3, h4, h5, h6, h7, h8, h9, h10, h11, h12⟩ := shiftedBy_fields hs
  unfold Sched.vTaskSuspend
  rw [isTaskIdValid_shifted N d s s2 h1 h]
  by_cases hv : s.isTaskIdValid N h = true
  · have hin := (Sched.isTaskIdValid_lt N s h hv).2.2
    simp only [hv, Bool.not_true, Bool.false_eq_true, if_false]
    apply shiftedBy_of_fields <;> try assumption
    show s2.t.set h _ = (s.t.set h _).map _
    rw [List.map_set, h1, task_shifted_inUse d s s2 h1 h hin]
    rfl
  · have hv2 : s.isTaskIdValid N h = false := by simpa using hv
    simp only [hv2, Bool.not_false, if_true]
    exact hs

theorem resume_shifted (N d : Nat) (s s2 : Sched) (h : Nat) (hs : s.ShiftedBy d s2) :
    (s.vTaskResume N h).ShiftedBy d (s2.vTaskResume N h) := by
  obtain ⟨h1, h2, h3, h4, h5, h6, h7, h8, h9, h10, h11, h12⟩ := shiftedBy_fields hs
  unfold Sched.vTaskResume
  rw [isTaskIdValid_shifted N d s s2 h1 h]
  by_cases hv : s.isTaskIdValid N h = true
  · have hin := (Sched.isTaskIdValid_lt N s h hv).2.2
    simp only [hv, Bool.not_true, Bool.false_eq_true, if_false]
    have ht : s2.t.set h { s2.task h with next := s2.tickNow, meta := (s2.task h).meta.enable }
        = (s.t.set h { s.task h with next := s.tickNow, meta := (s.task h).meta.enable }).map
          (Task.shift d) := by
      rw [List.map_set, h1, task_shifted_inUse d s s2 h1 h hin, h4]
      rfl
    split <;> split <;> exact shiftedBy_of_fields ht h2 h3 h4 h5 h6 h7 h8 h9 rfl h11 h12
  · have hv2 : s.isTaskIdValid N h = false := by simpa using hv
    simp only [hv2, Bool.not_false, if_true]
    exact hs


theorem resumeAfter_shifted (N d : Nat) (s s2 : Sched) (h ms : Nat) (hs : s.ShiftedBy d s2) :
    (s.vTaskResumeAfter N h ms).ShiftedBy d (s2.vTaskResumeAfter N h ms) := by
  obtain ⟨h1, h2, h3, h4, h5, h6, h7, h8, h9, h10, h11, h12⟩ := shiftedBy_fields hs
  unfold Sched.vTaskResumeAfter
  rw [isTaskIdValid_shifted N d s s2 h1 h]
  by_cases hv : s.isTaskIdValid N h = true
  · have hin := (Sched.isTaskIdValid_lt N s h hv).2.2
    simp only [hv, Bool.not_true, Bool.false_eq_true, if_false]
    have ht : s2.t.set h
          { s2.task h with next := add32 s2.tickNow ms, meta := (s2.task h).meta.enable }
        = (s.t.set h
            { s.task h with next := add32 s.tickNow ms, meta := (s.task h).meta.enable }).map
          (Task.shift d) := by
      rw [List.map_set, h1, task_shifted_inUse d s s2 h1 h hin, h4, add32_shift]
      rfl
    by_cases hms : ms % U32 = 0
    · simp only [hms, if_true]
      split <;> split <;> exact shiftedBy_of_fields ht h2 h3 h4 h5 h6 h7 h8 h9 rfl h11 h12
    · simp only [hms, if_false]
      split <;> split <;> exact shiftedBy_of_fields ht h2 h3 h4 h5 h6 h7 h8 h9 h10 h11 h12
  · have hv2 : s.isTaskIdValid N h = false := by simpa using hv
    simp only [hv2, Bool.not_false, if_true]
    exact hs

theorem notifyGive_shifted (N d : Nat) (s s2 : Sched) (h : Nat) (hs : s.ShiftedBy d s2) :
    (s.vTaskNotifyGive N h).ShiftedBy d (s2.vTaskNotifyGive N h) := by
  obtain ⟨h1, h2, h3, h4, h5, h6, h7, h8, h9, h10, h11, h12⟩ := shiftedBy_fields hs
  unfold Sched.vTaskNotifyGive
  rw [isTaskIdValid_shifted N d s s2 h1 h]
  by_cases hv : s.isTaskIdValid N h = true
  · have hin := (Sched.isTaskIdValid_lt N s h hv).2.2
    simp only [hv, Bool.not_true, Bool.false_eq_true, if_false]
    have ht : s2.t.set h
          { s2.task h with meta := (s2.task h).meta.enable, next := s2.tickNow }
        = (s.t.set h
            { s.task h with meta := (s.task h).meta.enable, next := s.tickNow }).map
          (Task.shift d) := by
      rw [List.map_set, h1, task_shifted_inUse d s s2 h1 h hin, h4]
      rfl
    have hn : s2.notify h = s.notify h := by unfold Sched.notify; rw [h12]
    rw [hn, h12]
    by_cases hm : (s.notify h != MAX_NOTIFY_COUNT) = true
    · simp only [hm, if_true]
      split <;> split <;> exact shiftedBy_of_fields ht h2 h3 h4 h5 h6 h7 h8 h9 rfl h11 rfl
    · simp only [hm, Bool.false_eq_true, if_false]
      split <;> split <;> exact shiftedBy_of_fields ht h2 h3 h4 h5 h6 h7 h8 h9 rfl h11 rfl
  · have hv2 : s.isTaskIdValid N h = false := by simpa using hv
    simp only [hv2, Bool.not_false, if_true]
    exact hs

theorem notifyTake_shifted (d : Nat) (s s2 : Sched) (b : Bool) (hs : s.ShiftedBy d s2) :
    (s.ulTaskNotifyTake b).1.ShiftedBy d (s2.ulTaskNotifyTake b).1 ∧
      (s2.ulTaskNotifyTake b).2 = (s.ulTaskNotifyTake b).2 := by
  obtain ⟨h1, h2, h3, h4, h5, h6, h7, h8, h9, h10, h11, h12⟩ := shiftedBy_fields hs
  have hc : s2.hasCurrentTask = s.hasCurrentTask := by unfold Sched.hasCurrentTask; rw [h6]
  have hn : s2.notify s2.currentId = s.notify s.currentId := by
    unfold Sched.notify; rw [h12, h6]
  unfold Sched.ulTaskNotifyTake
  rw [hc, hn]
  split
  · exact ⟨hs, rfl⟩
  · dsimp only
    split
    · exact ⟨hs, rfl⟩
    · split
      · exact ⟨shiftedBy_of_fields h1 h2 h3 h4 h5 h6 h7 h8 h9 h10 h11 (by
          show s2.notifyCnt.set s2.currentId 0 = s.notifyCnt.set s.currentId 0
          rw [h12, h6]), rfl⟩
      · exact ⟨shiftedBy_of_fields h1 h2 h3 h4 h5 h6 h7 h8 h9 h10 h11 (by
          show s2.notifyCnt.set s2.currentId _ = s.notifyCnt.set s.currentId _
          rw [h12, h6]), rfl⟩

theorem delay_shifted (d : Nat) (s s2 : Sched) (ms : Nat) (hs : s.ShiftedBy d s2) :
    (s.vTaskDelay ms).ShiftedBy d (s2.vTaskDelay ms) := by
  obtain ⟨h1, h2, h3, h4, h5, h6, h7, h8, h9, h10, h11, h12⟩ := shiftedBy_fields hs
  have hc : s2.hasCurrentTask = s.hasCurrentTask := by unfold Sched.hasCurrentTask; rw [h6]
  unfold Sched.vTaskDelay
  rw [hc]
  split
  · exact hs
  · exact shiftedBy_of_fields h1 h2 h3 h4 h5 h6 h7 rfl (by
      show add32 s2.tickNow ms = add32 (add32 s.tickNow ms) d
      rw [h4, add32_shift]) h10 h11 h12

theorem yield_shifted (d : Nat) (s s2 : Sched) (hs : s.ShiftedBy d s2) :
    s.vTaskYieldNextTick.ShiftedBy d s2.vTaskYieldNextTick := by
  obtain ⟨h1, h2, h3, h4, h5, h6, h7, h8, h9, h10, h11, h12⟩ := shiftedBy_fields hs
  have hc : s2.hasCurrentTask = s.hasCurrentTask := by unfold Sched.hasCurrentTask; rw [h6]
  unfold Sched.vTaskYieldNextTick
  rw [hc]
  split
  · exact hs
  · exact shiftedBy_of_fields h1 h2 h3 h4 h5 h6 h7 rfl h4 h10 h11 h12

theorem delayUntil_shifted (d : Nat) (s s2 : Sched) (p : Nat) (hs : s.ShiftedBy d s2) :
    (s.vTaskDelayUntil p).ShiftedBy d (s2.vTaskDelayUntil p) := by
  obtain ⟨h1, h2, h3, h4, h5, h6, h7, h8, h9, h10, h11, h12⟩ := shiftedBy_fields hs
  have hc : s2.hasCurrentTask = s.hasCurrentTask := by unfold Sched.hasCurrentTask; rw [h6]
  have hl : sub32 s2.tickNow s2.currentAnchor = sub32 s.tickNow s.currentAnchor := by
    rw [h4, h7, sub32_shift]
  unfold Sched.vTaskDelayUntil
  rw [hc]
  split
  · exact hs
  · split
    · exact shiftedBy_of_fields h1 h2 h3 h4 h5 h6 h7 rfl h4 h10 h11 h12
    · dsimp only
      rw [hl]
      split
      · exact shiftedBy_of_fields h1 h2 h3 h4 h5 h6 h7 rfl (by
          show add32 s2.currentAnchor p = add32 (add32 s.currentAnchor p) d
          rw [h7, add32_shift]) h10 h11 h12
      · exact shiftedBy_of_fields h1 h2 h3 h4 h5 h6 h7 rfl (by
          show add32 s2.currentAnchor _ = add32 (add32 s.currentAnchor _) d
          rw [h7, add32_shift]) h10 h11 h12

theorem rebuildLoop_shifted (N d : Nat) (t : List Task) (n i : Nat) (o : FixedVector TaskKey) :
    Sched.rebuildLoop N (t.map (Task.shift d)) n i o = Sched.rebuildLoop N t n i o := by
  induction n generalizing i o with
  | zero => rfl
  | succ n ih =>
    unfold Sched.rebuildLoop
    rw [(getD_map_shift d t i).1, ih]

theorem create_shifted (N d : Nat) (s s2 : Sched) (cb : Option Nat) (delayMs prio : Nat)
    (hs : s.ShiftedBy d s2) :
    (s.xTaskCreate N cb delayMs prio).1.ShiftedBy d (s2.xTaskCreate N cb delayMs prio).1 ∧
      (s2.xTaskCreate N cb delayMs prio).2 = (s.xTaskCreate N cb delayMs prio).2 := by
  obtain ⟨h1, h2, h3, h4, h5, h6, h7, h8, h9, h10, h11, h12⟩ := shiftedBy_fields hs
  unfold Sched.xTaskCreate
  cases cb with
  | none => exact ⟨hs, rfl⟩
  | some f =>
    dsimp only
    rw [h1, firstFree_shifted]
    cases hff : Sched.firstFree s.t N 0 with
    | none => exact ⟨hs, rfl⟩
    | some i =>
      dsimp only
      have hm : (s2.task i).meta = (s.task i).meta := (task_shifted d s s2 h1 i).1
      rw [hm, h2, h4, h12]
      have ht : (s.t.map (Task.shift d)).set i
            { next := add32 (add32 s.tickNow d) delayMs, cb := some f,
              meta := ((((s.task i).meta.clear).setInUse true).setEnabled true).setPrio prio }
          = (s.t.set i
              { next := add32 s.tickNow delayMs, cb := some f,
                meta := ((((s.task i).meta.clear).setInUse true).setEnabled true).setPrio prio
                }).map (Task.shift d) := by
        rw [List.map_set, add32_shift]
        rfl
      split <;> split <;>
        exact ⟨shiftedBy_of_fields ht rfl h3 rfl h5 h6 h7 h8 h9 h10 h11 rfl, rfl⟩

theorem delete_shifted (N d : Nat) (s s2 : Sched) (h : Nat) (hs : s.ShiftedBy d s2) :
    (s.vTaskDelete N h).ShiftedBy d (s2.vTaskDelete N h) := by
  obtain ⟨h1, h2, h3, h4, h5, h6, h7, h8, h9, h10, h11, h12⟩ := shiftedBy_fields hs
  unfold Sched.vTaskDelete
  rw [isTaskIdValid_shifted N d s s2 h1 h]
  by_cases hv : s.isTaskIdValid N h = true
  · have hin := (Sched.isTaskIdValid_lt N s h hv).2.2
    simp only [hv, Bool.not_true, Bool.false_eq_true, if_false]
    have ht : s2.t.set h (s2.task h).markFree = (s.t.set h (s.task h).markFree).map
        (Task.shift d) := by
      rw [List.map_set, h1, task_shifted_inUse d s s2 h1 h hin]
      rfl
    have hp : Sched.findPosByIdx
          { s2 with t := s2.t.set h (s2.task h).markFree, notifyCnt := s2.notifyCnt.set h 0 } h
        = Sched.findPosByIdx
          { s with t := s.t.set h (s.task h).markFree, notifyCnt := s.notifyCnt.set h 0 } h := by
      unfold Sched.findPosByIdx
      dsimp only
      rw [h2]
    rw [hp]
    split
    · exact shiftedBy_of_fields ht (by show s2.order.erase _ = s.order.erase _; rw [h2])
        h3 h4 h5 h6 h7 h8 h9 h10 h11 (by show s2.notifyCnt.set h 0 = s.notifyCnt.set h 0; rw [h12])
    · exact shiftedBy_of_fields ht h2
        h3 h4 h5 h6 h7 h8 h9 h10 h11 (by show s2.notifyCnt.set h 0 = s.notifyCnt.set h 0; rw [h12])
  · have hv2 : s.isTaskIdValid N h = false := by simpa using hv
    simp only [hv2, Bool.not_false, if_true]
    exact hs

theorem prioritySet_shifted (N d : Nat) (s s2 : Sched) (h p : Nat) (hs : s.ShiftedBy d s2) :
    (s.vTaskPrioritySet N h p).ShiftedBy d (s2.vTaskPrioritySet N h p) := by
  obtain ⟨h1, h2, h3, h4, h5, h6, h7, h8, h9, h10, h11, h12⟩ := shiftedBy_fields hs
  unfold Sched.vTaskPrioritySet
  rw [isTaskIdValid_shifted N d s s2 h1 h]
  by_cases hv : s.isTaskIdValid N h = true
  · have hin := (Sched.isTaskIdValid_lt N s h hv).2.2
    simp only [hv, Bool.not_true, Bool.false_eq_true, if_false]
    have ht : s2.t.set h { s2.task h with meta := (s2.task h).meta.setPrio p }
        = (s.t.set h { s.task h with meta := (s.task h).meta.setPrio p }).map
          (Task.shift d) := by
      rw [List.map_set, h1, task_shifted_inUse d s s2 h1 h hin]
      rfl
    refine shiftedBy_of_fields ht ?_ h3 h4 h5 h6 h7 h8 h9 h10 h11 h12
    show FixedVector.sort_descending TaskKey.lt (Sched.rebuildLoop N (s2.t.set h _) N 0 s2.order.clear)
      = FixedVector.sort_descending TaskKey.lt (Sched.rebuildLoop N (s.t.set h _) N 0 s.order.clear)
    rw [ht, rebuildLoop_shifted, h2]
  · have hv2 : s.isTaskIdValid N h = false := by simpa using hv
    simp only [hv2, Bool.not_false, if_true]
    exact hs

/-- Every interface call commutes with the translation of time, `nextDue` left
aside; every call but `xTaskGetTickCount` returns the same value. -/
theorem call_exec_shifted (N d : Nat) (c : Call) (s s2 : Sched) (hs : s.ShiftedBy d s2) :
    (c.exec N s).1.ShiftedBy d (c.exec N s2).1 ∧
      (c ≠ Call.getTickCount → (c.exec N s2).2 = (c.exec N s).2) := by
  obtain ⟨h1, h2, h3, h4, h5, h6, h7, h8, h9, h10, h11, h12⟩ := shiftedBy_fields hs
  cases c <;> simp only [Call.exec]
  case create cb dl p =>
    exact ⟨(create_shifted N d s s2 cb dl p hs).1, fun _ => (create_shifted N d s s2 cb dl p hs).2⟩
  case delete h => exact ⟨delete_shifted N d s s2 h hs, fun _ => trivial⟩
  case suspend h => exact ⟨suspend_shifted N d s s2 h hs, fun _ => trivial⟩
  case resume h => exact ⟨resume_shifted N d s s2 h hs, fun _ => trivial⟩
  case resumeAfter h ms => exact ⟨resumeAfter_shifted N d s s2 h ms hs, fun _ => trivial⟩
  case notifyGive h => exact ⟨notifyGive_shifted N d s s2 h hs, fun _ => trivial⟩
  case notifyTake b =>
    exact ⟨(notifyTake_shifted d s s2 b hs).1, fun _ => (notifyTake_shifted d s s2 b hs).2⟩
  case getCurrentTaskHandle => exact ⟨hs, fun _ => h6⟩
  case getTickCount => exact ⟨hs, fun h => absurd rfl h⟩
  case delay ms => exact ⟨delay_shifted d s s2 ms hs, fun _ => trivial⟩
  case yieldNextTick => exact ⟨yield_shifted d s s2 hs, fun _ => trivial⟩
  case delayUntil p => exact ⟨delayUntil_shifted d s s2 p hs, fun _ => trivial⟩
  case prioritySet h p => exact ⟨prioritySet_shifted N d s s2 h p hs, fun _ => trivial⟩
  case priorityGet h =>
    refine ⟨hs, fun _ => ?_⟩
    unfold Sched.uxTaskPriorityGet
    rw [isTaskIdValid_shifted N d s s2 h1 h, (task_shifted d s s2 h1 h).1]
  case priorityGetCurrent =>
    refine ⟨hs, fun _ => ?_⟩
    unfold Sched.uxTaskPriorityGetCurrent Sched.hasCurrentTask
    rw [h6, (task_shifted d s s2 h1 s.currentId).1]

theorem prog_exec_shifted (N d : Nat) (p : Prog) (s s2 : Sched) (hs : s.ShiftedBy d s2)
    (hq : ∀ c ∈ (p.exec N s).2, c ≠ Call.getTickCount) :
    (p.exec N s).1.ShiftedBy d (p.exec N s2).1 ∧ (p.exec N s2).2 = (p.exec N s).2 := by
  induction p generalizing s s2 with
  | ret => exact ⟨hs, rfl⟩
  | call c k ih =>
    have hc : c ≠ Call.getTickCount := hq c (List.mem_cons_self _ _)
    obtain ⟨e1, e2⟩ := call_exec_shifted N d c s s2 hs
    have e3 := e2 hc
    unfold Prog.exec
    dsimp only
    rw [e3]
    obtain ⟨i1, i2⟩ := ih (c.exec N s).2 (c.exec N s).1 (c.exec N s2).1 e1
      (fun c2 hc2 => hq c2 (List.mem_cons_of_mem _ hc2))
    exact ⟨i1, by rw [i2]⟩

theorem map_shift_map_call (d : Nat) (l : List Call) :
    (l.map Event.call).map (Event.shift d) = l.map Event.call := by
  induction l with
  | nil => rfl
  | cons c cs ih =>
    simp only [List.map_cons, ih]
    rfl

theorem runCall_shifted (N d : Nat) (code : Nat → Prog) (s s2 : Sched) (idx : Nat)
    (hs : s.ShiftedBy d s2) (hin : (s.task idx).meta.inUse = true)
    (hq : ∀ c ∈ (runCall N code s idx).2, c ≠ Call.getTickCount) :
    (runCall N code s idx).1.ShiftedBy d (runCall N code s2 idx).1 ∧
      (runCall N code s2 idx).2 = (runCall N code s idx).2 := by
  obtain ⟨h1, h2, h3, h4, h5, h6, h7, h8, h9, h10, h11, h12⟩ := shiftedBy_fields hs
  have hx := task_shifted_inUse d s s2 h1 idx hin
  have hs1 : Sched.ShiftedBy d
      { s with currentId := idx, currentAnchor := (s.task idx).next, overrideSet := false }
      { s2 with currentId := idx, currentAnchor := (s2.task idx).next, overrideSet := false } :=
    shiftedBy_of_fields h1 h2 h3 h4 h5 rfl (by rw [hx]; rfl) rfl h9 h10 h11 h12
  unfold runCall at hq ⊢
  dsimp only at hq ⊢
  rw [(task_shifted d s s2 h1 idx).2.1]
  cases hcb : (s.task idx).cb with
  | none => exact ⟨hs1, rfl⟩
  | some f =>
    rw [hcb] at hq
    exact prog_exec_shifted N d (code f) _ _ hs1 hq

theorem runCommit_shifted (d : Nat) (s s2 : Sched) (nnd nnd2 idx : Nat)
    (hs : s.ShiftedBy d s2) :
    (runCommit s nnd idx).s.ShiftedBy d (runCommit s2 nnd2 idx).s ∧
      (runCommit s2 nnd2 idx).anyRanThisPass = (runCommit s nnd idx).anyRanThisPass := by
  obtain ⟨h1, h2, h3, h4, h5, h6, h7, h8, h9, h10, h11, h12⟩ := shiftedBy_fields hs
  have hm : (s2.task idx).meta = (s.task idx).meta := (task_shifted d s s2 h1 idx).1
  have hcb : (s2.task idx).cb = (s.task idx).cb := (task_shifted d s s2 h1 idx).2.1
  have ht1 :
      s2.t.set idx { s2.task idx with next := s2.overrideNext, meta := (s2.task idx).meta.enable }
        = (s.t.set idx
            { s.task idx with next := s.overrideNext, meta := (s.task idx).meta.enable }).map
          (Task.shift d) := by
    rw [List.map_set, h1]
    dsimp only [Task.shift]
    rw [hm, hcb, h9]
  have ht2 : s2.t.set idx { s2.task idx with meta := (s2.task idx).meta.disable }
      = (s.t.set idx { s.task idx with meta := (s.task idx).meta.disable }).map
        (Task.shift d) := by
    by_cases hlt : idx < s.t.length
    · rw [List.map_set, h1, (task_shifted d s s2 h1 idx).2.2 hlt]
      rfl
    · rw [List.set_eq_of_length_le (by rw [h1, List.length_map]; omega),
        List.set_eq_of_length_le (by omega), h1]
  unfold runCommit
  dsimp only
  rw [h8]
  have e : ∀ (a b : Sched), Sched.task { a with currentId := INVALID_TASK_ID, ranMask := b.ranMask }
      idx = a.task idx := fun _ _ => rfl
  cases ho : s.overrideSet with
  | true =>
    simp only [if_true]
    exact ⟨shiftedBy_of_fields ht1 h2 h3 h4 h5 rfl h7 rfl h9 h10
      (by show s2.ranMask.set idx = s.ranMask.set idx; rw [h11]) h12, trivial⟩
  | false =>
    simp only [Bool.false_eq_true, if_false]
    exact ⟨shiftedBy_of_fields ht2 h2 h3 h4 h5 rfl h7 rfl h9 h10
      (by show s2.ranMask.set idx = s.ranMask.set idx; rw [h11]) h12, trivial⟩

theorem runBody_shifted (N d : Nat) (code : Nat → Prog) (k : Nat) (st st2 : RunSt)
    (hs : st.s.ShiftedBy d st2.s) (ha : st2.anyRanThisPass = st.anyRanThisPass)
    (hq : ∀ c, Event.call c ∈ (runBody N code k st).2 → c ≠ Call.getTickCount) :
    (runBody N code k st).1.s.ShiftedBy d (runBody N code k st2).1.s ∧
      (runBody N code k st2).1.anyRanThisPass = (runBody N code k st).1.anyRanThisPass ∧
      (runBody N code k st2).2 = (runBody N code k st).2.map (Event.shift d) := by
  obtain ⟨h1, h2, h3, h4, h5, h6, h7, h8, h9, h10, h11, h12⟩ := shiftedBy_fields hs
  have hm : (st2.s.task (st.s.order.get k).idx).meta = (st.s.task (st.s.order.get k).idx).meta :=
    (task_shifted d st.s st2.s h1 _).1
  have hcb : (st2.s.task (st.s.order.get k).idx).cb = (st.s.task (st.s.order.get k).idx).cb :=
    (task_shifted d st.s st2.s h1 _).2.1
  have hr : (st2.s.task (st.s.order.get k).idx).ready = (st.s.task (st.s.order.get k).idx).ready := by
    unfold Task.ready
    rw [hm, hcb]
  unfold runBody at hq ⊢
  dsimp only at hq ⊢
  rw [h2, hr, h11]
  by_cases hrd : (st.s.task (st.s.order.get k).idx).ready = true
  · have hin := Task.ready_inUse _ hrd
    have hx := task_shifted_inUse d st.s st2.s h1 _ hin
    simp only [hrd, Bool.not_true, Bool.false_eq_true, if_false] at hq ⊢
    by_cases hmask : st.s.ranMask.get (st.s.order.get k).idx = true
    · simp only [hmask, if_true]
      exact ⟨hs, ha, rfl⟩
    · simp only [hmask, Bool.false_eq_true, if_false] at hq ⊢
      have he : earlier st2.s.tickNow (st2.s.task (st.s.order.get k).idx).next
          = earlier st.s.tickNow (st.s.task (st.s.order.get k).idx).next := by
        rw [h4, hx]
        exact earlier_shift _ _ _
      rw [he]
      by_cases hdue : earlier st.s.tickNow (st.s.task (st.s.order.get k).idx).next = true
      · simp only [hdue, if_true]
        refine ⟨?_, ?_, rfl⟩
        · split <;> split <;> exact hs
        · split <;> split <;> exact ha
      · simp only [hdue, Bool.false_eq_true, if_false] at hq ⊢
        obtain ⟨c1, c2⟩ := runCall_shifted N d code st.s st2.s _ hs hin (fun c hc =>
          hq c (List.mem_cons_of_mem _ ((mem_map_call c _).2 hc)))
        obtain ⟨c3, c4⟩ := runCommit_shifted d _ _ st.newNextDue st2.newNextDue
          (st.s.order.get k).idx c1
        refine ⟨c3, c4, ?_⟩
        rw [c2, List.map_cons, map_shift_map_call, hx]
        rfl
  · have hrd2 : (st.s.task (st.s.order.get k).idx).ready = false := by simpa using hrd
    simp only [hrd2, Bool.not_false, if_true]
    exact ⟨hs, ha, rfl⟩

theorem runPass_shifted (N d : Nat) (code : Nat → Prog) (n k : Nat) (st st2 : RunSt)
    (hs : st.s.ShiftedBy d st2.s) (ha : st2.anyRanThisPass = st.anyRanThisPass)
    (hq : ∀ c, Event.call c ∈ (runPass N code n k st).2 → c ≠ Call.getTickCount) :
    (runPass N code n k st).1.s.ShiftedBy d (runPass N code n k st2).1.s ∧
      (runPass N code n k st2).1.anyRanThisPass = (runPass N code n k st).1.anyRanThisPass ∧
      (runPass N code n k st2).2 = (runPass N code n k st).2.map (Event.shift d) := by
  induction n generalizing k st st2 with
  | zero => exact ⟨hs, ha, rfl⟩
  | succ n ih =>
    have hsize : st2.s.order.size = st.s.order.size := by rw [(shiftedBy_fields hs).2.1]
    by_cases hk : k < st.s.order.size
    · rw [runPass_succ_lt N code n k st hk] at hq ⊢
      rw [runPass_succ_lt N code n k st2 (by rw [hsize]; exact hk)]
      obtain ⟨b1, b2, b3⟩ := runBody_shifted N d code k st st2 hs ha
        (fun c hc => hq c (List.mem_append_left _ hc))
      obtain ⟨i1, i2, i3⟩ := ih (k + 1) _ _ b1 b2 (fun c hc => hq c (List.mem_append_right _ hc))
      exact ⟨i1, i2, by rw [b3, i3, List.map_append]⟩
    · rw [runPass_succ_ge N code n k st hk, runPass_succ_ge N code n k st2 (by rw [hsize]; exact hk)]
      exact ⟨hs, ha, rfl⟩

theorem endPass_shifted (d : Nat) (st st2 : RunSt)
    (hs : st.s.ShiftedBy d st2.s) (ha : st2.anyRanThisPass = st.anyRanThisPass) :
    (endPass st).s.ShiftedBy d (endPass st2).s ∧
      (endPass st2).anyRanThisPass = (endPass st).anyRanThisPass := by
  obtain ⟨h1, h2, h3, h4, h5, h6, h7, h8, h9, h10, h11, h12⟩ := shiftedBy_fields hs
  refine ⟨shiftedBy_of_fields h1 h2 h3 h4 h5 h6 h7 h8 h9 ?_ h11 h12, ha⟩
  show (st2.s.cascadePending && st2.anyRanThisPass) = (st.s.cascadePending && st.anyRanThisPass)
  rw [h10, ha]

theorem runDrain_shifted (N d : Nat) (code : Nat → Prog) (n : Nat) (st st2 : RunSt)
    (hs : st.s.ShiftedBy d st2.s)
    (hq : ∀ c, Event.call c ∈ (runDrain N code n st).2 → c ≠ Call.getTickCount) :
    (runDrain N code n st).1.s.ShiftedBy d (runDrain N code n st2).1.s ∧
      (runDrain N code n st2).2 = (runDrain N code n st).2.map (Event.shift d) := by
  induction n generalizing st st2 with
  | zero =>
    rw [runDrain_zero] at hq ⊢
    rw [runDrain_zero]
    obtain ⟨p1, p2, p3⟩ := runPass_shifted N d code N 0 { st with anyRanThisPass := false }
      { st2 with anyRanThisPass := false } hs rfl hq
    exact ⟨(endPass_shifted d _ _ p1 p2).1, p3⟩
  | succ m ih =>
    by_cases hc : (endPass (runPass N code N 0 { st with anyRanThisPass := false }).1).s.cascadePending
        = true
    · rw [runDrain_succ_pos N code m st hc] at hq ⊢
      obtain ⟨p1, p2, p3⟩ := runPass_shifted N d code N 0 { st with anyRanThisPass := false }
        { st2 with anyRanThisPass := false } hs rfl (fun c hcm => hq c (List.mem_append_left _ hcm))
      obtain ⟨e1, e2⟩ := endPass_shifted d _ _ p1 p2
      have hc2 : (endPass (runPass N code N 0 { st2 with anyRanThisPass := false }).1).s.cascadePending
          = true := by
        rw [(shiftedBy_fields e1).2.2.2.2.2.2.2.2.2.1]
        exact hc
      rw [runDrain_succ_pos N code m st2 hc2]
      obtain ⟨i1, i2⟩ := ih _ _ e1 (fun c hcm => hq c (List.mem_append_right _ hcm))
      exact ⟨i1, by rw [p3, i2, List.map_append]⟩
    · rw [runDrain_succ_neg N code m st hc] at hq ⊢
      obtain ⟨p1, p2, p3⟩ := runPass_shifted N d code N 0 { st with anyRanThisPass := false }
        { st2 with anyRanThisPass := false } hs rfl hq
      obtain ⟨e1, e2⟩ := endPass_shifted d _ _ p1 p2
      have hc2 : ¬ (endPass (runPass N code N 0 { st2 with anyRanThisPass := false }).1).s.cascadePending
          = true := by
        rw [(shiftedBy_fields e1).2.2.2.2.2.2.2.2.2.1]
        exact hc
      rw [runDrain_succ_neg N code m st2 hc2]
      exact ⟨e1, p3⟩

theorem shift_shiftedBy (d : Nat) (s : Sched) : s.ShiftedBy d (s.shift d) := rfl

/-- One call of `run` under a translation of time: for every state `s`,
timestamp `now`, offset `d` and task functions, if no task function entered
by `run(now)` on `s` calls `xTaskGetTickCount`, then `run(now + d)` on `s`
moved `d` ms later (every stored time value, mod 2^32) produces the same
events in the same order (the same slots dispatched and the same calls made,
the anchors moved by `d`) and leaves the state that `run(now)` leaves on `s`,
moved `d` ms later, in every member except `nextDue`. The member `nextDue`,
which decides whether the next call returns on the fast path, is not covered. -/
theorem run_translation (N : Nat) (code : Nat → Prog) (s : Sched) (now d : Nat)
    (hq : ∀ c, Event.call c ∈ (run N code s now).2 → c ≠ Call.getTickCount) :
    (run N code (s.shift d) (add32 now d)).2 = (run N code s now).2.map (Event.shift d) ∧
      dispatched (run N code (s.shift d) (add32 now d)).2 = dispatched (run N code s now).2 ∧
      (run N code s now).1.ShiftedBy d (run N code (s.shift d) (add32 now d)).1 := by
  have hmain : (run N code (s.shift d) (add32 now d)).2 = (run N code s now).2.map (Event.shift d) ∧
      (run N code s now).1.ShiftedBy d (run N code (s.shift d) (add32 now d)).1 := by
    have hgate : sub32 (add32 now d) (s.shift d).lastTick = sub32 now s.lastTick :=
      sub32_shift _ _ _
    have htick : add32 (s.shift d).lastTick (s.shift d).tickMs
        = add32 (add32 s.lastTick s.tickMs) d := add32_shift _ _ _
    by_cases hg : sub32 now s.lastTick < s.tickMs
    · rw [run_gated N code s now hg, run_gated N code (s.shift d) (add32 now d) (by
        rw [hgate]; exact hg)]
      exact ⟨rfl, shift_shiftedBy d s⟩
    · have hg2 : ¬ sub32 (add32 now d) (s.shift d).lastTick < (s.shift d).tickMs := by
        rw [hgate]; exact hg
      by_cases hf : earlier (add32 s.lastTick s.tickMs) s.nextDue = true
      · have hf2 : earlier (add32 (s.shift d).lastTick (s.shift d).tickMs) (s.shift d).nextDue
            = true := by
          rw [htick]
          show earlier _ (add32 s.nextDue d) = true
          rw [earlier_shift]
          exact hf
        rw [run_fast N code s now hg hf, run_fast N code (s.shift d) (add32 now d) hg2 hf2]
        refine ⟨rfl, ?_⟩
        obtain ⟨h1, h2, h3, h4, h5, h6, h7, h8, h9, h10, h11, h12⟩ :=
          shiftedBy_fields (shift_shiftedBy d s)
        exact shiftedBy_of_fields h1 h2 htick htick h5 h6 h7 h8 h9 h10 h11 h12
      · have hf1 : earlier (add32 s.lastTick s.tickMs) s.nextDue = false := by simpa using hf
        have hf2 : earlier (add32 (s.shift d).lastTick (s.shift d).tickMs) (s.shift d).nextDue
            = false := by
          rw [htick]
          show earlier _ (add32 s.nextDue d) = false
          rw [earlier_shift]
          exact hf1
        rw [run_drained N code s now hg hf1] at hq ⊢
        rw [run_drained N code (s.shift d) (add32 now d) hg2 hf2]
        obtain ⟨h1, h2, h3, h4, h5, h6, h7, h8, h9, h10, h11, h12⟩ :=
          shiftedBy_fields (shift_shiftedBy d s)
        have hs0 : Sched.ShiftedBy d
            { s with lastTick := add32 s.lastTick s.tickMs
                     tickNow := add32 s.lastTick s.tickMs
                     ranMask := s.ranMask.clear
                     cascadePending := false }
            { s.shift d with
                lastTick := add32 (s.shift d).lastTick (s.shift d).tickMs
                tickNow := add32 (s.shift d).lastTick (s.shift d).tickMs
                ranMask := (s.shift d).ranMask.clear
                cascadePending := false } :=
          shiftedBy_of_fields h1 h2 htick htick h5 h6 h7 h8 h9 rfl rfl h12
        obtain ⟨r1, r2⟩ := runDrain_shifted N d code (N - 1)
          { s := { s with lastTick := add32 s.lastTick s.tickMs
                          tickNow := add32 s.lastTick s.tickMs
                          ranMask := s.ranMask.clear
                          cascadePending := false }
            newNextDue := UINT32_MAX
            anyRanThisPass := false }
          { s := { s.shift d with
                     lastTick := add32 (s.shift d).lastTick (s.shift d).tickMs
                     tickNow := add32 (s.shift d).lastTick (s.shift d).tickMs
                     ranMask := (s.shift d).ranMask.clear
                     cascadePending := false }
            newNextDue := UINT32_MAX
            anyRanThisPass := false } hs0 hq
        refine ⟨r2, ?_⟩
        obtain ⟨g1, g2, g3, g4, g5, g6, g7, g8, g9, g10, g11, g12⟩ := shiftedBy_fields r1
        exact shiftedBy_of_fields g1 g2 g3 g4 g5 g6 g7 g8 g9 g10 g11 g12
  refine ⟨hmain.1, ?_, hmain.2⟩
  rw [hmain.1]
  generalize (run N code s now).2 = l
  induction l with
  | nil => rfl
  | cons e es ih =>
    cases e with
    | dispatch i a => simp only [List.map_cons, Event.shift, dispatched, ih]
    | call c => simp only [List.map_cons, Event.shift, dispatched, ih]

/-- The lemma above at the "lost wake" scenario built at time 100, `now = 101`
and `d = 4294967180`: the moved run dispatches A, then B. -/
theorem run_translation_at_wrap :
    (∀ c, Event.call c ∈ (run 8 lostWakeCode (lostWakeAt 100) 101).2 → c ≠ Call.getTickCount) ∧
    (run 8 lostWakeCode ((lostWakeAt 100).shift 4294967180) (add32 101 4294967180)).2
      = (run 8 lostWakeCode (lostWakeAt 100) 101).2.map (Event.shift 4294967180) ∧
    dispatched (run 8 lostWakeCode ((lostWakeAt 100).shift 4294967180)
      (add32 101 4294967180)).2 = [0, 1] :=
  have hlog : (run 8 lostWakeCode (lostWakeAt 100) 101).2
      = [.dispatch 0 100, .call (.delay 1000), .dispatch 1 100, .call (.notifyGive 0),
          .call (.delay 1000)] := by decide
  have hq : ∀ c, Event.call c ∈ (run 8 lostWakeCode (lostWakeAt 100) 101).2 →
      c ≠ Call.getTickCount := by
    intro c hc
    rw [hlog] at hc
    simp only [List.mem_cons, List.mem_singleton, List.not_mem_nil, or_false] at hc
    rcases hc with h | h | h | h | h <;> cases h <;> decide
  ⟨hq, (run_translation 8 lostWakeCode (lostWakeAt 100) 101 4294967180 hq).1,
    (run_translation 8 lostWakeCode (lostWakeAt 100) 101 4294967180 hq).2.1.trans (by decide)⟩

/-- C11 (code defect): time translation fails on the "lost wake" scenario.
Built at time 100 and driven at ticks 101 to 120, the scheduler invokes A at
ticks 101 and 102; built at time `0xFFFFFFF0` and driven at the same relative
ticks, which straddle `0xFFFFFFFF -> 0`, it invokes A at `0xFFFFFFF1` and
only again at `0xFFFFFFFF`: the first `run` call leaves `nextDue = UINT32_MAX`
while A is ready with wake time `0xFFFFFFF1`, and `earlier` takes the tick
`0xFFFFFFF2` to lie before `UINT32_MAX`, which it does not for the tick 102.
Likewise for the state built at 100 with `d = 4294967180` added to every
stored time value: `run(101)` and `run(101 + d)` invoke the same slots, but
the second leaves `nextDue = UINT32_MAX` while A is ready, which is not the
`nextDue` of the first run plus `d`; then `run(102)` invokes A and
`run(102 + d)` returns on the fast path and invokes nothing. -/
theorem run_not_translation_invariant :
    dispatchTimes 8 lostWakeCode 0 (lostWakeAt 100) (List.range' 101 20) = [101, 102] ∧
      dispatchTimes 8 lostWakeCode 0 (lostWakeAt 4294967280)
          ((List.range' 101 20).map (fun t => add32 t 4294967180))
        = [4294967281, 4294967295] ∧
      (List.range' 101 20).map (fun t => add32 t 4294967180)
        = List.range' 4294967281 15 ++ List.range' 0 5 ∧
      (run 8 lostWakeCode (lostWakeAt 4294967280) 4294967281).1.nextDue = UINT32_MAX ∧
      ((run 8 lostWakeCode (lostWakeAt 4294967280) 4294967281).1.task 0).ready = true ∧
      ((run 8 lostWakeCode (lostWakeAt 4294967280) 4294967281).1.task 0).next = 4294967281 ∧
      earlier 4294967282 UINT32_MAX = true ∧ earlier 102 UINT32_MAX = false ∧
      dispatched (run 8 lostWakeCode ((lostWakeAt 100).shift 4294967180) (add32 101 4294967180)).2
        = dispatched (run 8 lostWakeCode (lostWakeAt 100) 101).2 ∧
      (run 8 lostWakeCode ((lostWakeAt 100).shift 4294967180) (add32 101 4294967180)).1
        ≠ (run 8 lostWakeCode (lostWakeAt 100) 101).1.shift 4294967180 ∧
      (run 8 lostWakeCode ((lostWakeAt 100).shift 4294967180) (add32 101 4294967180)).1.nextDue
        = UINT32_MAX ∧
      ((run 8 lostWakeCode ((lostWakeAt 100).shift 4294967180)
        (add32 101 4294967180)).1.task 0).ready = true ∧
      ((run 8 lostWakeCode ((lostWakeAt 100).shift 4294967180)
        (add32 101 4294967180)).1.task 0).next = 4294967281 ∧
      ((run 8 lostWakeCode (lostWakeAt 100) 101).1.shift 4294967180).nextDue = 4294967179 ∧
      dispatched (run 8 lostWakeCode (run 8 lostWakeCode (lostWakeAt 100) 101).1 102).2 = [0] ∧
      dispatched (run 8 lostWakeCode
        (run 8 lostWakeCode ((lostWakeAt 100).shift 4294967180) (add32 101 4294967180)).1
        (add32 102 4294967180)).2 = [] := by
  decide

/-! ## C19: `nextDue` when `run` returns -/

/-- C19 (code defect): in the "late resume" scenario A runs at tick 3000000001
and auto-suspends, then B calls `resume_after(A, 5)` and `delay(1000)`. When
`run` returns, A is ready with wake time 3000000006, but `nextDue` is
3000001001, which is not `UINT32_MAX` and lies after A's wake time: `run` ends
with `nextDue = newNextDue`, and the loop had passed A before its wake time
was set. The calls of `run` for the next ten ticks return on the fast path and
A, due at 3000000006, is not dispatched. -/
theorem next_due_after_ready_wake :
    (run 8 lateResumeCode lateResumeStart 3000000001).2
        = [.dispatch 0 3000000000, .dispatch 1 3000000000, .call (.resumeAfter 0 5),
            .call (.delay 1000)] ∧
      (run 8 lateResumeCode lateResumeStart 3000000001).1.nextDue = 3000001001 ∧
      (run 8 lateResumeCode lateResumeStart 3000000001).1.nextDue ≠ UINT32_MAX ∧
      ((run 8 lateResumeCode lateResumeStart 3000000001).1.task 0).ready = true ∧
      ((run 8 lateResumeCode lateResumeStart 3000000001).1.task 0).next = 3000000006 ∧
      earlier ((run 8 lateResumeCode lateResumeStart 3000000001).1.task 0).next
        (run 8 lateResumeCode lateResumeStart 3000000001).1.nextDue = true ∧
      dispatchTimes 8 lateResumeCode 0 (run 8 lateResumeCode lateResumeStart 3000000001).1
        (List.range' 3000000002 10) = [] := by
  decide

/-! ## C21: the packed key is order-preserving -/

theorem TaskKey.prio_set (p i : Nat) (hp : p ≤ 7) (hi : i < 32) : (TaskKey.set p i).prio = p := by
  unfold TaskKey.prio
  rw [TaskKey.set_v p i hp hi, Nat.shiftRight_eq_div_pow]
  omega

/-- C21: for priorities `p`, `p2` in 0..7 and indices `i`, `i2` in 0..31,
`TaskKey(p, i).prio()` is `p`, `TaskKey(p, i).idx()` is `i`, and
`TaskKey(p, i) < TaskKey(p2, i2)` holds exactly when `p < p2`, or `p = p2` and
`i < i2`: the byte order of the keys is the lexicographic order on
(priority, index). -/
theorem taskKey_order_is_lexicographic (p p2 i i2 : Nat) (hp : p ≤ 7) (hp2 : p2 ≤ 7)
    (hi : i ≤ 31) (hi2 : i2 ≤ 31) :
    (TaskKey.set p i).prio = p ∧ (TaskKey.set p i).idx = i ∧
      (TaskKey.lt (TaskKey.set p i) (TaskKey.set p2 i2) = true ↔
        p < p2 ∨ (p = p2 ∧ i < i2)) := by
  refine ⟨TaskKey.prio_set p i hp (by omega), TaskKey.idx_set p i (by omega), ?_⟩
  unfold TaskKey.lt
  rw [TaskKey.set_v p i hp (by omega), TaskKey.set_v p2 i2 hp2 (by omega), decide_eq_true_eq]
  omega

/-- C21, witness: priority 5 with indices 1 and 2, and priorities 5 and 6 with
the indices 31 and 0. -/
theorem taskKey_order_is_lexicographic_witness :
    ((5 ≤ 7 ∧ 6 ≤ 7) ∧ (1 ≤ 31 ∧ 2 ≤ 31 ∧ 31 ≤ 31 ∧ 0 ≤ 31)) ∧
    (TaskKey.set 5 1).prio = 5 ∧ (TaskKey.set 5 1).idx = 1 ∧
    TaskKey.lt (TaskKey.set 5 1) (TaskKey.set 5 2) = true ∧
    TaskKey.lt (TaskKey.set 5 31) (TaskKey.set 6 0) = true :=
  ⟨by decide,
    (taskKey_order_is_lexicographic 5 5 1 2 (by decide) (by decide) (by decide) (by decide)).1,
    (taskKey_order_is_lexicographic 5 5 1 2 (by decide) (by decide) (by decide) (by decide)).2.1,
    (taskKey_order_is_lexicographic 5 5 1 2 (by decide) (by decide) (by decide)
      (by decide)).2.2.2 (Or.inr ⟨rfl, by decide⟩),
    (taskKey_order_is_lexicographic 5 6 31 0 (by decide) (by decide) (by decide)
      (by decide)).2.2.2 (Or.inl (by decide))⟩

end TaskScheduler
